import Mathlib

/-!
Verification of the willow graph store and its version-control layer.

This file gives a shallow embedding of the core of the `willow-core` crate:
the in-memory graph model (`model.rs`), the `GraphStore` mutations
(`store.rs`), delta replay (`vcs/types.rs`), commit creation and
reconstruction (`vcs/repository.rs`), merge-base discovery and three-way
merge (`vcs/merge.rs`), and the BFS search scorer (`search.rs`).

Modelling conventions:
* Rust `HashMap<K, V>` becomes an association list `List (String × α)`
  with lookup / insert-replacing / erase helpers (`alookup`, `ainsert`,
  `aerase`); well-formed stores keep keys distinct, mirroring the map.
* Timestamps (`DateTime<Utc>`) become `Nat`; the current time is threaded
  as an explicit `now` argument where the source calls `Utc::now()`.
* `Uuid::new_v4()` becomes an explicit fresh-identifier argument.
* Filesystem saves become a `saveOk : Bool` argument: the atomic
  tmp-rename write either fully replaces the on-disk graph or fails
  leaving it unchanged.
* Unbounded Rust loops and recursion become fuel-indexed functions.
* `f64` scores become `ℚ` (the scorer branches only on integer data).
-/

namespace Willow

/-! ## Association-list helpers (model of Rust HashMap) -/

def alookup {α : Type} : List (String × α) → String → Option α
  | [], _ => none
  | (k', v) :: t, k => if k' = k then some v else alookup t k

/-- Insert-or-replace at a key, keeping the entry position (HashMap::insert). -/
def ainsert {α : Type} : List (String × α) → String → α → List (String × α)
  | [], k, v => [(k, v)]
  | (k', v') :: t, k, v =>
    if k' = k then (k, v) :: t else (k', v') :: ainsert t k v

/-- Apply a function to the value stored at a key, if present (HashMap::get_mut). -/
def amodify {α : Type} : List (String × α) → String → (α → α) → List (String × α)
  | [], _, _ => []
  | (k', v') :: t, k, f =>
    if k' = k then (k', f v') :: t else (k', v') :: amodify t k f

/-- Remove the entry at a key (HashMap::remove). -/
def aerase {α : Type} (l : List (String × α)) (k : String) : List (String × α) :=
  l.filter (fun p => p.1 ≠ k)

def akeys {α : Type} (l : List (String × α)) : List String :=
  l.map (fun p => p.1)

theorem alookup_ainsert_self {α : Type} (l : List (String × α)) (k : String) (v : α) :
    alookup (ainsert l k v) k = some v := by
  induction l with
  | nil => simp [ainsert, alookup]
  | cons p t ih =>
    obtain ⟨k', v'⟩ := p
    by_cases hk : k' = k
    · subst hk
      rw [ainsert, if_pos rfl, alookup, if_pos rfl]
    · rw [ainsert, if_neg hk, alookup, if_neg hk]
      exact ih

theorem alookup_ainsert_ne {α : Type} (l : List (String × α)) (k : String) (v : α)
    (k' : String) (h : k' ≠ k) : alookup (ainsert l k v) k' = alookup l k' := by
  induction l with
  | nil =>
    show (if k = k' then some v else alookup [] k') = alookup [] k'
    rw [if_neg (fun he => h he.symm)]
  | cons p t ih =>
    obtain ⟨k0, v0⟩ := p
    by_cases hk : k0 = k
    · subst hk
      rw [ainsert, if_pos rfl, alookup, alookup, if_neg (fun he => h he.symm),
        if_neg (fun he => h he.symm)]
    · rw [ainsert, if_neg hk, alookup, alookup]
      by_cases hk' : k0 = k'
      · rw [if_pos hk', if_pos hk']
      · rw [if_neg hk', if_neg hk']
        exact ih

theorem ainsert_fresh_append {α : Type} (l : List (String × α)) (k : String) (v : α)
    (h : alookup l k = none) : ainsert l k v = l ++ [(k, v)] := by
  induction l with
  | nil => rfl
  | cons p t ih =>
    obtain ⟨k', v'⟩ := p
    rw [alookup] at h
    by_cases hk : k' = k
    · rw [if_pos hk] at h; exact absurd h (by simp)
    · rw [if_neg hk] at h
      rw [ainsert, if_neg hk, List.cons_append, ih h]

theorem alookup_append_of_some {α : Type} (l t : List (String × α)) (k : String)
    (v : α) (h : alookup l k = some v) : alookup (l ++ t) k = some v := by
  induction l with
  | nil => exact absurd h (by simp [alookup])
  | cons p l' ih =>
    obtain ⟨k', v'⟩ := p
    rw [alookup] at h
    rw [List.cons_append, alookup]
    by_cases hk : k' = k
    · rw [if_pos hk] at h ⊢; exact h
    · rw [if_neg hk] at h ⊢; exact ih h

theorem alookup_mem {α : Type} (l : List (String × α)) (k : String) (v : α)
    (h : alookup l k = some v) : (k, v) ∈ l := by
  induction l with
  | nil => exact absurd h (by simp [alookup])
  | cons p t ih =>
    obtain ⟨k', v'⟩ := p
    unfold alookup at h
    split at h
    · injection h with h2
      subst h2
      rename_i hk
      subst hk
      exact List.mem_cons_self _ _
    · exact List.mem_cons_of_mem _ (ih h)

/-! ## Data model (model.rs) -/

inductive NodeType where
  | root | category | collection | entity | attribute | event | detail
  deriving DecidableEq, Repr

def NodeType.as_str : NodeType → String
  | .root => "root"
  | .category => "category"
  | .collection => "collection"
  | .entity => "entity"
  | .attribute => "attribute"
  | .event => "event"
  | .detail => "detail"

def NodeType.from_str : String → Option NodeType
  | "root" => some .root
  | "category" => some .category
  | "collection" => some .collection
  | "entity" => some .entity
  | "attribute" => some .attribute
  | "event" => some .event
  | "detail" => some .detail
  | _ => none

abbrev Metadata := List (String × String)

structure TemporalMetadata where
  valid_from : Option Nat
  valid_until : Option Nat
  label : Option String
  deriving DecidableEq, Repr

structure SupersededValue where
  old_content : String
  superseded_at : Nat
  reason : Option String
  deriving DecidableEq, Repr

structure Node where
  id : String
  node_type : NodeType
  content : String
  parent_id : Option String
  children : List String
  metadata : Metadata
  previous_values : List SupersededValue
  temporal : Option TemporalMetadata
  created_at : Nat
  updated_at : Nat
  deriving DecidableEq, Repr

inductive ConfidenceLevel where
  | low | medium | high
  deriving DecidableEq, Repr

def ConfidenceLevel.from_str : String → Option ConfidenceLevel
  | "low" => some .low
  | "medium" => some .medium
  | "high" => some .high
  | _ => none

def ConfidenceLevel.as_str : ConfidenceLevel → String
  | .low => "low"
  | .medium => "medium"
  | .high => "high"

structure Link where
  id : String
  from_node : String
  to_node : String
  relation : String
  bidirectional : Bool
  confidence : Option ConfidenceLevel
  created_at : Nat
  deriving DecidableEq, Repr

structure Graph where
  root_id : String
  nodes : List (String × Node)
  links : List (String × Link)
  deriving DecidableEq, Repr

/-- The default graph written when the store opens on a fresh path
(storage.rs, create_default_graph). -/
def create_default_graph (now : Nat) : Graph :=
  { root_id := "root"
    nodes := [("root",
      { id := "root", node_type := .root, content := "User", parent_id := none
        children := [], metadata := [], previous_values := [], temporal := none
        created_at := now, updated_at := now })]
    links := [] }

/-! ## Errors (error.rs) -/

inductive WillowError where
  | NodeNotFound (id : String)
  | LinkNotFound (id : String)
  | CannotDeleteRoot
  | ParentNotFound (id : String)
  | InvalidNodeType (s : String)
  | DuplicateLink (fromN toN relation : String)
  | InvalidConfidence (s : String)
  | Io
  | Json
  | VcsNotInitialized
  | BranchNotFound (name : String)
  | BranchAlreadyExists (name : String)
  | CannotDeleteCurrentBranch (name : String)
  | CannotDeleteDefaultBranch (name : String)
  | NothingToCommit
  | VcsCommitNotFound (s : String)
  | HasPendingChanges
  | MergeConflict (n : Nat)
  | VcsAlreadyInitialized
  deriving DecidableEq, Repr

/-! ## Change log entries (vcs/types.rs)

The `UpdateLink` variant is recorded by `GraphStore::update_link`
(store.rs line 518); the `Change` enum in this snapshot of vcs/types.rs
does not list it and `apply_delta` has no arm for it, so replaying it is
a no-op here. -/

inductive Change where
  | CreateNode (node_id : String) (node : Node)
  | UpdateNode (node_id : String) (old_content new_content : Option String)
      (old_metadata new_metadata : Option Metadata)
  | DeleteNode (node_id : String) (deleted_nodes : List Node) (deleted_links : List Link)
  | AddLink (link_id : String) (link : Link)
  | RemoveLink (link_id : String) (link : Link)
  | ReparentNode (node_id : String) (old_parent new_parent : Option String)
  | UpdateLink (link_id : String) (old_link new_link : Link)
  deriving DecidableEq, Repr

structure Delta where
  changes : List Change
  deriving DecidableEq, Repr

/-! ## Delta replay (vcs/types.rs, apply_delta) -/

def applyChange (g : Graph) (c : Change) : Graph :=
  match c with
  | .CreateNode node_id node =>
    let nodes1 :=
      match node.parent_id with
      | some parent_id =>
        match alookup g.nodes parent_id with
        | some parent =>
          if node_id ∈ parent.children then g.nodes
          else amodify g.nodes parent_id
            (fun p => { p with children := p.children ++ [node_id] })
        | none => g.nodes
      | none => g.nodes
    { g with nodes := ainsert nodes1 node_id node }
  | .UpdateNode node_id _ new_content _ new_metadata =>
    match alookup g.nodes node_id with
    | some _ =>
      { g with nodes := amodify g.nodes node_id (fun n =>
          let n1 := match new_content with
            | some c => { n with content := c }
            | none => n
          match new_metadata with
          | some m => { n1 with metadata := m }
          | none => n1) }
    | none => g
  | .DeleteNode node_id deleted_nodes deleted_links =>
    let parent_id := (alookup g.nodes node_id).bind (fun n => n.parent_id)
    let nodes1 :=
      match parent_id with
      | some pid => amodify g.nodes pid
          (fun p => { p with children := p.children.filter (fun c => c ≠ node_id) })
      | none => g.nodes
    let nodes2 := aerase nodes1 node_id
    let nodes3 := deleted_nodes.foldl (fun acc dn => aerase acc dn.id) nodes2
    let links1 := deleted_links.foldl (fun acc dl => aerase acc dl.id) g.links
    { g with nodes := nodes3, links := links1 }
  | .AddLink link_id link =>
    { g with links := ainsert g.links link_id link }
  | .RemoveLink link_id _ =>
    { g with links := aerase g.links link_id }
  | .ReparentNode node_id old_parent new_parent =>
    let nodes1 :=
      match old_parent with
      | some old_pid => amodify g.nodes old_pid
          (fun p => { p with children := p.children.filter (fun c => c ≠ node_id) })
      | none => g.nodes
    let nodes2 :=
      match new_parent with
      | some new_pid =>
        match alookup nodes1 new_pid with
        | some parent =>
          if node_id ∈ parent.children then nodes1
          else amodify nodes1 new_pid
            (fun p => { p with children := p.children ++ [node_id] })
        | none => nodes1
      | none => nodes1
    let nodes3 := amodify nodes2 node_id (fun n => { n with parent_id := new_parent })
    { g with nodes := nodes3 }
  | .UpdateLink _ _ _ => g

def apply_delta (g : Graph) (d : Delta) : Graph :=
  d.changes.foldl applyChange g

/-! ## GraphStore state and mutations (store.rs)

`StoreState` carries the in-memory graph, the last successfully saved
on-disk graph (`file`), the pending-change buffer, and whether a VCS repo
is open (`record_change` appends only in that case). Each mutation takes
`saveOk` describing whether the file-save step succeeds, and returns the
post-call state together with the Rust return value. -/

structure StoreState where
  graph : Graph
  file : Graph
  pending : List Change
  hasRepo : Bool
  deriving DecidableEq, Repr

def record_change (s : StoreState) (c : Change) : StoreState :=
  if s.hasRepo then { s with pending := s.pending ++ [c] } else s

def links_touching (g : Graph) (node_ids : List String) : List Link :=
  (g.links.filter (fun p =>
    p.2.from_node ∈ node_ids ∨ p.2.to_node ∈ node_ids)).map (fun p => p.2)

namespace GraphStore

def create_node (s : StoreState) (saveOk : Bool)
    (new_id parent_id node_type content : String)
    (metadata : Option Metadata) (temporal : Option TemporalMetadata)
    (now : Nat) : StoreState × Except WillowError Node :=
  match alookup s.graph.nodes parent_id with
  | none => (s, .error (.ParentNotFound parent_id))
  | some _ =>
    match NodeType.from_str node_type with
    | none => (s, .error (.InvalidNodeType node_type))
    | some nt =>
      let node : Node :=
        { id := new_id, node_type := nt, content := content
          parent_id := some parent_id, children := []
          metadata := metadata.getD [], previous_values := []
          temporal := temporal, created_at := now, updated_at := now }
      let nodes1 := amodify s.graph.nodes parent_id
        (fun p => { p with children := p.children ++ [new_id] })
      let g' := { s.graph with nodes := ainsert nodes1 new_id node }
      let s1 := { s with graph := g' }
      if saveOk then
        let s2 := record_change { s1 with file := g' } (.CreateNode new_id node)
        (s2, .ok node)
      else (s1, .error .Io)

def update_node (s : StoreState) (saveOk : Bool) (node_id : String)
    (content : Option String) (metadata : Option Metadata)
    (temporal : Option TemporalMetadata) (reason : Option String)
    (now : Nat) : StoreState × Except WillowError Node :=
  match alookup s.graph.nodes node_id with
  | none => (s, .error (.NodeNotFound node_id))
  | some node0 =>
    let old_content := node0.content
    let old_metadata := node0.metadata
    let step1 : Node × Bool :=
      match content with
      | some nc =>
        if nc ≠ node0.content then
          ({ node0 with
              previous_values := node0.previous_values ++
                [{ old_content := node0.content, superseded_at := now, reason := reason }]
              content := nc }, true)
        else (node0, false)
      | none => (node0, false)
    let content_changed := step1.2
    let step2 : Node × Bool :=
      match metadata with
      | some nm => ({ step1.1 with metadata := nm }, decide (nm ≠ step1.1.metadata))
      | none => (step1.1, false)
    let metadata_changed := step2.2
    let node3 :=
      match temporal with
      | some t => { step2.1 with temporal := some t }
      | none => step2.1
    let updated := { node3 with updated_at := now }
    let g' := { s.graph with nodes := amodify s.graph.nodes node_id (fun _ => updated) }
    let s1 := { s with graph := g' }
    if saveOk then
      let s2 :=
        if content_changed || metadata_changed then
          record_change { s1 with file := g' }
            (.UpdateNode node_id
              (if content_changed then some old_content else none)
              (if content_changed then some updated.content else none)
              (if metadata_changed then some old_metadata else none)
              (if metadata_changed then some updated.metadata else none))
        else { s1 with file := g' }
      (s2, .ok updated)
    else (s1, .error .Io)

def collect_descendant_ids (g : Graph) : Nat → String → List String
  | 0, _ => []
  | fuel + 1, node_id =>
    match alookup g.nodes node_id with
    | none => []
    | some node =>
      (node.children.map (fun c => c :: collect_descendant_ids g fuel c)).flatten

def delete_node (s : StoreState) (saveOk : Bool) (fuel : Nat)
    (node_id : String) : StoreState × Except WillowError Unit :=
  if node_id = s.graph.root_id then (s, .error .CannotDeleteRoot)
  else match alookup s.graph.nodes node_id with
  | none => (s, .error (.NodeNotFound node_id))
  | some _ =>
    let to_delete := collect_descendant_ids s.graph fuel node_id ++ [node_id]
    let deleted_nodes := to_delete.filterMap (fun id => alookup s.graph.nodes id)
    let deleted_links := links_touching s.graph to_delete
    let nodes1 :=
      match (alookup s.graph.nodes node_id).bind (fun n => n.parent_id) with
      | some pid => amodify s.graph.nodes pid
          (fun p => { p with children := p.children.filter (fun c => c ≠ node_id) })
      | none => s.graph.nodes
    let nodes2 := to_delete.foldl (fun acc id => aerase acc id) nodes1
    let links1 := s.graph.links.filter (fun p =>
      p.2.from_node ∉ to_delete ∧ p.2.to_node ∉ to_delete)
    let g' := { s.graph with nodes := nodes2, links := links1 }
    let s1 := { s with graph := g' }
    if saveOk then
      let s2 := record_change { s1 with file := g' }
        (.DeleteNode node_id deleted_nodes deleted_links)
      (s2, .ok ())
    else (s1, .error .Io)

def add_link (s : StoreState) (saveOk : Bool)
    (new_id from_node to_node relation : String) (bidirectional : Bool)
    (confidence : Option String) (now : Nat) : StoreState × Except WillowError Link :=
  match alookup s.graph.nodes from_node with
  | none => (s, .error (.NodeNotFound from_node))
  | some _ =>
    match alookup s.graph.nodes to_node with
    | none => (s, .error (.NodeNotFound to_node))
    | some _ =>
      let parsed : Except WillowError (Option ConfidenceLevel) :=
        match confidence with
        | none => .ok none
        | some cs =>
          match ConfidenceLevel.from_str cs with
          | some c => .ok (some c)
          | none => .error (.InvalidConfidence cs)
      match parsed with
      | .error e => (s, .error e)
      | .ok confidence_level =>
        let is_dup := s.graph.links.any (fun p =>
          (p.2.from_node = from_node && p.2.to_node = to_node && p.2.relation = relation) ||
          (bidirectional && p.2.from_node = to_node && p.2.to_node = from_node &&
            p.2.relation = relation))
        if is_dup then
          (s, .error (.DuplicateLink from_node to_node relation))
        else
          let link : Link :=
            { id := new_id, from_node := from_node, to_node := to_node
              relation := relation, bidirectional := bidirectional
              confidence := confidence_level, created_at := now }
          let g' := { s.graph with links := ainsert s.graph.links new_id link }
          let s1 := { s with graph := g' }
          if saveOk then
            let s2 := record_change { s1 with file := g' } (.AddLink new_id link)
            (s2, .ok link)
          else (s1, .error .Io)

def update_link (s : StoreState) (saveOk : Bool) (link_id : String)
    (relation : Option String) (bidirectional : Option Bool)
    (confidence : Option String) : StoreState × Except WillowError Link :=
  match alookup s.graph.links link_id with
  | none => (s, .error (.LinkNotFound link_id))
  | some old_link =>
    let parsed : Except WillowError (Option ConfidenceLevel) :=
      match confidence with
      | none => .ok none
      | some cs =>
        match ConfidenceLevel.from_str cs with
        | some c => .ok (some c)
        | none => .error (.InvalidConfidence cs)
    match parsed with
    | .error e => (s, .error e)
    | .ok confidence_level =>
      let l1 :=
        match relation with
        | some r => { old_link with relation := r }
        | none => old_link
      let l2 :=
        match bidirectional with
        | some b => { l1 with bidirectional := b }
        | none => l1
      let new_link :=
        match confidence_level with
        | some c => { l2 with confidence := some c }
        | none => l2
      let g' := { s.graph with links := amodify s.graph.links link_id (fun _ => new_link) }
      let s1 := { s with graph := g' }
      if saveOk then
        let s2 := record_change { s1 with file := g' }
          (.UpdateLink link_id old_link new_link)
        (s2, .ok new_link)
      else (s1, .error .Io)

def delete_link (s : StoreState) (saveOk : Bool)
    (link_id : String) : StoreState × Except WillowError Link :=
  match alookup s.graph.links link_id with
  | none => (s, .error (.LinkNotFound link_id))
  | some link =>
    let g' := { s.graph with links := aerase s.graph.links link_id }
    let s1 := { s with graph := g' }
    if saveOk then
      let s2 := record_change { s1 with file := g' } (.RemoveLink link_id link)
      (s2, .ok link)
    else (s1, .error .Io)

end GraphStore

/-! ## VCS entities (vcs/types.rs) -/

inductive CommitSource where
  | Conversation (conversation_id summary : Option String)
  | Maintenance (job_id : Option String)
  | Manual (tool_name : Option String)
  | Merge (source_branch target_branch : String)
  | Migration
  deriving DecidableEq, Repr

inductive CommitStorageType where
  | snapshot | delta
  deriving DecidableEq, Repr

structure CommitData where
  parents : List String
  message : String
  timestamp : Nat
  source : CommitSource
  storage_type : CommitStorageType
  depth_since_snapshot : Nat
  deriving DecidableEq, Repr

inductive HeadState where
  | Branch (name : String)
  | Detached (hash : String)
  deriving DecidableEq, Repr

structure RepoConfig where
  format_version : Nat
  snapshot_interval : Nat
  default_branch : String
  deriving DecidableEq, Repr

def RepoConfig.default : RepoConfig :=
  { format_version := 1, snapshot_interval := 50, default_branch := "main" }

structure CommitInput where
  message : String
  source : CommitSource
  deriving DecidableEq, Repr

/-! ## Repository state (vcs/object_store.rs + vcs/repository.rs)

The on-disk object store becomes explicit maps from hash to object.
`ObjectStore::hash_commit` (SHA-256 of canonical JSON) is abstracted to a
`hashCommit : CommitData → String` parameter: the source guarantees it is
a pure function of the `CommitData`. -/

structure RepoState where
  commits : List (String × CommitData)
  snapshots : List (String × Graph)
  deltas : List (String × Delta)
  branches : List (String × String)
  head : HeadState
  config : RepoConfig
  deriving DecidableEq, Repr

namespace Repository

def resolve_head (r : RepoState) : Option String :=
  match r.head with
  | .Branch name => alookup r.branches name
  | .Detached h => some h

def read_commit (r : RepoState) (hash : String) : Except WillowError CommitData :=
  match alookup r.commits hash with
  | some c => .ok c
  | none => .error (.VcsCommitNotFound hash)

/-- Repository::init — writes the default config, the initial snapshot
commit, the main branch ref and HEAD. The directory-exists check is a
filesystem concern outside this model; the result pairs the new state
with the initial commit hash. -/
def init (hashCommit : CommitData → String) (graph : Graph) (now : Nat) :
    RepoState × String :=
  let config := RepoConfig.default
  let commit_data : CommitData :=
    { parents := [], message := "Initial snapshot", timestamp := now
      source := .Migration, storage_type := .snapshot, depth_since_snapshot := 0 }
  let hash := hashCommit commit_data
  ({ commits := [(hash, commit_data)]
     snapshots := [(hash, graph)]
     deltas := []
     branches := [(config.default_branch, hash)]
     head := .Branch config.default_branch
     config := config }, hash)

def create_commit (hashCommit : CommitData → String) (r : RepoState)
    (input : CommitInput) (pending_changes : List Change)
    (current_graph : Graph) (now : Nat) : RepoState × Except WillowError String :=
  if pending_changes.isEmpty then (r, .error .NothingToCommit)
  else match resolve_head r with
  | none => (r, .error .VcsNotInitialized)
  | some head_hash =>
    match alookup r.commits head_hash with
    | none => (r, .error (.VcsCommitNotFound head_hash))
    | some parent_data =>
      let depth := parent_data.depth_since_snapshot + 1
      let is_snapshot := r.config.snapshot_interval ≤ depth
      let commit_data : CommitData :=
        { parents := [head_hash], message := input.message, timestamp := now
          source := input.source
          storage_type := if is_snapshot then .snapshot else .delta
          depth_since_snapshot := if is_snapshot then 0 else depth }
      let hash := hashCommit commit_data
      let r1 := { r with commits := ainsert r.commits hash commit_data }
      let r2 :=
        if is_snapshot then
          { r1 with snapshots := ainsert r1.snapshots hash current_graph }
        else
          { r1 with deltas := ainsert r1.deltas hash { changes := pending_changes } }
      let r3 :=
        match r2.head with
        | .Branch name => { r2 with branches := ainsert r2.branches name hash }
        | .Detached _ => { r2 with head := .Detached hash }
      (r3, .ok hash)

/-- Replay the collected delta chain forward onto a snapshot graph. -/
def replay_deltas (r : RepoState) : List String → Graph → Except WillowError Graph
  | [], g => .ok g
  | h :: t, g =>
    match alookup r.deltas h with
    | none => .error (.VcsCommitNotFound h)
    | some d => replay_deltas r t (apply_delta g d)

/-- The walk of Repository::reconstruct_at: follow first parents
collecting delta hashes until a snapshot commit, then replay. Fuel bounds
the unbounded Rust loop; exhaustion is reported as a distinguished
commit-not-found error. -/
def reconstruct_walk (r : RepoState) : Nat → String → List String → Except WillowError Graph
  | 0, _, _ => .error (.VcsCommitNotFound "fuel exhausted")
  | fuel + 1, current, chain =>
    match alookup r.commits current with
    | none => .error (.VcsCommitNotFound current)
    | some data =>
      match data.storage_type with
      | .snapshot =>
        match alookup r.snapshots current with
        | none => .error (.VcsCommitNotFound current)
        | some g0 => replay_deltas r chain.reverse g0
      | .delta =>
        match data.parents.head? with
        | none => .error (.VcsCommitNotFound "No snapshot found in commit chain")
        | some p => reconstruct_walk r fuel p (chain ++ [current])

def reconstruct_at (r : RepoState) (fuel : Nat) (target_hash : String) :
    Except WillowError Graph :=
  reconstruct_walk r fuel target_hash []

def restore_to_commit (hashCommit : CommitData → String) (r : RepoState)
    (fuel : Nat) (hash : String) (now : Nat) :
    RepoState × Except WillowError (String × Graph) :=
  match reconstruct_at r fuel hash with
  | .error e => (r, .error e)
  | .ok target_graph =>
    match resolve_head r with
    | none => (r, .error .VcsNotInitialized)
    | some head_hash =>
      let commit_data : CommitData :=
        { parents := [head_hash], message := "Restore to " ++ hash.take 8
          timestamp := now, source := .Manual (some "restore")
          storage_type := .snapshot, depth_since_snapshot := 0 }
      let new_hash := hashCommit commit_data
      let r1 := { r with
        commits := ainsert r.commits new_hash commit_data
        snapshots := ainsert r.snapshots new_hash target_graph }
      let r2 :=
        match r1.head with
        | .Branch name => { r1 with branches := ainsert r1.branches name new_hash }
        | .Detached _ => { r1 with head := .Detached new_hash }
      (r2, .ok (new_hash, target_graph))

end Repository

/-! ## Merge machinery (vcs/merge.rs) -/

inductive MergeSide where
  | Ours | Theirs
  deriving DecidableEq, Repr

inductive ConflictType where
  | ContentConflict (base ours theirs : String)
  | StructuralConflict (base_parent ours_parent theirs_parent : String)
  | DeleteModifyConflict (deleted_by : MergeSide) (modified_node : Node)
  | DeleteLinkConflict (deleted_node : String) (link : Link)
  deriving DecidableEq, Repr

structure MergeConflict where
  node_id : String
  conflict_type : ConflictType
  deriving DecidableEq, Repr

structure ConflictResolution where
  node_id : String
  resolved_content : Option String
  deriving DecidableEq, Repr

inductive MergeResult where
  | Success (g : Graph)
  | FastForward (hash : String)
  | Conflicts (conflicts : List MergeConflict)
  deriving DecidableEq, Repr

/-- One HashSet-style insertion sweep over a parent list: already-visited
hashes are skipped, new ones are appended to both the visited set and the
BFS queue. -/
def scan_insert : List String → List String → List String → List String × List String
  | [], v, q => (v, q)
  | p :: ps, v, q =>
    if p ∈ v then scan_insert ps v q else scan_insert ps (v ++ [p]) (q ++ [p])

/-- The bidirectional BFS loop of find_merge_base. One fueled iteration
pops from the ours side (reporting the popped hash if the theirs side has
visited it) and then from the theirs side symmetrically, as in the
source. `none` means the fuel ran out; `some none` is the source's
`None`. -/
def fmb_go (parents : String → List String) :
    Nat → List String × List String → List String × List String → Option (Option String)
  | 0, _, _ => none
  | fuel + 1, (oV, oQ), (tV, tQ) =>
    if oQ.isEmpty ∧ tQ.isEmpty then some none
    else
      let step1 : (List String × List String) ⊕ String :=
        match oQ with
        | [] => .inl (oV, [])
        | h :: rest => if h ∈ tV then .inr h else .inl (scan_insert (parents h) oV rest)
      match step1 with
      | .inr h => some (some h)
      | .inl (oV', oQ') =>
        match tQ with
        | [] => fmb_go parents fuel (oV', oQ') (tV, [])
        | k :: rest =>
          if k ∈ oV' then some (some k)
          else fmb_go parents fuel (oV', oQ') (scan_insert (parents k) tV rest)

def find_merge_base (parents : String → List String) (fuel : Nat)
    (ours theirs : String) : Option (Option String) :=
  if ours = theirs then some (some ours)
  else fmb_go parents fuel ([ours], [ours]) ([theirs], [theirs])

/-- Inner for-loop of is_ancestor over one popped hash's parents:
`none` signals that the searched ancestor was found. -/
def scan_parents (a : String) : List String → List String → List String →
    Option (List String × List String)
  | [], v, q => some (v, q)
  | p :: ps, v, q =>
    if p = a then none
    else if p ∈ v then scan_parents a ps v q
    else scan_parents a ps (v ++ [p]) (q ++ [p])

def is_ancestor_go (parents : String → List String) (a : String) :
    Nat → List String → List String → Option Bool
  | 0, _, _ => none
  | fuel + 1, v, q =>
    match q with
    | [] => some false
    | h :: rest =>
      match scan_parents a (parents h) v rest with
      | none => some true
      | some (v', q') => is_ancestor_go parents a fuel v' q'

def is_ancestor (parents : String → List String) (fuel : Nat)
    (ancestor descendant : String) : Option Bool :=
  if ancestor = descendant then some true
  else is_ancestor_go parents ancestor fuel [descendant] [descendant]

structure MergeAcc where
  merged : Graph
  conflicts : List MergeConflict

/-- Step 1 of three_way_merge: nodes added only by theirs are copied in
and attached to their declared parent. -/
def merge_step1 (base ours theirs : Graph) (merged : Graph) : Graph :=
  (akeys theirs.nodes).foldl (fun m nid =>
    if (alookup base.nodes nid).isNone ∧ (alookup ours.nodes nid).isNone then
      match alookup theirs.nodes nid with
      | none => m
      | some node =>
        let m1 :=
          match node.parent_id with
          | some parent_id =>
            match alookup m.nodes parent_id with
            | some parent =>
              if nid ∈ parent.children then m
              else
                let ns := amodify m.nodes parent_id
                  (fun p => { p with children := p.children ++ [nid] })
                { m with nodes := ns }
            | none => m
          | none => m
        { m1 with nodes := ainsert m1.nodes nid node }
    else m) merged

/-- Step 2: nodes deleted by theirs — delete/modify conflict when ours
modified, else accept the deletion. -/
def merge_step2 (base ours theirs : Graph) (acc : MergeAcc) : MergeAcc :=
  (akeys base.nodes).foldl (fun acc nid =>
    if (alookup theirs.nodes nid).isNone then
      match alookup ours.nodes nid, alookup base.nodes nid with
      | some ours_node, some base_node =>
        if ours_node.content ≠ base_node.content ∨ ours_node.metadata ≠ base_node.metadata then
          { acc with conflicts := acc.conflicts ++
              [{ node_id := nid
                 conflict_type := .DeleteModifyConflict .Theirs ours_node }] }
        else
          let parent_id := (alookup acc.merged.nodes nid).bind (fun n => n.parent_id)
          let m1 :=
            match parent_id with
            | some pid =>
              let ns := amodify acc.merged.nodes pid
                (fun p => { p with children := p.children.filter (fun c => c ≠ nid) })
              { acc.merged with nodes := ns }
            | none => acc.merged
          { acc with merged := { m1 with nodes := aerase m1.nodes nid } }
      | _, _ => acc
    else acc) acc

/-- Step 3: nodes deleted by ours — delete/modify conflict when theirs
modified; a clean deletion needs no action (already absent from merged). -/
def merge_step3 (base ours theirs : Graph) (acc : MergeAcc) : MergeAcc :=
  (akeys base.nodes).foldl (fun acc nid =>
    if (alookup ours.nodes nid).isNone ∧ (alookup theirs.nodes nid).isSome then
      match alookup theirs.nodes nid, alookup base.nodes nid with
      | some theirs_node, some base_node =>
        if theirs_node.content ≠ base_node.content ∨
            theirs_node.metadata ≠ base_node.metadata then
          { acc with conflicts := acc.conflicts ++
              [{ node_id := nid
                 conflict_type := .DeleteModifyConflict .Ours theirs_node }] }
        else acc
      | _, _ => acc
    else acc) acc

/-- Step 4 body for one node common to base, ours and theirs: three-way
analysis on content/metadata, then on parent_id. -/
def merge_step4_one (base ours theirs : Graph) (acc : MergeAcc) (nid : String) : MergeAcc :=
  match alookup base.nodes nid, alookup ours.nodes nid, alookup theirs.nodes nid with
  | some base_node, some ours_node, some theirs_node =>
    let ours_changed := ours_node.content ≠ base_node.content ∨
      ours_node.metadata ≠ base_node.metadata
    let theirs_changed := theirs_node.content ≠ base_node.content ∨
      theirs_node.metadata ≠ base_node.metadata
    let acc1 :=
      if ours_changed ∧ theirs_changed then
        if ours_node.content = theirs_node.content ∧
            ours_node.metadata = theirs_node.metadata then acc
        else
          { acc with conflicts := acc.conflicts ++
              [{ node_id := nid
                 conflict_type := .ContentConflict base_node.content
                   ours_node.content theirs_node.content }] }
      else if theirs_changed ∧ ¬ ours_changed then
        let ns := amodify acc.merged.nodes nid
          (fun n => { n with content := theirs_node.content, metadata := theirs_node.metadata })
        { acc with merged := { acc.merged with nodes := ns } }
      else acc
    let ours_parent_changed := ours_node.parent_id ≠ base_node.parent_id
    let theirs_parent_changed := theirs_node.parent_id ≠ base_node.parent_id
    if ours_parent_changed ∧ theirs_parent_changed then
      if ours_node.parent_id ≠ theirs_node.parent_id then
        { acc1 with conflicts := acc1.conflicts ++
            [{ node_id := nid
               conflict_type := .StructuralConflict (base_node.parent_id.getD "")
                 (ours_node.parent_id.getD "") (theirs_node.parent_id.getD "") }] }
      else acc1
    else if theirs_parent_changed ∧ ¬ ours_parent_changed then
      let old_parent_id := (alookup acc1.merged.nodes nid).bind (fun n => n.parent_id)
      let new_parent_id := theirs_node.parent_id
      let m1 :=
        match old_parent_id with
        | some old_pid =>
          let ns := amodify acc1.merged.nodes old_pid
            (fun p => { p with children := p.children.filter (fun c => c ≠ nid) })
          { acc1.merged with nodes := ns }
        | none => acc1.merged
      let ns2 := amodify m1.nodes nid (fun n => { n with parent_id := new_parent_id })
      let m2 := { m1 with nodes := ns2 }
      let m3 :=
        match new_parent_id with
        | some new_pid =>
          match alookup m2.nodes new_pid with
          | some new_parent =>
            if nid ∈ new_parent.children then m2
            else
              let ns3 := amodify m2.nodes new_pid
                (fun p => { p with children := p.children ++ [nid] })
              { m2 with nodes := ns3 }
          | none => m2
        | none => m2
      { acc1 with merged := m3 }
    else acc1
  | _, _, _ => acc

def merge_step4 (base ours theirs : Graph) (acc : MergeAcc) : MergeAcc :=
  (akeys base.nodes).foldl (fun acc nid =>
    if (alookup ours.nodes nid).isSome ∧ (alookup theirs.nodes nid).isSome then
      merge_step4_one base ours theirs acc nid
    else acc) acc

/-- Step 5: links added only by theirs are inserted when both endpoints
exist in merged; links removed by theirs (still in ours) are removed. -/
def merge_step5 (base ours theirs : Graph) (merged : Graph) : Graph :=
  let m1 := (akeys theirs.links).foldl (fun m lid =>
    if (alookup base.links lid).isNone ∧ (alookup ours.links lid).isNone then
      match alookup theirs.links lid with
      | none => m
      | some link =>
        if (alookup m.nodes link.from_node).isSome ∧
            (alookup m.nodes link.to_node).isSome then
          { m with links := ainsert m.links lid link }
        else m
    else m) merged
  (akeys base.links).foldl (fun m lid =>
    if (alookup theirs.links lid).isNone ∧ (alookup ours.links lid).isSome then
      { m with links := aerase m.links lid }
    else m) m1

def three_way_merge (base ours theirs : Graph) : MergeResult :=
  let merged0 := merge_step1 base ours theirs ours
  let acc1 := merge_step2 base ours theirs { merged := merged0, conflicts := [] }
  let acc2 := merge_step3 base ours theirs acc1
  let acc3 := merge_step4 base ours theirs acc2
  let merged := merge_step5 base ours theirs acc3.merged
  if acc3.conflicts.isEmpty then .Success merged
  else .Conflicts acc3.conflicts

def apply_resolutions (g : Graph) (resolutions : List ConflictResolution) : Graph :=
  resolutions.foldl (fun g res =>
    match res.resolved_content with
    | some content =>
      { g with nodes :=
          amodify g.nodes res.node_id (fun n => { n with content := content }) }
    | none =>
      let parent_id := (alookup g.nodes res.node_id).bind (fun n => n.parent_id)
      let nodes1 :=
        match parent_id with
        | some pid => amodify g.nodes pid
            (fun p => { p with children := p.children.filter (fun c => c ≠ res.node_id) })
        | none => g.nodes
      let nodes2 := aerase nodes1 res.node_id
      let links1 := g.links.filter (fun p =>
        p.2.from_node ≠ res.node_id ∧ p.2.to_node ≠ res.node_id)
      { g with nodes := nodes2, links := links1 }) g

/-! ## Repository merge orchestration (vcs/repository.rs) -/

inductive MergeBranchResult where
  | Success (hash : String) (g : Graph)
  | Conflicts (conflicts : List MergeConflict) (source_branch : String)
  deriving DecidableEq, Repr

namespace Repository

def read_parents (r : RepoState) (h : String) : List String :=
  match alookup r.commits h with
  | some d => d.parents
  | none => []

def merge_branch (hashCommit : CommitData → String) (r : RepoState) (fuel : Nat)
    (source_branch : String) (current_graph : Graph) (now : Nat) :
    RepoState × Except WillowError MergeBranchResult :=
  match r.head with
  | .Detached _ => (r, .error .VcsNotInitialized)
  | .Branch current_branch_name =>
    match alookup r.branches source_branch with
    | none => (r, .error (.BranchNotFound source_branch))
    | some source_hash =>
      match resolve_head r with
      | none => (r, .error .VcsNotInitialized)
      | some target_hash =>
        match is_ancestor (read_parents r) fuel target_hash source_hash with
        | none => (r, .error (.VcsCommitNotFound "fuel exhausted"))
        | some true =>
          let r1 := { r with branches := ainsert r.branches current_branch_name source_hash }
          match reconstruct_at r1 fuel source_hash with
          | .error e => (r1, .error e)
          | .ok graph => (r1, .ok (.Success source_hash graph))
        | some false =>
          match find_merge_base (read_parents r) fuel target_hash source_hash with
          | none => (r, .error (.VcsCommitNotFound "fuel exhausted"))
          | some none => (r, .error (.VcsCommitNotFound "No common ancestor found"))
          | some (some merge_base_hash) =>
            match reconstruct_at r fuel merge_base_hash with
            | .error e => (r, .error e)
            | .ok base_graph =>
              match reconstruct_at r fuel source_hash with
              | .error e => (r, .error e)
              | .ok theirs_graph =>
                match three_way_merge base_graph current_graph theirs_graph with
                | .Success merged_graph =>
                  let commit_data : CommitData :=
                    { parents := [target_hash, source_hash]
                      message := "Merge '" ++ source_branch ++ "' into '" ++
                        current_branch_name ++ "'"
                      timestamp := now
                      source := .Merge source_branch current_branch_name
                      storage_type := .snapshot, depth_since_snapshot := 0 }
                  let hash := hashCommit commit_data
                  let r1 := { r with
                    commits := ainsert r.commits hash commit_data
                    snapshots := ainsert r.snapshots hash merged_graph }
                  let r2 := { r1 with
                    branches := ainsert r1.branches current_branch_name hash }
                  (r2, .ok (.Success hash merged_graph))
                | .FastForward hash =>
                  match reconstruct_at r fuel hash with
                  | .error e => (r, .error e)
                  | .ok graph => (r, .ok (.Success hash graph))
                | .Conflicts conflicts =>
                  (r, .ok (.Conflicts conflicts source_branch))

def resolve_conflicts (hashCommit : CommitData → String) (r : RepoState)
    (resolutions : List ConflictResolution) (source_branch : String)
    (current_graph : Graph) (now : Nat) :
    RepoState × Except WillowError (String × Graph) :=
  match r.head with
  | .Detached _ => (r, .error .VcsNotInitialized)
  | .Branch current_branch_name =>
    match alookup r.branches source_branch with
    | none => (r, .error (.BranchNotFound source_branch))
    | some source_hash =>
      match resolve_head r with
      | none => (r, .error .VcsNotInitialized)
      | some target_hash =>
        let resolved_graph := apply_resolutions current_graph resolutions
        let commit_data : CommitData :=
          { parents := [target_hash, source_hash]
            message := "Merge '" ++ source_branch ++ "' into '" ++
              current_branch_name ++ "' (conflicts resolved)"
            timestamp := now
            source := .Merge source_branch current_branch_name
            storage_type := .snapshot, depth_since_snapshot := 0 }
        let hash := hashCommit commit_data
        let r1 := { r with
          commits := ainsert r.commits hash commit_data
          snapshots := ainsert r.snapshots hash resolved_graph }
        let r2 := { r1 with
          branches := ainsert r1.branches current_branch_name hash }
        (r2, .ok (hash, resolved_graph))

end Repository

/-- GraphStore::commit — delegates to Repository::create_commit and
clears the pending buffer on success. `hasRepo = false` models the
require_repo failure. -/
def GraphStore.commit (hashCommit : CommitData → String) (r : RepoState)
    (s : StoreState) (input : CommitInput) (now : Nat) :
    RepoState × StoreState × Except WillowError String :=
  if s.hasRepo then
    match Repository.create_commit hashCommit r input s.pending s.graph now with
    | (r', .ok hash) => (r', { s with pending := [] }, .ok hash)
    | (r', .error e) => (r', s, .error e)
  else (r, s, .error .VcsNotInitialized)

/-! ## Search (search.rs)

`f64` scores are modelled as `ℚ`; every branch of the scorer is decided
by substring tests and term counts, so the branch structure is exact.
`str::contains` becomes character-list infix; `split_whitespace` splits
on whitespace and drops empty pieces. -/

def containsAux (q : List Char) : List Char → Bool
  | [] => List.isPrefixOf q []
  | c :: ts => List.isPrefixOf q (c :: ts) || containsAux q ts

def strContains (t q : String) : Bool :=
  containsAux q.data t.data

/-- Lowercasing over the character data (ASCII case folding, as exercised
by the scorer's inputs). -/
def strToLower (s : String) : String :=
  String.mk (s.data.map Char.toLower)

def splitWsAux : List Char → List Char → List String
  | [], acc => if acc = [] then [] else [String.mk acc.reverse]
  | c :: cs, acc =>
    if c.isWhitespace then
      (if acc = [] then [] else [String.mk acc.reverse]) ++ splitWsAux cs []
    else splitWsAux cs (c :: acc)

/-- Rust split_whitespace: split on whitespace runs, dropping empties. -/
def splitWhitespace (s : String) : List String :=
  splitWsAux s.data []

structure SearchResult where
  node_id : String
  node_type : String
  content : String
  score : ℚ
  matched_field : String
  depth : Nat
  deriving DecidableEq, Repr

/-- Multiplication by the constant weights, written with `Rat.divInt` so
that the kernel can evaluate concrete scores; the lemmas below identify
these with the ordinary rational products `q * (1/2)`, `q * (3/10)`. -/
def ratMulHalf (q : ℚ) : ℚ := Rat.divInt q.num (2 * q.den)

def ratMulThreeTenths (q : ℚ) : ℚ := Rat.divInt (3 * q.num) (10 * q.den)

theorem ratMulHalf_eq (q : ℚ) : ratMulHalf q = q * (1/2) := by
  unfold ratMulHalf
  rw [Rat.divInt_eq_div]
  push_cast
  rw [show ((2 : ℚ) * q.den) = q.den * 2 by ring, ← div_div, Rat.num_div_den q]
  ring

theorem ratMulThreeTenths_eq (q : ℚ) : ratMulThreeTenths q = q * (3/10) := by
  unfold ratMulThreeTenths
  rw [Rat.divInt_eq_div]
  push_cast
  rw [show ((3 : ℚ) * q.num) / ((10 : ℚ) * q.den) = (q.num / q.den) * (3 / 10) by ring,
    Rat.num_div_den q]

theorem divInt_three_five : Rat.divInt 3 5 = 3/5 := by
  rw [Rat.divInt_eq_div]; norm_num

theorem divInt_partial_score (m len : ℕ) :
    Rat.divInt (3 * m) (10 * len) = (3/10) * ((m : ℚ) / (len : ℚ)) := by
  rw [Rat.divInt_eq_div]
  push_cast
  rw [div_mul_div_comm]

def score_text (text query_lower : String) (terms : List String) : ℚ :=
  let text_lower := strToLower text
  if strContains text_lower query_lower then 1
  else
    let matched_terms := (terms.filter (fun t => strContains text_lower t)).length
    if matched_terms = terms.length then Rat.divInt 3 5
    else if matched_terms > 0 then Rat.divInt (3 * matched_terms) (10 * terms.length)
    else 0

def score_node (node : Node) (query_lower : String) (terms : List String)
    (depth : Nat) : Option SearchResult :=
  let best0 : ℚ × String := (0, "")
  let content_score := score_text node.content query_lower terms
  let best1 := if content_score > best0.1 then (content_score, "content") else best0
  let best2 := node.metadata.foldl (fun best kv =>
    let meta_score := ratMulHalf (score_text kv.2 query_lower terms)
    if meta_score > best.1 then (meta_score, "metadata." ++ kv.1) else best) best1
  let type_score := ratMulThreeTenths (score_text node.node_type.as_str query_lower terms)
  let best3 := if type_score > best2.1 then (type_score, "node_type") else best2
  if best3.1 > 0 then
    some { node_id := node.id, node_type := node.node_type.as_str
           content := node.content, score := best3.1
           matched_field := best3.2, depth := depth }
  else none

def search_loop (g : Graph) (query_lower : String) (terms : List String) :
    Nat → List (String × Nat) → List SearchResult → List SearchResult
  | 0, _, results => results
  | _ + 1, [], results => results
  | fuel + 1, (node_id, depth) :: rest, results =>
    match alookup g.nodes node_id with
    | none => search_loop g query_lower terms fuel rest results
    | some node =>
      let results' :=
        match score_node node query_lower terms depth with
        | some r => results ++ [r]
        | none => results
      search_loop g query_lower terms fuel
        (rest ++ node.children.map (fun c => (c, depth + 1))) results'

def search_nodes (g : Graph) (fuel : Nat) (query : String)
    (max_results : Nat) : List SearchResult :=
  let query_lower := strToLower query
  let terms := splitWhitespace query_lower
  if terms.isEmpty then []
  else
    let results := search_loop g query_lower terms fuel [(g.root_id, 0)] []
    ((results.mergeSort (fun a b => b.score ≤ a.score)).take max_results)

/-! ## Parent-chain walks (store.rs collect_ancestors, vcs/diff.rs build_node_path)

Both Rust loops follow `parent_id` with no cycle protection. The fueled
versions return a completion flag: `true` means the loop exited through
its own condition (reached a parentless node or a missing id), `false`
means the fuel ran out first. -/

def collect_ancestors_go (g : Graph) :
    Nat → Option String → List Node → List Node × Bool
  | 0, current, anc => (anc, current.isNone)
  | _ + 1, none, anc => (anc, true)
  | fuel + 1, some pid, anc =>
    match alookup g.nodes pid with
    | none => (anc, true)
    | some parent => collect_ancestors_go g fuel parent.parent_id (anc ++ [parent])

def collect_ancestors (g : Graph) (fuel : Nat) (node_id : String) : List Node × Bool :=
  collect_ancestors_go g fuel ((alookup g.nodes node_id).bind (fun n => n.parent_id)) []

def build_node_path_go (g : Graph) :
    Nat → Option String → List String → List String × Bool
  | 0, current, path => (path, current.isNone)
  | _ + 1, none, path => (path, true)
  | fuel + 1, some id, path =>
    match alookup g.nodes id with
    | none => (path, true)
    | some node => build_node_path_go g fuel node.parent_id (path ++ [node.content])

def build_node_path (g : Graph) (fuel : Nat) (node_id : String) : List String × Bool :=
  let r := build_node_path_go g fuel (some node_id) []
  (r.1.reverse, r.2)

/-! ## Graph well-formedness (spec section 3 invariants, as used by proofs) -/

def NodupKeys {α : Type} (l : List (String × α)) : Prop :=
  (akeys l).Nodup

/-- Map keys equal the stored object's own id field (HashMap construction
invariant of the source: nodes and links are always inserted at their id). -/
def KeysMatch (g : Graph) : Prop :=
  (∀ p ∈ g.nodes, (p : String × Node).2.id = p.1) ∧
  (∀ p ∈ g.links, (p : String × Link).2.id = p.1)

/-- Spec invariants 2/3/6 restricted to the children side: every listed
child occurs once, exists in the map, and points back at its parent. -/
def ChildrenWf (g : Graph) : Prop :=
  ∀ p ∈ g.nodes, ∀ c ∈ (p : String × Node).2.children,
    p.2.children.count c = 1 ∧
    (alookup g.nodes c).map Node.parent_id = some (some p.1)

def GraphWf (g : Graph) : Prop :=
  NodupKeys g.nodes ∧ NodupKeys g.links ∧ KeysMatch g ∧ ChildrenWf g

/-- Acyclicity of the parent relation (spec invariant 4), formalised as a
topological rank: parents rank strictly below their children. The
`bounded` half gives every present node a rank below the node count,
which any finite acyclic relation admits. -/
def ParentAcyclic (g : Graph) : Prop :=
  ∃ rank : String → Nat,
    ∀ p ∈ g.nodes, ∀ pid, (p : String × Node).2.parent_id = some pid →
      rank pid < rank p.1

def ParentAcyclicBounded (g : Graph) : Prop :=
  ∃ rank : String → Nat,
    (∀ p ∈ g.nodes, ∀ pid, (p : String × Node).2.parent_id = some pid →
      rank pid < rank p.1) ∧
    (∀ p ∈ g.nodes, rank (p : String × Node).1 < g.nodes.length)

/-! ## Claim C8 — the search text scorer -/

/-- The scorer as search.rs invokes it: the query is lowercased once and
split into terms, and `score_text` lowercases the text itself. -/
def text_score (text query : String) : ℚ :=
  score_text text (strToLower query) (splitWhitespace (strToLower query))

/-- The claim's literal case analysis (uncovered cases fall through to 0):
1.0 on a whole-query substring hit; 0.6 when m = number of terms AND
there is more than one term; 0.3·m/terms when 0 < m < terms; 0 when
m = 0. -/
def claim_text_score (text query : String) : ℚ :=
  let text_lower := strToLower text
  let query_lower := strToLower query
  if strContains text_lower query_lower then 1
  else
    let terms := splitWhitespace query_lower
    let m := (terms.filter (fun t => strContains text_lower t)).length
    if m = terms.length ∧ terms.length > 1 then 3/5
    else if 0 < m ∧ m < terms.length then (3/10) * ((m : ℚ) / (terms.length : ℚ))
    else 0

/-- The amended case analysis: 0.6 whenever every term matches (no
`terms > 1` restriction — the code also returns 0.6 when the query has a
single term, or no terms at all, without a whole-substring hit). -/
def amended_text_score (text query : String) : ℚ :=
  let text_lower := strToLower text
  let query_lower := strToLower query
  if strContains text_lower query_lower then 1
  else
    let terms := splitWhitespace query_lower
    let m := (terms.filter (fun t => strContains text_lower t)).length
    if m = terms.length then 3/5
    else if 0 < m ∧ m < terms.length then (3/10) * ((m : ℚ) / (terms.length : ℚ))
    else 0

/-- Claim C8, counterexample: for text "a" and query " " (no terms, no
substring hit) the code returns 0.6, while the claim's case analysis
(m = 0 → 0.0, and its 0.6 case demands more than one term) gives 0. -/
theorem c8_counterexample :
    text_score "a" " " = 3/5 ∧ claim_text_score "a" " " = 0 :=
  ⟨by rw [show text_score "a" " " = Rat.divInt 3 5 from rfl, divInt_three_five], rfl⟩

/-- Claim C8 (amended): the scorer returns exactly the amended case
analysis — 1.0 on substring hit, 0.6 whenever m equals the term count
(including the degenerate zero- and one-term cases), 0.3·m/terms for
partial matches, 0 otherwise. -/
theorem c8_text_score_eq_amended (text query : String) :
    text_score text query = amended_text_score text query := by
  unfold text_score amended_text_score score_text
  by_cases h1 : strContains (strToLower text) (strToLower query) = true
  · simp [h1]
  · simp only [h1, Bool.false_eq_true, if_false]
    set terms := splitWhitespace (strToLower query) with hterms
    set m := (terms.filter (fun t => strContains (strToLower text) t)).length with hm
    by_cases h2 : m = terms.length
    · simp [h2, divInt_three_five]
    · have hle : m ≤ terms.length := by
        rw [hm]; exact List.length_filter_le _ _
      have hlt : m < terms.length := lt_of_le_of_ne hle h2
      by_cases h3 : 0 < m
      · simp [h2, h3, hlt, divInt_partial_score]
      · simp [h2, h3, hlt]

/-! ## Claim C6 — duplicate-link detection in add_link -/

/-- A confidence argument that the source parses successfully. -/
def conf_parses : Option String → Bool
  | none => true
  | some cs => (ConfidenceLevel.from_str cs).isSome

/-- The duplicate condition the code actually enforces: an existing link
with the same (from, to, relation) triple, or — only when the NEW link is
bidirectional — an existing link with the reverse triple. -/
def DupSpec (g : Graph) (fromN toN relation : String) (bidir : Bool) : Prop :=
  (∃ p ∈ g.links, (p : String × Link).2.from_node = fromN ∧
    p.2.to_node = toN ∧ p.2.relation = relation) ∨
  (bidir = true ∧ ∃ p ∈ g.links, (p : String × Link).2.from_node = toN ∧
    p.2.to_node = fromN ∧ p.2.relation = relation)

def c6_node (id : String) : Node :=
  { id := id, node_type := .category, content := id, parent_id := some "root"
    children := [], metadata := [], previous_values := [], temporal := none
    created_at := 0, updated_at := 0 }

def c6_graph : Graph :=
  { root_id := "root"
    nodes := [("A", c6_node "A"), ("B", c6_node "B")]
    links := [("l1",
      { id := "l1", from_node := "A", to_node := "B", relation := "r"
        bidirectional := true, confidence := none, created_at := 0 })] }

def c6_store : StoreState :=
  { graph := c6_graph, file := c6_graph, pending := [], hasRepo := false }

/-- Claim C6, counterexample: with an existing BIDIRECTIONAL link A→B
(relation "r"), adding the non-bidirectional reverse link B→A with the
same relation is accepted by the code, although the claim says any link
whose reverse triple matches an existing bidirectional link is rejected.
The duplicate check tests the new link's flag, not the existing one's. -/
theorem c6_counterexample :
    (GraphStore.add_link c6_store true "l2" "B" "A" "r" false none 5).2 =
      .ok { id := "l2", from_node := "B", to_node := "A", relation := "r"
            bidirectional := false, confidence := none, created_at := 5 } :=
  rfl

/-- Claim C6 (amended): with existing endpoints and a parseable
confidence, add_link returns DuplicateLink exactly when some existing
link matches the (from, to, relation) triple or the NEW link is
bidirectional and some existing link matches the reverse triple;
otherwise the call returns the new link. -/
theorem c6_add_link_duplicate_iff (s : StoreState) (new_id fromN toN relation : String)
    (bidir : Bool) (confidence : Option String) (now : Nat)
    (hf : (alookup s.graph.nodes fromN).isSome = true)
    (ht : (alookup s.graph.nodes toN).isSome = true)
    (hc : conf_parses confidence = true) :
    (((GraphStore.add_link s true new_id fromN toN relation bidir confidence now).2 =
        .error (.DuplicateLink fromN toN relation)) ↔
      DupSpec s.graph fromN toN relation bidir) ∧
    (¬ DupSpec s.graph fromN toN relation bidir →
      ∃ link, (GraphStore.add_link s true new_id fromN toN relation bidir
        confidence now).2 = .ok link) := by
  obtain ⟨nf, hnf⟩ := Option.isSome_iff_exists.mp hf
  obtain ⟨nt, hnt⟩ := Option.isSome_iff_exists.mp ht
  have hdup : (s.graph.links.any (fun p =>
      (p.2.from_node = fromN && p.2.to_node = toN && p.2.relation = relation) ||
      (bidir && p.2.from_node = toN && p.2.to_node = fromN &&
        p.2.relation = relation)) = true) ↔
      DupSpec s.graph fromN toN relation bidir := by
    rw [List.any_eq_true]
    unfold DupSpec
    constructor
    · rintro ⟨p, hp, hcond⟩
      simp only [Bool.or_eq_true, Bool.and_eq_true, decide_eq_true_eq] at hcond
      rcases hcond with ⟨⟨h1, h2⟩, h3⟩ | ⟨⟨⟨hb, h1⟩, h2⟩, h3⟩
      · exact Or.inl ⟨p, hp, h1, h2, h3⟩
      · exact Or.inr ⟨hb, p, hp, h1, h2, h3⟩
    · rintro (⟨p, hp, h1, h2, h3⟩ | ⟨hb, p, hp, h1, h2, h3⟩)
      · exact ⟨p, hp, by simp [h1, h2, h3]⟩
      · exact ⟨p, hp, by simp [hb, h1, h2, h3]⟩
  have hcases : ∀ dval : Bool, (s.graph.links.any (fun p =>
      (p.2.from_node = fromN && p.2.to_node = toN && p.2.relation = relation) ||
      (bidir && p.2.from_node = toN && p.2.to_node = fromN &&
        p.2.relation = relation)) = dval) →
      (dval = true →
        (GraphStore.add_link s true new_id fromN toN relation bidir confidence now).2 =
          .error (.DuplicateLink fromN toN relation)) ∧
      (dval = false →
        ∃ link, (GraphStore.add_link s true new_id fromN toN relation bidir
          confidence now).2 = .ok link) := by
    intro dval hd
    unfold GraphStore.add_link
    rw [hnf, hnt]
    rcases hconf : confidence with _ | cs
    · subst hconf
      dsimp only
      constructor
      · intro hv; subst hv; simp only [hd]; rfl
      · intro hv; subst hv; simp only [hd]; exact ⟨_, rfl⟩
    · subst hconf
      simp only [conf_parses] at hc
      obtain ⟨c, hcs⟩ := Option.isSome_iff_exists.mp hc
      dsimp only
      simp only [hcs]
      constructor
      · intro hv; subst hv; simp only [hd]; rfl
      · intro hv; subst hv; simp only [hd]; exact ⟨_, rfl⟩
  rcases hB : s.graph.links.any (fun p =>
      (p.2.from_node = fromN && p.2.to_node = toN && p.2.relation = relation) ||
      (bidir && p.2.from_node = toN && p.2.to_node = fromN &&
        p.2.relation = relation)) with _ | _
  · have hns : ¬ DupSpec s.graph fromN toN relation bidir := fun hspec => by
      rw [← hdup] at hspec; rw [hB] at hspec; exact Bool.false_ne_true hspec
    obtain ⟨link, hlink⟩ := ((hcases false hB).2 rfl)
    refine ⟨?_, fun _ => ⟨link, hlink⟩⟩
    rw [hlink]
    constructor
    · intro hbad; exact absurd hbad (by simp)
    · intro hspec; exact absurd hspec hns
  · have hs := hdup.mp hB
    have herr := (hcases true hB).1 rfl
    refine ⟨?_, fun hns => absurd hs hns⟩
    rw [herr]
    exact iff_of_true rfl hs

/-- Witness for c6_add_link_duplicate_iff at a concrete graph: a same-
triple duplicate is reported. -/
theorem c6_add_link_duplicate_iff_witness :
    DupSpec c6_graph "A" "B" "r" false ∧
    (GraphStore.add_link c6_store true "l2" "A" "B" "r" false none 5).2 =
      .error (.DuplicateLink "A" "B" "r") := by
  have h := c6_add_link_duplicate_iff c6_store "l2" "A" "B" "r" false none 5
    (by decide) (by decide) (by decide)
  have hspec : DupSpec c6_graph "A" "B" "r" false := by
    unfold DupSpec; decide
  exact ⟨hspec, h.1.mpr hspec⟩

/-! ## Claim C3 — mutation atomicity -/

theorem record_change_graph (s : StoreState) (c : Change) :
    (record_change s c).graph = s.graph := by
  unfold record_change; split <;> rfl

theorem record_change_file (s : StoreState) (c : Change) :
    (record_change s c).file = s.file := by
  unfold record_change; split <;> rfl

def c3_store : StoreState :=
  { graph := create_default_graph 0, file := create_default_graph 0
    pending := [], hasRepo := true }

/-- Claim C3, counterexample: when the file-save step fails during
create_node, the call returns an I/O error but the in-memory graph
already contains the new node — it is NOT equal to its pre-call value,
contradicting the claimed rollback. (The on-disk file and the pending
buffer are unchanged.) -/
theorem c3_counterexample :
    (GraphStore.create_node c3_store false "n1" "root" "detail" "x" none none 1).2 =
      .error .Io ∧
    (GraphStore.create_node c3_store false "n1" "root" "detail" "x" none none 1).1.graph ≠
      c3_store.graph ∧
    (GraphStore.create_node c3_store false "n1" "root" "detail" "x" none none 1).1.file =
      c3_store.file := by
  refine ⟨rfl, by decide, rfl⟩

theorem record_change_pending (s : StoreState) (c : Change) :
    (record_change s c).pending =
      if s.hasRepo then s.pending ++ [c] else s.pending := by
  unfold record_change
  split <;> simp_all

theorem c3_shape (s : StoreState) (g' : Graph) (c : Change) :
    (record_change { s with graph := g', file := g' } c).file =
      (record_change { s with graph := g', file := g' } c).graph := by
  rw [record_change_file, record_change_graph]

theorem record_change_pending_eq (s : StoreState) (g' : Graph) (c : Change) :
    (record_change { s with graph := g', file := g' } c).pending =
      (record_change s c).pending := by
  rw [record_change_pending, record_change_pending]

set_option maxHeartbeats 1000000 in
/-- Claim C3 (amended): every GraphStore mutation is atomic with respect
to the file and the pending buffer, but not the in-memory graph. When the
file-save step fails, every one of the six mutations returns an error
leaving the on-disk file and the pending-change buffer unchanged — while
the in-memory graph retains the already applied mutation: the source
mutates `self.graph` before calling save and never rolls back. When the
save step succeeds, each mutation either returns an error with the whole
state unchanged, or completes fully: the returned value is ok, the saved
file equals the new in-memory graph, and the pending buffer equals the
pre-state buffer with the corresponding change recorded via
`record_change` (update_node either records an UpdateNode change for the
node, or leaves the buffer unchanged when neither content nor metadata
actually changed). -/
theorem c3_save_failure_semantics :
    (∀ s nid pid nt ct md tp now,
      (GraphStore.create_node s false nid pid nt ct md tp now).1.file = s.file ∧
      (GraphStore.create_node s false nid pid nt ct md tp now).1.pending = s.pending ∧
      (GraphStore.create_node s false nid pid nt ct md tp now).2.isOk = false) ∧
    (∀ s nid ct md tp rs now,
      (GraphStore.update_node s false nid ct md tp rs now).1.file = s.file ∧
      (GraphStore.update_node s false nid ct md tp rs now).1.pending = s.pending ∧
      (GraphStore.update_node s false nid ct md tp rs now).2.isOk = false) ∧
    (∀ s fuel nid,
      (GraphStore.delete_node s false fuel nid).1.file = s.file ∧
      (GraphStore.delete_node s false fuel nid).1.pending = s.pending ∧
      (GraphStore.delete_node s false fuel nid).2.isOk = false) ∧
    (∀ s nid fn tn rel bd cf now,
      (GraphStore.add_link s false nid fn tn rel bd cf now).1.file = s.file ∧
      (GraphStore.add_link s false nid fn tn rel bd cf now).1.pending = s.pending ∧
      (GraphStore.add_link s false nid fn tn rel bd cf now).2.isOk = false) ∧
    (∀ s lid rel bd cf,
      (GraphStore.update_link s false lid rel bd cf).1.file = s.file ∧
      (GraphStore.update_link s false lid rel bd cf).1.pending = s.pending ∧
      (GraphStore.update_link s false lid rel bd cf).2.isOk = false) ∧
    (∀ s lid,
      (GraphStore.delete_link s false lid).1.file = s.file ∧
      (GraphStore.delete_link s false lid).1.pending = s.pending ∧
      (GraphStore.delete_link s false lid).2.isOk = false) ∧
    (∀ s nid pid nt ct md tp now,
      ((GraphStore.create_node s true nid pid nt ct md tp now).2.isOk = false ∧
        (GraphStore.create_node s true nid pid nt ct md tp now).1 = s) ∨
      (∃ node,
        (GraphStore.create_node s true nid pid nt ct md tp now).2 = .ok node ∧
        (GraphStore.create_node s true nid pid nt ct md tp now).1.file =
          (GraphStore.create_node s true nid pid nt ct md tp now).1.graph ∧
        (GraphStore.create_node s true nid pid nt ct md tp now).1.pending =
          (record_change s (Change.CreateNode nid node)).pending)) ∧
    (∀ s nid ct md tp rs now,
      ((GraphStore.update_node s true nid ct md tp rs now).2.isOk = false ∧
        (GraphStore.update_node s true nid ct md tp rs now).1 = s) ∨
      (∃ upd,
        (GraphStore.update_node s true nid ct md tp rs now).2 = .ok upd ∧
        (GraphStore.update_node s true nid ct md tp rs now).1.file =
          (GraphStore.update_node s true nid ct md tp rs now).1.graph ∧
        ((GraphStore.update_node s true nid ct md tp rs now).1.pending = s.pending ∨
          ∃ oc nc om nm,
            (GraphStore.update_node s true nid ct md tp rs now).1.pending =
              (record_change s (Change.UpdateNode nid oc nc om nm)).pending))) ∧
    (∀ s fuel nid,
      ((GraphStore.delete_node s true fuel nid).2.isOk = false ∧
        (GraphStore.delete_node s true fuel nid).1 = s) ∨
      ((GraphStore.delete_node s true fuel nid).2 = .ok () ∧
        (GraphStore.delete_node s true fuel nid).1.file =
          (GraphStore.delete_node s true fuel nid).1.graph ∧
        ∃ dns dls,
          (GraphStore.delete_node s true fuel nid).1.pending =
            (record_change s (Change.DeleteNode nid dns dls)).pending)) ∧
    (∀ s nid fn tn rel bd cf now,
      ((GraphStore.add_link s true nid fn tn rel bd cf now).2.isOk = false ∧
        (GraphStore.add_link s true nid fn tn rel bd cf now).1 = s) ∨
      (∃ link,
        (GraphStore.add_link s true nid fn tn rel bd cf now).2 = .ok link ∧
        (GraphStore.add_link s true nid fn tn rel bd cf now).1.file =
          (GraphStore.add_link s true nid fn tn rel bd cf now).1.graph ∧
        (GraphStore.add_link s true nid fn tn rel bd cf now).1.pending =
          (record_change s (Change.AddLink nid link)).pending)) ∧
    (∀ s lid rel bd cf,
      ((GraphStore.update_link s true lid rel bd cf).2.isOk = false ∧
        (GraphStore.update_link s true lid rel bd cf).1 = s) ∨
      (∃ oldl newl,
        (GraphStore.update_link s true lid rel bd cf).2 = .ok newl ∧
        (GraphStore.update_link s true lid rel bd cf).1.file =
          (GraphStore.update_link s true lid rel bd cf).1.graph ∧
        (GraphStore.update_link s true lid rel bd cf).1.pending =
          (record_change s (Change.UpdateLink lid oldl newl)).pending)) ∧
    (∀ s lid,
      ((GraphStore.delete_link s true lid).2.isOk = false ∧
        (GraphStore.delete_link s true lid).1 = s) ∨
      (∃ link,
        (GraphStore.delete_link s true lid).2 = .ok link ∧
        (GraphStore.delete_link s true lid).1.file =
          (GraphStore.delete_link s true lid).1.graph ∧
        (GraphStore.delete_link s true lid).1.pending =
          (record_change s (Change.RemoveLink lid link)).pending)) := by
  refine ⟨?_, ?_, ?_, ?_, ?_, ?_, ?_, ?_, ?_, ?_, ?_, ?_⟩
  · intro s nid pid nt ct md tp now
    unfold GraphStore.create_node
    repeat' split
    all_goals first
      | exact ⟨rfl, rfl, rfl⟩
      | (dsimp only; split <;> exact ⟨rfl, rfl, rfl⟩)
      | (simp_all; done)
  · intro s nid ct md tp rs now
    unfold GraphStore.update_node
    repeat' split
    all_goals first
      | exact ⟨rfl, rfl, rfl⟩
      | (dsimp only; split <;> exact ⟨rfl, rfl, rfl⟩)
      | (simp_all; done)
  · intro s fuel nid
    unfold GraphStore.delete_node
    repeat' split
    all_goals first
      | exact ⟨rfl, rfl, rfl⟩
      | (dsimp only; split <;> exact ⟨rfl, rfl, rfl⟩)
      | (simp_all; done)
  · intro s nid fn tn rel bd cf now
    unfold GraphStore.add_link
    repeat' split
    all_goals first
      | exact ⟨rfl, rfl, rfl⟩
      | (dsimp only; split <;> exact ⟨rfl, rfl, rfl⟩)
      | (simp_all; done)
  · intro s lid rel bd cf
    unfold GraphStore.update_link
    repeat' split
    all_goals first
      | exact ⟨rfl, rfl, rfl⟩
      | (dsimp only; split <;> exact ⟨rfl, rfl, rfl⟩)
      | (simp_all; done)
  · intro s lid
    unfold GraphStore.delete_link
    repeat' split
    all_goals first
      | exact ⟨rfl, rfl, rfl⟩
      | (dsimp only; split <;> exact ⟨rfl, rfl, rfl⟩)
      | (simp_all; done)
  · intro s nid pid nt ct md tp now
    unfold GraphStore.create_node
    repeat' split
    all_goals try (dsimp only; repeat' split)
    all_goals first
      | exact Or.inl ⟨rfl, rfl⟩
      | exact Or.inr ⟨_, rfl, c3_shape s _ _, record_change_pending_eq s _ _⟩
      | (simp_all; done)
  · intro s nid ct md tp rs now
    unfold GraphStore.update_node
    repeat' split
    all_goals try (dsimp only; repeat' split)
    all_goals first
      | exact Or.inl ⟨rfl, rfl⟩
      | exact Or.inr ⟨_, rfl, c3_shape s _ _,
          Or.inr ⟨_, _, _, _, record_change_pending_eq s _ _⟩⟩
      | exact Or.inr ⟨_, rfl, rfl, Or.inl rfl⟩
      | (simp_all; done)
  · intro s fuel nid
    unfold GraphStore.delete_node
    repeat' split
    all_goals try (dsimp only; repeat' split)
    all_goals first
      | exact Or.inl ⟨rfl, rfl⟩
      | exact Or.inr ⟨rfl, c3_shape s _ _, _, _, record_change_pending_eq s _ _⟩
      | (simp_all; done)
  · intro s nid fn tn rel bd cf now
    unfold GraphStore.add_link
    repeat' split
    all_goals try (dsimp only; repeat' split)
    all_goals first
      | exact Or.inl ⟨rfl, rfl⟩
      | exact Or.inr ⟨_, rfl, c3_shape s _ _, record_change_pending_eq s _ _⟩
      | (simp_all; done)
  · intro s lid rel bd cf
    unfold GraphStore.update_link
    repeat' split
    all_goals try (dsimp only; repeat' split)
    all_goals first
      | exact Or.inl ⟨rfl, rfl⟩
      | exact Or.inr ⟨_, _, rfl, c3_shape s _ _, record_change_pending_eq s _ _⟩
      | (simp_all; done)
  · intro s lid
    unfold GraphStore.delete_link
    repeat' split
    all_goals try (dsimp only; repeat' split)
    all_goals first
      | exact Or.inl ⟨rfl, rfl⟩
      | exact Or.inr ⟨_, rfl, c3_shape s _ _, record_change_pending_eq s _ _⟩
      | (simp_all; done)

/-! ## Claim C9 — search only returns nodes reachable from the root -/

/-- Reachability from the graph root along children edges of nodes
present in the map — exactly the ids the search BFS can enqueue. -/
inductive ReachFromRoot (g : Graph) : String → Prop where
  | root : ReachFromRoot g g.root_id
  | child {p c : String} {node : Node} (hp : ReachFromRoot g p)
      (hn : alookup g.nodes p = some node) (hc : c ∈ node.children) :
      ReachFromRoot g c

theorem score_node_id (node : Node) (ql : String) (terms : List String)
    (depth : Nat) (r : SearchResult)
    (h : score_node node ql terms depth = some r) : r.node_id = node.id := by
  unfold score_node at h
  dsimp only at h
  repeat' split at h
  all_goals first
    | (injection h with h2; subst h2; rfl)
    | exact absurd h (by simp)

theorem search_loop_sound (g : Graph) (ql : String) (terms : List String) :
    ∀ (fuel : Nat) (queue : List (String × Nat)) (results : List SearchResult),
    (∀ q ∈ queue, ReachFromRoot g (q : String × Nat).1) →
    (∀ r ∈ results, ∃ key node, ReachFromRoot g key ∧
      alookup g.nodes key = some node ∧ (r : SearchResult).node_id = node.id) →
    ∀ r ∈ search_loop g ql terms fuel queue results,
      ∃ key node, ReachFromRoot g key ∧ alookup g.nodes key = some node ∧
        r.node_id = node.id := by
  intro fuel
  induction fuel with
  | zero =>
    intro queue results _ hr r hmem
    exact hr r (by simpa [search_loop] using hmem)
  | succ n ih =>
    intro queue results hq hr r hmem
    match queue with
    | [] => exact hr r (by simpa [search_loop] using hmem)
    | (node_id, depth) :: rest =>
      have hqhead : ReachFromRoot g node_id := hq (node_id, depth) (by simp)
      have hqrest : ∀ q ∈ rest, ReachFromRoot g (q : String × Nat).1 :=
        fun q hqm => hq q (List.mem_cons_of_mem _ hqm)
      rw [search_loop] at hmem
      cases hl : alookup g.nodes node_id with
      | none =>
        rw [hl] at hmem
        exact ih rest results hqrest hr r hmem
      | some node =>
        rw [hl] at hmem
        dsimp only at hmem
        refine ih _ _ ?_ ?_ r hmem
        · intro q hqm
          rcases List.mem_append.mp hqm with hq1 | hq2
          · exact hqrest q hq1
          · obtain ⟨c, hc, hceq⟩ := List.mem_map.mp hq2
            subst hceq
            exact ReachFromRoot.child hqhead hl hc
        · intro r' hr'
          cases hs : score_node node ql terms depth with
          | none =>
            rw [hs] at hr'
            exact hr r' hr'
          | some r0 =>
            rw [hs] at hr'
            rcases List.mem_append.mp hr' with h1 | h2
            · exact hr r' h1
            · have : r' = r0 := by simpa using h2
              subst this
              exact ⟨node_id, node, hqhead, hl, score_node_id _ _ _ _ _ hs⟩

/-- Claim C9: every search result names a node reachable from the root
via children edges (so an orphan — present in the map but unreachable —
never appears in the results). Map keys equal node ids, as the store
maintains. -/
theorem c9_search_reachable (g : Graph) (fuel max_results : Nat) (query : String)
    (hkm : ∀ p ∈ g.nodes, (p : String × Node).2.id = p.1)
    (r : SearchResult) (hr : r ∈ search_nodes g fuel query max_results) :
    ReachFromRoot g r.node_id := by
  unfold search_nodes at hr
  dsimp only at hr
  split at hr
  · exact absurd hr (by simp)
  · have hr2 := List.take_subset _ _ hr
    have hr3 := (List.mergeSort_perm _ _).mem_iff.mp hr2
    obtain ⟨key, node, hreach, hlook, hid⟩ :=
      search_loop_sound g _ _ fuel [(g.root_id, 0)] []
        (by intro q hq; simp at hq; subst hq; exact ReachFromRoot.root)
        (by intro r' hr'; exact absurd hr' (by simp))
        r hr3
    have hkey : node.id = key := by
      have hmem := alookup_mem _ _ _ hlook
      exact hkm (key, node) hmem
    rw [hid, hkey]
    exact hreach

def c9_graph : Graph :=
  { root_id := "root"
    nodes := [
      ("root",
        { id := "root", node_type := .root, content := "User", parent_id := none
          children := ["n1"], metadata := [], previous_values := [], temporal := none
          created_at := 0, updated_at := 0 }),
      ("n1",
        { id := "n1", node_type := .detail, content := "pizza", parent_id := some "root"
          children := [], metadata := [], previous_values := [], temporal := none
          created_at := 0, updated_at := 0 })]
    links := [] }

/-- Witness for c9_search_reachable: a concrete search hit is reachable. -/
theorem c9_search_reachable_witness : ∃ r : SearchResult,
    r ∈ search_nodes c9_graph 10 "pizza" 10 ∧ ReachFromRoot c9_graph r.node_id := by
  have h1 : search_nodes c9_graph 10 "pizza" 10 =
      ((search_loop c9_graph "pizza" ["pizza"] 10 [("root", 0)] []).mergeSort
        (fun a b => b.score ≤ a.score)).take 10 := rfl
  have hloop : search_loop c9_graph "pizza" ["pizza"] 10 [("root", 0)] [] =
      [{ node_id := "n1", node_type := "detail", content := "pizza", score := 1
         matched_field := "content", depth := 1 }] := rfl
  have heval : search_nodes c9_graph 10 "pizza" 10 =
      [{ node_id := "n1", node_type := "detail", content := "pizza", score := 1
         matched_field := "content", depth := 1 }] := by
    rw [h1, hloop, List.mergeSort_singleton]
    rfl
  refine ⟨{ node_id := "n1", node_type := "detail", content := "pizza", score := 1
            matched_field := "content", depth := 1 }, ?_, ?_⟩
  · rw [heval]; exact List.mem_singleton.mpr rfl
  · exact c9_search_reachable c9_graph 10 10 "pizza" (by decide) _
      (by rw [heval]; exact List.mem_singleton.mpr rfl)

/-! ## Claim C10 — termination of the parent-chain walks -/

theorem collect_ancestors_go_completes (g : Graph) (rank : String → Nat)
    (hrank : ∀ p ∈ g.nodes, ∀ pid, (p : String × Node).2.parent_id = some pid →
      rank pid < rank p.1) :
    ∀ (k : Nat) (current : Option String) (acc : List Node),
    (∀ id, current = some id → rank id < k) →
    (collect_ancestors_go g k current acc).2 = true := by
  intro k
  induction k with
  | zero =>
    intro current acc hcur
    cases current with
    | none => rfl
    | some id => exact absurd (hcur id rfl) (Nat.not_lt_zero _)
  | succ n ih =>
    intro current acc hcur
    cases current with
    | none => rfl
    | some pid =>
      rw [collect_ancestors_go]
      cases hl : alookup g.nodes pid with
      | none => rfl
      | some parent =>
        apply ih
        intro id2 hid2
        have hmem := alookup_mem _ _ _ hl
        have hdec : rank id2 < rank pid := by
          simpa using hrank (pid, parent) hmem id2 hid2
        have hk : rank pid < n + 1 := hcur pid rfl
        omega

theorem build_node_path_go_completes (g : Graph) (rank : String → Nat)
    (hrank : ∀ p ∈ g.nodes, ∀ pid, (p : String × Node).2.parent_id = some pid →
      rank pid < rank p.1) :
    ∀ (k : Nat) (current : Option String) (acc : List String),
    (∀ id, current = some id → rank id < k) →
    (build_node_path_go g k current acc).2 = true := by
  intro k
  induction k with
  | zero =>
    intro current acc hcur
    cases current with
    | none => rfl
    | some id => exact absurd (hcur id rfl) (Nat.not_lt_zero _)
  | succ n ih =>
    intro current acc hcur
    cases current with
    | none => rfl
    | some pid =>
      rw [build_node_path_go]
      cases hl : alookup g.nodes pid with
      | none => rfl
      | some node =>
        apply ih
        intro id2 hid2
        have hmem := alookup_mem _ _ _ hl
        have hdec : rank id2 < rank pid := by
          simpa using hrank (pid, node) hmem id2 hid2
        have hk : rank pid < n + 1 := hcur pid rfl
        omega

/-- A two-node parent cycle: a's parent is b and b's parent is a. -/
def c10_cycle : Graph :=
  { root_id := "root"
    nodes := [
      ("a",
        { id := "a", node_type := .detail, content := "a", parent_id := some "b"
          children := [], metadata := [], previous_values := [], temporal := none
          created_at := 0, updated_at := 0 }),
      ("b",
        { id := "b", node_type := .detail, content := "b", parent_id := some "a"
          children := [], metadata := [], previous_values := [], temporal := none
          created_at := 0, updated_at := 0 })]
    links := [] }

theorem c10_cycle_ancestors_go_stuck :
    ∀ (fuel : Nat) (current : Option String) (acc : List Node),
    (current = some "a" ∨ current = some "b") →
    (collect_ancestors_go c10_cycle fuel current acc).2 = false := by
  intro fuel
  induction fuel with
  | zero =>
    intro current acc hcur
    rcases hcur with rfl | rfl <;> rfl
  | succ n ih =>
    intro current acc hcur
    rcases hcur with rfl | rfl
    · rw [collect_ancestors_go,
        show alookup c10_cycle.nodes "a" =
          some { id := "a", node_type := .detail, content := "a", parent_id := some "b"
                 children := [], metadata := [], previous_values := [], temporal := none
                 created_at := 0, updated_at := 0 } from rfl]
      exact ih _ _ (Or.inr rfl)
    · rw [collect_ancestors_go,
        show alookup c10_cycle.nodes "b" =
          some { id := "b", node_type := .detail, content := "b", parent_id := some "a"
                 children := [], metadata := [], previous_values := [], temporal := none
                 created_at := 0, updated_at := 0 } from rfl]
      exact ih _ _ (Or.inl rfl)

theorem c10_cycle_path_go_stuck :
    ∀ (fuel : Nat) (current : Option String) (acc : List String),
    (current = some "a" ∨ current = some "b") →
    (build_node_path_go c10_cycle fuel current acc).2 = false := by
  intro fuel
  induction fuel with
  | zero =>
    intro current acc hcur
    rcases hcur with rfl | rfl <;> rfl
  | succ n ih =>
    intro current acc hcur
    rcases hcur with rfl | rfl
    · rw [build_node_path_go,
        show alookup c10_cycle.nodes "a" =
          some { id := "a", node_type := .detail, content := "a", parent_id := some "b"
                 children := [], metadata := [], previous_values := [], temporal := none
                 created_at := 0, updated_at := 0 } from rfl]
      exact ih _ _ (Or.inr rfl)
    · rw [build_node_path_go,
        show alookup c10_cycle.nodes "b" =
          some { id := "b", node_type := .detail, content := "b", parent_id := some "a"
                 children := [], metadata := [], previous_values := [], temporal := none
                 created_at := 0, updated_at := 0 } from rfl]
      exact ih _ _ (Or.inl rfl)

/-- Claim C10: on any graph with an acyclic parent relation both
parent-chain loops terminate (they reach a parentless node or a missing
id within finitely many steps, so some fuel completes the walk); on the
two-node parent cycle neither loop ever completes, whatever the fuel. -/
theorem c10_parent_walks_terminate :
    (∀ g : Graph, ParentAcyclic g → ∀ node_id : String,
      (∃ fuel, (collect_ancestors g fuel node_id).2 = true) ∧
      (∃ fuel, (build_node_path g fuel node_id).2 = true)) ∧
    (∀ fuel, (collect_ancestors c10_cycle fuel "a").2 = false ∧
      (build_node_path c10_cycle fuel "a").2 = false) := by
  constructor
  · intro g hacyc node_id
    obtain ⟨rank, hrank⟩ := hacyc
    constructor
    · unfold collect_ancestors
      cases hcur : (alookup g.nodes node_id).bind (fun n => n.parent_id) with
      | none => exact ⟨1, rfl⟩
      | some pid =>
        refine ⟨rank pid + 1, ?_⟩
        exact collect_ancestors_go_completes g rank hrank _ _ _
          (by intro id hid; injection hid with h2; subst h2; omega)
    · unfold build_node_path
      refine ⟨rank node_id + 1, ?_⟩
      exact build_node_path_go_completes g rank hrank _ _ _
        (by intro id hid; injection hid with h2; subst h2; omega)
  · intro fuel
    constructor
    · unfold collect_ancestors
      exact c10_cycle_ancestors_go_stuck fuel _ _ (Or.inr rfl)
    · unfold build_node_path
      exact c10_cycle_path_go_stuck fuel _ _ (Or.inl rfl)

/-- Witness for c10_parent_walks_terminate: the acyclic half applied to a
concrete two-node tree. -/
theorem c10_parent_walks_terminate_witness :
    ParentAcyclic c9_graph ∧
    (∃ fuel, (collect_ancestors c9_graph fuel "n1").2 = true) := by
  have hacyc : ParentAcyclic c9_graph := by
    refine ⟨fun id => if id = "root" then 0 else 1, ?_⟩
    intro p hp pid hpid
    fin_cases hp
    · simp at hpid
    · simp at hpid
      subst hpid
      decide
  exact ⟨hacyc, (c10_parent_walks_terminate.1 c9_graph hacyc "n1").1⟩

/-! ## Claim C7 — find_merge_base returns a common ancestor -/

/-- `Ancestor parents a d`: a is an ancestor of d — d itself, or
reachable from d by following the parent-reader. This is the relation
is_ancestor decides. -/
inductive Ancestor (parents : String → List String) : String → String → Prop where
  | refl (d : String) : Ancestor parents d d
  | step {d m x : String} (h : Ancestor parents m d) (hx : x ∈ parents m) :
      Ancestor parents x d

theorem ancestor_in_closed (parents : String → List String) (S : List String)
    (hclosed : ∀ x ∈ S, ∀ p ∈ parents x, p ∈ S) :
    ∀ c d, Ancestor parents c d → d ∈ S → c ∈ S := by
  intro c d h
  induction h with
  | refl => intro hd; exact hd
  | step h hx ih => intro hd; exact hclosed _ (ih hd) _ hx

theorem scan_insert_fst_mem (x : String) :
    ∀ (ps v q : List String), x ∈ (scan_insert ps v q).1 ↔ x ∈ v ∨ x ∈ ps := by
  intro ps
  induction ps with
  | nil => intro v q; simp [scan_insert]
  | cons p ps ih =>
    intro v q
    by_cases hp : p ∈ v
    · rw [scan_insert, if_pos hp, ih]
      constructor
      · rintro (h | h)
        · exact Or.inl h
        · exact Or.inr (List.mem_cons_of_mem _ h)
      · rintro (h | h)
        · exact Or.inl h
        · rcases List.mem_cons.mp h with rfl | h2
          · exact Or.inl hp
          · exact Or.inr h2
    · rw [scan_insert, if_neg hp, ih]
      simp only [List.mem_append, List.mem_cons, List.not_mem_nil, or_false]
      tauto

theorem scan_insert_snd_mem (x : String) :
    ∀ (ps v q : List String),
    x ∈ (scan_insert ps v q).2 ↔ x ∈ q ∨ (x ∈ ps ∧ x ∉ v) := by
  intro ps
  induction ps with
  | nil => intro v q; simp [scan_insert]
  | cons p ps ih =>
    intro v q
    by_cases hp : p ∈ v
    · rw [scan_insert, if_pos hp, ih]
      constructor
      · rintro (h | ⟨h1, h2⟩)
        · exact Or.inl h
        · exact Or.inr ⟨List.mem_cons_of_mem _ h1, h2⟩
      · rintro (h | ⟨h1, h2⟩)
        · exact Or.inl h
        · rcases List.mem_cons.mp h1 with rfl | h3
          · exact absurd hp h2
          · exact Or.inr ⟨h3, h2⟩
    · rw [scan_insert, if_neg hp, ih]
      simp only [List.mem_append, List.mem_cons, List.not_mem_nil, or_false]
      constructor
      · rintro (h | ⟨h1, h2⟩)
        · rcases h with h | rfl
          · exact Or.inl h
          · exact Or.inr ⟨Or.inl rfl, hp⟩
        · refine Or.inr ⟨Or.inr h1, fun hv => h2 (Or.inl hv)⟩
      · rintro (h | ⟨h1, h2⟩)
        · exact Or.inl (Or.inl h)
        · rcases h1 with rfl | h3
          · exact Or.inl (Or.inr rfl)
          · by_cases hxp : x = p
            · subst hxp; exact Or.inl (Or.inr rfl)
            · exact Or.inr ⟨h3, fun hv => by
                rcases hv with hv | hv
                · exact h2 hv
                · exact hxp hv⟩

/-- The BFS loop invariant proof for find_merge_base: if the loop reports
a hash it is a common ancestor of both heads; if it reports None the two
ancestor sets are disjoint. -/
theorem fmb_go_spec (parents : String → List String) (ours theirs : String) :
    ∀ (fuel : Nat) (oV oQ tV tQ : List String),
    (∀ x ∈ oQ, x ∈ oV) → (∀ x ∈ tQ, x ∈ tV) →
    (∀ x ∈ oV, Ancestor parents x ours) → (∀ x ∈ tV, Ancestor parents x theirs) →
    ours ∈ oV → theirs ∈ tV →
    (∀ x ∈ oV, x ∈ oQ ∨ ∀ p ∈ parents x, p ∈ oV) →
    (∀ x ∈ tV, x ∈ tQ ∨ ∀ p ∈ parents x, p ∈ tV) →
    (∀ x, x ∈ oV → x ∈ tV → x ∈ oQ ∨ x ∈ tQ) →
    (∀ b, fmb_go parents fuel (oV, oQ) (tV, tQ) = some (some b) →
      Ancestor parents b ours ∧ Ancestor parents b theirs) ∧
    (fmb_go parents fuel (oV, oQ) (tV, tQ) = some none →
      ¬ ∃ c, Ancestor parents c ours ∧ Ancestor parents c theirs) := by
  intro fuel
  induction fuel with
  | zero =>
    intro oV oQ tV tQ _ _ _ _ _ _ _ _ _
    exact ⟨fun b h => absurd h (by simp [fmb_go]),
      fun h => absurd h (by simp [fmb_go])⟩
  | succ n ih =>
    intro oV oQ tV tQ hQo hQt hAo hAt hOurs hTheirs hCo hCt hD
    simp only [fmb_go]
    by_cases hemp : oQ.isEmpty = true ∧ tQ.isEmpty = true
    · rw [if_pos hemp]
      refine ⟨fun b h => absurd (Option.some.inj h) (by simp), fun _ => ?_⟩
      rintro ⟨c, hco, hct⟩
      have hoQ : oQ = [] := List.isEmpty_iff.mp hemp.1
      have htQ : tQ = [] := List.isEmpty_iff.mp hemp.2
      subst hoQ htQ
      have hclosedO : ∀ x ∈ oV, ∀ p ∈ parents x, p ∈ oV := by
        intro x hx
        rcases hCo x hx with h | h
        · exact absurd h (by simp)
        · exact h
      have hclosedT : ∀ x ∈ tV, ∀ p ∈ parents x, p ∈ tV := by
        intro x hx
        rcases hCt x hx with h | h
        · exact absurd h (by simp)
        · exact h
      have hcO : c ∈ oV := ancestor_in_closed parents oV hclosedO c ours hco hOurs
      have hcT : c ∈ tV := ancestor_in_closed parents tV hclosedT c theirs hct hTheirs
      rcases hD c hcO hcT with h | h <;> exact absurd h (by simp)
    · rw [if_neg hemp]
      -- step over the ours side
      rcases oQ with _ | ⟨h, rest⟩
      · -- ours queue empty: step1 keeps (oV, [])
        dsimp only
        rcases tQ with _ | ⟨k, rest2⟩
        · -- both empty contradicts hemp, but the code just recurses
          exact ih oV [] tV [] hQo hQt hAo hAt hOurs hTheirs hCo hCt hD
        · dsimp only
          by_cases hk : k ∈ oV
          · rw [if_pos hk]
            refine ⟨fun b hb => ?_, fun hb => absurd (Option.some.inj hb) (by simp)⟩
            have hkb : k = b := Option.some.inj (Option.some.inj hb)
            subst hkb
            exact ⟨hAo k hk, hAt k (hQt k (by simp))⟩
          · rw [if_neg hk]
            have hkT : k ∈ tV := hQt k (by simp)
            refine ih oV [] _ _ hQo ?_ hAo ?_ hOurs ?_ hCo ?_ ?_
            · intro x hx
              rw [scan_insert_snd_mem] at hx
              rw [scan_insert_fst_mem]
              rcases hx with hx | ⟨hx1, hx2⟩
              · exact Or.inl (hQt x (List.mem_cons_of_mem _ hx))
              · exact Or.inr hx1
            · intro x hx
              rw [scan_insert_fst_mem] at hx
              rcases hx with hx | hx
              · exact hAt x hx
              · exact Ancestor.step (hAt k hkT) hx
            · rw [scan_insert_fst_mem]; exact Or.inl hTheirs
            · intro x hx
              rw [scan_insert_fst_mem] at hx
              rcases hx with hx | hx
              · rcases hCt x hx with hq | hcl
                · rcases List.mem_cons.mp hq with rfl | hq2
                  · -- x = k, now parents-closed via the inserted parents
                    right
                    intro p hp
                    rw [scan_insert_fst_mem]
                    exact Or.inr hp
                  · left
                    rw [scan_insert_snd_mem]
                    exact Or.inl hq2
                · right
                  intro p hp
                  rw [scan_insert_fst_mem]
                  exact Or.inl (hcl p hp)
              · -- x is a fresh parent of k: queued
                by_cases hxv : x ∈ tV
                · rcases hCt x hxv with hq | hcl
                  · rcases List.mem_cons.mp hq with rfl | hq2
                    · right
                      intro p hp
                      rw [scan_insert_fst_mem]
                      exact Or.inr hp
                    · left
                      rw [scan_insert_snd_mem]
                      exact Or.inl hq2
                  · right
                    intro p hp
                    rw [scan_insert_fst_mem]
                    exact Or.inl (hcl p hp)
                · left
                  rw [scan_insert_snd_mem]
                  exact Or.inr ⟨hx, hxv⟩
            · intro x hxO hxT
              rw [scan_insert_fst_mem] at hxT
              right
              rw [scan_insert_snd_mem]
              rcases hxT with hxT | hxT
              · rcases hD x hxO hxT with hq | hq
                · exact absurd hq (by simp)
                · rcases List.mem_cons.mp hq with rfl | hq2
                  · exact absurd hxO hk
                  · exact Or.inl hq2
              · by_cases hxv : x ∈ tV
                · rcases hD x hxO hxv with hq | hq
                  · exact absurd hq (by simp)
                  · rcases List.mem_cons.mp hq with rfl | hq2
                    · exact absurd hxO hk
                    · exact Or.inl hq2
                · exact Or.inr ⟨hxT, hxv⟩
      · -- ours queue nonempty: pop h
        by_cases hh : h ∈ tV
        · dsimp only
          rw [if_pos hh]
          refine ⟨fun b hb => ?_, fun hb => absurd (Option.some.inj hb) (by simp)⟩
          have hhb : h = b := Option.some.inj (Option.some.inj hb)
          subst hhb
          exact ⟨hAo h (hQo h (by simp)), hAt h hh⟩
        · dsimp only
          rw [if_neg hh]
          have hhO : h ∈ oV := hQo h (by simp)
          -- the mid invariant after the ours expansion
          have hQo' : ∀ x ∈ (scan_insert (parents h) oV rest).2,
              x ∈ (scan_insert (parents h) oV rest).1 := by
            intro x hx
            rw [scan_insert_snd_mem] at hx
            rw [scan_insert_fst_mem]
            rcases hx with hx | ⟨hx1, _⟩
            · exact Or.inl (hQo x (List.mem_cons_of_mem _ hx))
            · exact Or.inr hx1
          have hAo' : ∀ x ∈ (scan_insert (parents h) oV rest).1,
              Ancestor parents x ours := by
            intro x hx
            rw [scan_insert_fst_mem] at hx
            rcases hx with hx | hx
            · exact hAo x hx
            · exact Ancestor.step (hAo h hhO) hx
          have hOurs' : ours ∈ (scan_insert (parents h) oV rest).1 := by
            rw [scan_insert_fst_mem]; exact Or.inl hOurs
          have hCo' : ∀ x ∈ (scan_insert (parents h) oV rest).1,
              x ∈ (scan_insert (parents h) oV rest).2 ∨
              ∀ p ∈ parents x, p ∈ (scan_insert (parents h) oV rest).1 := by
            intro x hx
            rw [scan_insert_fst_mem] at hx
            have hsolve : x ∈ oV →
                x ∈ (scan_insert (parents h) oV rest).2 ∨
                ∀ p ∈ parents x, p ∈ (scan_insert (parents h) oV rest).1 := by
              intro hxv
              rcases hCo x hxv with hq | hcl
              · rcases List.mem_cons.mp hq with rfl | hq2
                · right
                  intro p hp
                  rw [scan_insert_fst_mem]
                  exact Or.inr hp
                · left
                  rw [scan_insert_snd_mem]
                  exact Or.inl hq2
              · right
                intro p hp
                rw [scan_insert_fst_mem]
                exact Or.inl (hcl p hp)
            rcases hx with hx | hx
            · exact hsolve hx
            · by_cases hxv : x ∈ oV
              · exact hsolve hxv
              · left
                rw [scan_insert_snd_mem]
                exact Or.inr ⟨hx, hxv⟩
          have hD' : ∀ x, x ∈ (scan_insert (parents h) oV rest).1 → x ∈ tV →
              x ∈ (scan_insert (parents h) oV rest).2 ∨ x ∈ tQ := by
            intro x hxO hxT
            rw [scan_insert_fst_mem] at hxO
            have hsolve : x ∈ oV → x ∈ (scan_insert (parents h) oV rest).2 ∨ x ∈ tQ := by
              intro hxv
              rcases hD x hxv hxT with hq | hq
              · rcases List.mem_cons.mp hq with rfl | hq2
                · exact absurd hxT hh
                · left
                  rw [scan_insert_snd_mem]
                  exact Or.inl hq2
              · exact Or.inr hq
            rcases hxO with hx | hx
            · exact hsolve hx
            · by_cases hxv : x ∈ oV
              · exact hsolve hxv
              · left
                rw [scan_insert_snd_mem]
                exact Or.inr ⟨hx, hxv⟩
          -- now the theirs side
          rcases tQ with _ | ⟨k, rest2⟩
          · exact ih _ _ tV [] hQo' hQt hAo' hAt hOurs' hTheirs hCo' hCt
              (fun x hxO hxT => (hD' x hxO hxT).imp id id)
          · dsimp only
            by_cases hk : k ∈ (scan_insert (parents h) oV rest).1
            · rw [if_pos hk]
              refine ⟨fun b hb => ?_, fun hb => absurd (Option.some.inj hb) (by simp)⟩
              have hkb : k = b := Option.some.inj (Option.some.inj hb)
              subst hkb
              exact ⟨hAo' k hk, hAt k (hQt k (by simp))⟩
            · rw [if_neg hk]
              have hkT : k ∈ tV := hQt k (by simp)
              refine ih _ _ _ _ hQo' ?_ hAo' ?_ hOurs' ?_ hCo' ?_ ?_
              · intro x hx
                rw [scan_insert_snd_mem] at hx
                rw [scan_insert_fst_mem]
                rcases hx with hx | ⟨hx1, _⟩
                · exact Or.inl (hQt x (List.mem_cons_of_mem _ hx))
                · exact Or.inr hx1
              · intro x hx
                rw [scan_insert_fst_mem] at hx
                rcases hx with hx | hx
                · exact hAt x hx
                · exact Ancestor.step (hAt k hkT) hx
              · rw [scan_insert_fst_mem]; exact Or.inl hTheirs
              · intro x hx
                rw [scan_insert_fst_mem] at hx
                have hsolve : x ∈ tV →
                    x ∈ (scan_insert (parents k) tV rest2).2 ∨
                    ∀ p ∈ parents x, p ∈ (scan_insert (parents k) tV rest2).1 := by
                  intro hxv
                  rcases hCt x hxv with hq | hcl
                  · rcases List.mem_cons.mp hq with rfl | hq2
                    · right
                      intro p hp
                      rw [scan_insert_fst_mem]
                      exact Or.inr hp
                    · left
                      rw [scan_insert_snd_mem]
                      exact Or.inl hq2
                  · right
                    intro p hp
                    rw [scan_insert_fst_mem]
                    exact Or.inl (hcl p hp)
                rcases hx with hx | hx
                · exact hsolve hx
                · by_cases hxv : x ∈ tV
                  · exact hsolve hxv
                  · left
                    rw [scan_insert_snd_mem]
                    exact Or.inr ⟨hx, hxv⟩
              · intro x hxO hxT
                rw [scan_insert_fst_mem] at hxT
                have hsolve : x ∈ tV →
                    x ∈ (scan_insert (parents h) oV rest).2 ∨
                    x ∈ (scan_insert (parents k) tV rest2).2 := by
                  intro hxv
                  rcases hD' x hxO hxv with hq | hq
                  · exact Or.inl hq
                  · rcases List.mem_cons.mp hq with rfl | hq2
                    · exact absurd hxO hk
                    · right
                      rw [scan_insert_snd_mem]
                      exact Or.inl hq2
                rcases hxT with hx | hx
                · exact hsolve hx
                · by_cases hxv : x ∈ tV
                  · exact hsolve hxv
                  · right
                    rw [scan_insert_snd_mem]
                    exact Or.inr ⟨hx, hxv⟩

/-- Claim C7: whenever find_merge_base reports Some(b), b is a common
ancestor of both inputs; whenever it reports None the two histories are
disjoint (no common ancestor exists). -/
theorem c7_find_merge_base_correct (parents : String → List String) (fuel : Nat)
    (ours theirs : String) :
    (∀ b, find_merge_base parents fuel ours theirs = some (some b) →
      Ancestor parents b ours ∧ Ancestor parents b theirs) ∧
    (find_merge_base parents fuel ours theirs = some none →
      ¬ ∃ c, Ancestor parents c ours ∧ Ancestor parents c theirs) := by
  unfold find_merge_base
  by_cases heq : ours = theirs
  · rw [if_pos heq]
    subst heq
    refine ⟨fun b hb => ?_, fun hb => absurd (Option.some.inj hb) (by simp)⟩
    have : ours = b := Option.some.inj (Option.some.inj hb)
    subst this
    exact ⟨Ancestor.refl ours, Ancestor.refl ours⟩
  · rw [if_neg heq]
    exact fmb_go_spec parents ours theirs fuel [ours] [ours] [theirs] [theirs]
      (by simp) (by simp)
      (by intro x hx; simp at hx; rw [hx]; exact Ancestor.refl ours)
      (by intro x hx; simp at hx; rw [hx]; exact Ancestor.refl theirs)
      (by simp) (by simp)
      (by intro x hx; simp at hx; rw [hx]; left; simp)
      (by intro x hx; simp at hx; rw [hx]; left; simp)
      (by intro x hx hx2; simp at hx; rw [hx]; left; simp)

/-- A three-commit DAG b ← a → c (b and c both have parent a). -/
def c7_parents (h : String) : List String :=
  if h = "b" then ["a"] else if h = "c" then ["a"] else []

/-- Witness for c7_find_merge_base_correct: on the concrete DAG the base
of b and c is a, a common ancestor of both. -/
theorem c7_find_merge_base_correct_witness :
    Ancestor c7_parents "a" "b" ∧ Ancestor c7_parents "a" "c" :=
  (c7_find_merge_base_correct c7_parents 10 "b" "c").1 "a" (by decide)

/-! ## Claim C4 — depth_since_snapshot bookkeeping and snapshot cadence -/

/-- The depth invariant over a commit map: snapshot commits store depth
0; delta commits store their first parent's depth plus one, below the
snapshot interval. -/
def depth_inv_commits (commits : List (String × CommitData)) (interval : Nat) : Bool :=
  commits.all (fun p =>
    match p.2.storage_type with
    | .snapshot => p.2.depth_since_snapshot == 0
    | .delta =>
      match p.2.parents.head? with
      | none => false
      | some par =>
        match alookup commits par with
        | none => false
        | some pc =>
          (p.2.depth_since_snapshot == pc.depth_since_snapshot + 1) &&
          decide (p.2.depth_since_snapshot < interval))

def DepthInvB (r : RepoState) : Bool :=
  depth_inv_commits r.commits r.config.snapshot_interval

/-- Following first-parent links, is a snapshot commit found within the
given number of commit inspections? (fuel n+1 allows n parent steps.) -/
def reach_snapshot_within (r : RepoState) : Nat → String → Bool
  | 0, _ => false
  | fuel + 1, h =>
    match alookup r.commits h with
    | none => false
    | some c =>
      match c.storage_type with
      | .snapshot => true
      | .delta =>
        match c.parents.head? with
        | none => false
        | some p => reach_snapshot_within r fuel p

theorem depth_inv_commits_insert (commits : List (String × CommitData)) (interval : Nat)
    (k : String) (cd : CommitData)
    (hinv : depth_inv_commits commits interval = true)
    (hfresh : alookup commits k = none)
    (hcd : (cd.storage_type = .snapshot ∧ cd.depth_since_snapshot = 0) ∨
      (cd.storage_type = .delta ∧ ∃ par pc, cd.parents.head? = some par ∧
        alookup commits par = some pc ∧
        cd.depth_since_snapshot = pc.depth_since_snapshot + 1 ∧
        cd.depth_since_snapshot < interval)) :
    depth_inv_commits (ainsert commits k cd) interval = true := by
  rw [ainsert_fresh_append _ _ _ hfresh]
  unfold depth_inv_commits at hinv ⊢
  rw [List.all_eq_true] at hinv ⊢
  intro p hp
  rcases List.mem_append.mp hp with hp | hp
  · have hold := hinv p hp
    cases hst : p.2.storage_type with
    | snapshot => simpa [hst] using hold
    | delta =>
      simp only [hst] at hold ⊢
      cases hpar : p.2.parents.head? with
      | none => simp [hpar] at hold
      | some par =>
        simp only [hpar] at hold ⊢
        cases hlk : alookup commits par with
        | none => simp [hlk] at hold
        | some pc =>
          rw [alookup_append_of_some _ _ _ _ hlk]
          simpa [hlk] using hold
  · have hpk : p = (k, cd) := by simpa using hp
    subst hpk
    rcases hcd with ⟨hst, hd⟩ | ⟨hst, par, pc, hpar, hlk, hdep, hlt⟩
    · simp [hst, hd]
    · simp only [hst, hpar]
      rw [alookup_append_of_some _ _ _ _ hlk]
      simp only [Bool.and_eq_true, beq_iff_eq, decide_eq_true_eq]
      exact ⟨hdep, hlt⟩

theorem reach_snapshot_mono (r : RepoState) :
    ∀ fuel fuel' h, fuel ≤ fuel' → reach_snapshot_within r fuel h = true →
      reach_snapshot_within r fuel' h = true := by
  intro fuel
  induction fuel with
  | zero =>
    intro fuel' h _ hr
    exact absurd hr (by simp [reach_snapshot_within])
  | succ n ih =>
    intro fuel' h hle hr
    obtain ⟨m, rfl⟩ : ∃ m, fuel' = m + 1 := ⟨fuel' - 1, by omega⟩
    rw [reach_snapshot_within] at hr ⊢
    cases hlk : alookup r.commits h with
    | none => simp only [hlk] at hr; exact absurd hr (by simp)
    | some c =>
      simp only [hlk] at hr ⊢
      cases hst : c.storage_type with
      | snapshot => simp [hst]
      | delta =>
        simp only [hst] at hr ⊢
        cases hp : c.parents.head? with
        | none => simp only [hp] at hr; exact absurd hr (by simp)
        | some p =>
          simp only [hp] at hr ⊢
          exact ih m p (by omega) hr

theorem depth_inv_reach_depth (r : RepoState) (hinv : DepthInvB r = true) :
    ∀ d h c, alookup r.commits h = some c → c.depth_since_snapshot = d →
      reach_snapshot_within r (d + 1) h = true := by
  intro d
  induction d using Nat.strong_induction_on with
  | _ d ih =>
    intro h c hl hd
    have hmem := alookup_mem _ _ _ hl
    unfold DepthInvB depth_inv_commits at hinv
    rw [List.all_eq_true] at hinv
    have hc := hinv (h, c) hmem
    rw [reach_snapshot_within, hl]
    cases hst : c.storage_type with
    | snapshot => simp [hst]
    | delta =>
      simp only [hst] at hc ⊢
      cases hpar : c.parents.head? with
      | none => simp [hpar] at hc
      | some par =>
        simp only [hpar] at hc ⊢
        cases hlk : alookup r.commits par with
        | none => simp [hlk] at hc
        | some pc =>
          simp only [hlk, Bool.and_eq_true, beq_iff_eq, decide_eq_true_eq] at hc
          have hstep := ih pc.depth_since_snapshot (by omega) par pc hlk rfl
          have hdd : d = pc.depth_since_snapshot + 1 := by omega
          rw [hdd]
          exact hstep

/-- Claim C4: init establishes the depth invariant; create_commit,
restore_to_commit, merge_branch and resolve_conflicts preserve it (under
hash freshness, which SHA-256 content addressing provides);
create_commit writes a snapshot exactly when the computed depth reaches
the snapshot interval; and under the invariant every commit reaches a
snapshot within snapshot_interval first-parent steps. -/
theorem c4_depth_invariant :
    (∀ (hashCommit : CommitData → String) (g : Graph) (now : Nat),
      DepthInvB (Repository.init hashCommit g now).1 = true) ∧
    (∀ (hashCommit : CommitData → String) (r : RepoState) (input : CommitInput)
      (pending : List Change) (graph : Graph) (now : Nat) (r' : RepoState) (h : String),
      DepthInvB r = true →
      (∀ cd : CommitData, alookup r.commits (hashCommit cd) = none) →
      Repository.create_commit hashCommit r input pending graph now = (r', .ok h) →
      DepthInvB r' = true) ∧
    (∀ (hashCommit : CommitData → String) (r : RepoState) (input : CommitInput)
      (pending : List Change) (graph : Graph) (now : Nat) (r' : RepoState)
      (h head : String) (pd : CommitData),
      DepthInvB r = true → 0 < r.config.snapshot_interval →
      (∀ cd : CommitData, alookup r.commits (hashCommit cd) = none) →
      Repository.resolve_head r = some head →
      alookup r.commits head = some pd →
      Repository.create_commit hashCommit r input pending graph now = (r', .ok h) →
      ∃ cd, alookup r'.commits h = some cd ∧
        ((cd.storage_type = .snapshot ∧ cd.depth_since_snapshot = 0) ↔
          pd.depth_since_snapshot + 1 = r.config.snapshot_interval)) ∧
    (∀ (hashCommit : CommitData → String) (r : RepoState) (fuel : Nat)
      (hash : String) (now : Nat),
      DepthInvB r = true →
      (∀ cd : CommitData, alookup r.commits (hashCommit cd) = none) →
      DepthInvB (Repository.restore_to_commit hashCommit r fuel hash now).1 = true) ∧
    (∀ (hashCommit : CommitData → String) (r : RepoState) (fuel : Nat)
      (src : String) (graph : Graph) (now : Nat),
      DepthInvB r = true →
      (∀ cd : CommitData, alookup r.commits (hashCommit cd) = none) →
      DepthInvB (Repository.merge_branch hashCommit r fuel src graph now).1 = true) ∧
    (∀ (hashCommit : CommitData → String) (r : RepoState)
      (resolutions : List ConflictResolution) (src : String) (graph : Graph) (now : Nat),
      DepthInvB r = true →
      (∀ cd : CommitData, alookup r.commits (hashCommit cd) = none) →
      DepthInvB (Repository.resolve_conflicts hashCommit r resolutions src
        graph now).1 = true) ∧
    (∀ (r : RepoState) (h : String) (c : CommitData),
      DepthInvB r = true → alookup r.commits h = some c →
      reach_snapshot_within r (r.config.snapshot_interval + 1) h = true) := by
  refine ⟨?_, ?_, ?_, ?_, ?_, ?_, ?_⟩
  · intro hashCommit g now
    unfold Repository.init DepthInvB depth_inv_commits
    simp
  · intro hashCommit r input pending graph now r' h hinv hfresh heq
    unfold Repository.create_commit at heq
    split at heq
    · exact absurd heq (by simp)
    · split at heq
      · exact absurd heq (by simp)
      · rename_i head_hash hres
        split at heq
        · exact absurd heq (by simp)
        · rename_i parent_data hlk
          dsimp only at heq
          injection heq with heq1 heq2
          subst heq1
          unfold DepthInvB
          split
          all_goals (
            split
            all_goals (
              dsimp only
              refine depth_inv_commits_insert _ _ _ _ hinv (hfresh _) ?_))
          · exact Or.inl ⟨rfl, rfl⟩
          · exact Or.inr ⟨rfl, head_hash, parent_data, rfl, hlk, rfl, by dsimp only; omega⟩
          · exact Or.inl ⟨rfl, rfl⟩
          · exact Or.inr ⟨rfl, head_hash, parent_data, rfl, hlk, rfl, by dsimp only; omega⟩
  · intro hashCommit r input pending graph now r' h head pd hinv hpos hfresh hres hpd heq
    unfold Repository.create_commit at heq
    split at heq
    · exact absurd heq (by simp)
    · split at heq
      · exact absurd heq (by simp)
      · rename_i head_hash hres2
        split at heq
        · exact absurd heq (by simp)
        · rename_i parent_data hlk
          have hhead : head_hash = head := by
            rw [hres] at hres2
            exact (Option.some.inj hres2).symm
          subst hhead
          have hpd2 : parent_data = pd := by
            rw [hpd] at hlk
            exact (Option.some.inj hlk).symm
          subst hpd2
          -- bound the parent depth by the invariant
          have hbound : parent_data.depth_since_snapshot + 1 ≤ r.config.snapshot_interval := by
            have hmem := alookup_mem _ _ _ hpd
            unfold DepthInvB depth_inv_commits at hinv
            rw [List.all_eq_true] at hinv
            have hc := hinv (head_hash, parent_data) hmem
            cases hst : parent_data.storage_type with
            | snapshot =>
              simp only [hst, beq_iff_eq] at hc
              omega
            | delta =>
              simp only [hst] at hc
              cases hpar : parent_data.parents.head? with
              | none => simp [hpar] at hc
              | some par =>
                simp only [hpar] at hc
                cases hlk2 : alookup r.commits par with
                | none => simp [hlk2] at hc
                | some pc =>
                  simp only [hlk2, Bool.and_eq_true, beq_iff_eq,
                    decide_eq_true_eq] at hc
                  omega
          dsimp only at heq
          injection heq with heq1 heq2
          subst heq1
          by_cases hcase : r.config.snapshot_interval ≤ parent_data.depth_since_snapshot + 1
          · simp only [if_pos hcase] at heq2 ⊢
            have hh := Except.ok.inj heq2
            split
            all_goals (
              dsimp only
              rw [hh]
              refine ⟨_, alookup_ainsert_self _ _ _, ?_⟩
              constructor
              · intro _; omega
              · intro _; exact ⟨rfl, rfl⟩)
          · simp only [if_neg hcase] at heq2 ⊢
            have hh := Except.ok.inj heq2
            split
            all_goals (
              dsimp only
              rw [hh]
              refine ⟨_, alookup_ainsert_self _ _ _, ?_⟩
              constructor
              · rintro ⟨hsn, _⟩; exact absurd hsn (by simp)
              · intro hd; omega)
  · intro hashCommit r fuel hash now hinv hfresh
    unfold Repository.restore_to_commit
    split
    · exact hinv
    · split
      · exact hinv
      · dsimp only
        split
        all_goals
          refine depth_inv_commits_insert _ _ _ _ hinv (hfresh _) (Or.inl ⟨?_, ?_⟩) <;> rfl
  · intro hashCommit r fuel src graph now hinv hfresh
    unfold Repository.merge_branch
    repeat' split
    all_goals first
      | exact hinv
      | (dsimp only
         refine depth_inv_commits_insert _ _ _ _ hinv (hfresh _) (Or.inl ⟨?_, ?_⟩) <;> rfl)
      | (dsimp only
         split
         all_goals exact hinv)
  · intro hashCommit r resolutions src graph now hinv hfresh
    unfold Repository.resolve_conflicts
    repeat' split
    all_goals first
      | exact hinv
      | (dsimp only
         refine depth_inv_commits_insert _ _ _ _ hinv (hfresh _) (Or.inl ⟨?_, ?_⟩) <;> rfl)
      | (dsimp only
         split
         all_goals exact hinv)
  · intro r h c hinv hl
    have hbase := depth_inv_reach_depth r hinv c.depth_since_snapshot h c hl rfl
    refine reach_snapshot_mono r _ _ _ ?_ hbase
    have hmem := alookup_mem _ _ _ hl
    unfold DepthInvB depth_inv_commits at hinv
    rw [List.all_eq_true] at hinv
    have hc := hinv (h, c) hmem
    cases hst : c.storage_type with
    | snapshot =>
      simp only [hst, beq_iff_eq] at hc
      omega
    | delta =>
      simp only [hst] at hc
      cases hpar : c.parents.head? with
      | none => simp [hpar] at hc
      | some par =>
        simp only [hpar] at hc
        cases hlk2 : alookup r.commits par with
        | none => simp [hlk2] at hc
        | some pc =>
          simp only [hlk2, Bool.and_eq_true, beq_iff_eq, decide_eq_true_eq] at hc
          omega

def c4_repo : RepoState :=
  (Repository.init (fun _ => "h0") (create_default_graph 0) 0).1

/-- Witness for c4_depth_invariant: the reach-snapshot conjunct applied
at the concrete freshly-initialised repository. -/
theorem c4_depth_invariant_witness :
    DepthInvB c4_repo = true ∧
    reach_snapshot_within c4_repo (c4_repo.config.snapshot_interval + 1) "h0" = true := by
  have h1 : DepthInvB c4_repo = true := by decide
  refine ⟨h1, ?_⟩
  exact c4_depth_invariant.2.2.2.2.2.2 c4_repo "h0"
    { parents := [], message := "Initial snapshot", timestamp := 0
      source := .Migration, storage_type := .snapshot, depth_since_snapshot := 0 }
    h1 (by decide)

/-! ## Claim C5 — delete_node removes exactly the descendant closure -/

theorem aerase_cons {α : Type} (k' : String) (v' : α) (t : List (String × α)) (k : String) :
    aerase ((k', v') :: t) k =
      if k' = k then aerase t k else (k', v') :: aerase t k := by
  unfold aerase
  rw [List.filter_cons]
  by_cases h : k' = k
  · simp [h]
  · simp [h]

theorem alookup_aerase {α : Type} (l : List (String × α)) (k x : String) :
    alookup (aerase l k) x = if x = k then none else alookup l x := by
  induction l with
  | nil => by_cases h : x = k <;> simp [aerase, alookup, h]
  | cons p t ih =>
    obtain ⟨k', v'⟩ := p
    rw [aerase_cons]
    by_cases hk : k' = k
    · rw [if_pos hk, ih]
      by_cases hx : x = k
      · simp [hx]
      · rw [if_neg hx, if_neg hx]
        have hk'x : ¬ k' = x := by
          intro hc; exact hx (hc.symm.trans hk)
        simp [alookup, hk'x]
    · rw [if_neg hk]
      by_cases hx' : k' = x
      · have hxk : ¬ x = k := by
          intro hc; exact hk (hx'.trans hc)
        simp [alookup, hx', hxk]
      · simp [alookup, hx', ih]

theorem alookup_erase_fold {α : Type} (ids : List String) (l : List (String × α)) (x : String) :
    alookup (ids.foldl (fun acc id => aerase acc id) l) x =
      if x ∈ ids then none else alookup l x := by
  induction ids generalizing l with
  | nil => simp
  | cons id ids ih =>
    rw [List.foldl_cons, ih]
    by_cases hx : x ∈ ids
    · simp [hx]
    · rw [if_neg hx, alookup_aerase]
      by_cases hxi : x = id
      · simp [hxi]
      · simp [hxi, hx]

theorem alookup_amodify {α : Type} (l : List (String × α)) (k x : String) (f : α → α) :
    alookup (amodify l k f) x =
      if x = k then (alookup l k).map f else alookup l x := by
  induction l with
  | nil => by_cases h : x = k <;> simp [amodify, alookup, h]
  | cons p t ih =>
    obtain ⟨k', v'⟩ := p
    unfold amodify
    by_cases hk : k' = k
    · rw [if_pos hk]
      subst hk
      by_cases hx : x = k'
      · subst hx
        simp [alookup]
      · have hk'x : ¬ k' = x := fun hc => hx hc.symm
        simp [alookup, hk'x, hx]
    · rw [if_neg hk]
      by_cases hx' : k' = x
      · have hxk : ¬ x = k := fun hc => hk (hx'.trans hc)
        simp [alookup, hx', hxk]
      · by_cases hx : x = k
        · subst hx
          simp [alookup, hx', ih, hk]
        · simp [alookup, hx', hx, ih]

/-- Proper descendants through the children lists, the relation
GraphStore.collect_descendant_ids explores depth-first. -/
inductive Desc (g : Graph) : String → String → Prop
  | child {a c : String} {n : Node} :
      alookup g.nodes a = some n → c ∈ n.children → Desc g a c
  | step {a c d : String} {n : Node} :
      alookup g.nodes a = some n → c ∈ n.children → Desc g c d → Desc g a d

theorem collect_sound (g : Graph) :
    ∀ (fuel : Nat) (a d : String),
      d ∈ GraphStore.collect_descendant_ids g fuel a → Desc g a d := by
  intro fuel
  induction fuel with
  | zero => intro a d h; simp [GraphStore.collect_descendant_ids] at h
  | succ f ih =>
    intro a d h
    unfold GraphStore.collect_descendant_ids at h
    cases hlk : alookup g.nodes a with
    | none => simp only [hlk] at h; simp at h
    | some n =>
      simp only [hlk] at h
      rw [List.mem_flatten] at h
      obtain ⟨l, hl, hd⟩ := h
      rw [List.mem_map] at hl
      obtain ⟨c, hc, rfl⟩ := hl
      rw [List.mem_cons] at hd
      rcases hd with rfl | hd
      · exact Desc.child hlk hc
      · exact Desc.step hlk hc (ih c d hd)

theorem collect_complete (g : Graph) (rank : String → Nat)
    (hrank : ∀ p ∈ g.nodes, ∀ pid, (p : String × Node).2.parent_id = some pid →
      rank pid < rank p.1)
    (hbound : ∀ p ∈ g.nodes, rank (p : String × Node).1 < g.nodes.length)
    (hcwf : ChildrenWf g) :
    ∀ (a d : String), Desc g a d →
      ∀ fuel, g.nodes.length - rank a ≤ fuel →
        d ∈ GraphStore.collect_descendant_ids g fuel a := by
  intro a d h
  induction h with
  | child hlk hc =>
    rename_i a c n
    intro fuel hfuel
    have hmem := alookup_mem _ _ _ hlk
    have hba : rank a < g.nodes.length := hbound _ hmem
    cases fuel with
    | zero => omega
    | succ f =>
      unfold GraphStore.collect_descendant_ids
      simp only [hlk]
      rw [List.mem_flatten]
      exact ⟨c :: GraphStore.collect_descendant_ids g f c,
        List.mem_map_of_mem _ hc, List.mem_cons_self _ _⟩
  | step hlk hc hdesc ih =>
    rename_i a c d n
    intro fuel hfuel
    have hmem := alookup_mem _ _ _ hlk
    have hba : rank a < g.nodes.length := hbound _ hmem
    have hcw : (alookup g.nodes c).map Node.parent_id = some (some a) :=
      (hcwf _ hmem c hc).2
    cases hlkc : alookup g.nodes c with
    | none => rw [hlkc] at hcw; simp at hcw
    | some cn =>
      rw [hlkc] at hcw
      have hpar : cn.parent_id = some a := by
        simpa using hcw
      have hmemc := alookup_mem _ _ _ hlkc
      have hrc : rank a < rank c := hrank _ hmemc a hpar
      have hbc : rank c < g.nodes.length := hbound _ hmemc
      cases fuel with
      | zero => omega
      | succ f =>
        have hf : g.nodes.length - rank c ≤ f := by omega
        unfold GraphStore.collect_descendant_ids
        simp only [hlk]
        rw [List.mem_flatten]
        exact ⟨c :: GraphStore.collect_descendant_ids g f c,
          List.mem_map_of_mem _ hc, List.mem_cons_of_mem _ (ih f hf)⟩

theorem desc_rank (g : Graph) (rank : String → Nat)
    (hrank : ∀ p ∈ g.nodes, ∀ pid, (p : String × Node).2.parent_id = some pid →
      rank pid < rank p.1)
    (hcwf : ChildrenWf g) :
    ∀ a d, Desc g a d → rank a < rank d := by
  have hchild : ∀ (a c : String) (n : Node), alookup g.nodes a = some n →
      c ∈ n.children → rank a < rank c := by
    intro a c n hlk hc
    have hmem := alookup_mem _ _ _ hlk
    have hcw : (alookup g.nodes c).map Node.parent_id = some (some a) :=
      (hcwf _ hmem c hc).2
    cases hlkc : alookup g.nodes c with
    | none => rw [hlkc] at hcw; simp at hcw
    | some cn =>
      rw [hlkc] at hcw
      have hpar : cn.parent_id = some a := by simpa using hcw
      exact hrank _ (alookup_mem _ _ _ hlkc) a hpar
  intro a d h
  induction h with
  | child hlk hc =>
    rename_i a c n
    exact hchild a c n hlk hc
  | step hlk hc hdesc ih =>
    rename_i a c d n
    exact Nat.lt_trans (hchild a c n hlk hc) ih

def c5_store : StoreState :=
  { graph :=
      { root_id := "root"
        nodes := [
          ("root",
            { id := "root", node_type := .root, content := "User", parent_id := none
              children := ["a"], metadata := [], previous_values := [], temporal := none
              created_at := 0, updated_at := 0 }),
          ("a",
            { id := "a", node_type := .category, content := "A", parent_id := some "root"
              children := ["b"], metadata := [], previous_values := [], temporal := none
              created_at := 0, updated_at := 0 }),
          ("b",
            { id := "b", node_type := .detail, content := "B", parent_id := some "a"
              children := [], metadata := [], previous_values := [], temporal := none
              created_at := 0, updated_at := 0 })]
        links := [] }
    file :=
      { root_id := "root"
        nodes := []
        links := [] }
    pending := []
    hasRepo := false }

def c5_node_a : Node :=
  { id := "a", node_type := .category, content := "A", parent_id := some "root"
    children := ["b"], metadata := [], previous_values := [], temporal := none
    created_at := 0, updated_at := 0 }

/-- C5: on a well-formed acyclic graph, a successful delete_node(n) for a
present non-root n (run with fuel = |nodes|, enough for the full DFS)
returns ok and removes from the node map exactly n and its descendants
through the children lists, leaves every other node untouched except the
parent of n, whose children list merely drops n, and removes from the
link map exactly the links with an endpoint in the deleted set. -/
theorem c5_delete_node_exact (s : StoreState) (node_id : String) (nd : Node)
    (hwf : GraphWf s.graph) (hacyc : ParentAcyclicBounded s.graph)
    (hroot : ¬ node_id = s.graph.root_id)
    (hnd : alookup s.graph.nodes node_id = some nd) :
    (GraphStore.delete_node s true s.graph.nodes.length node_id).2 = .ok () ∧
    (∀ x, alookup
        (GraphStore.delete_node s true s.graph.nodes.length node_id).1.graph.nodes x = none ↔
      (alookup s.graph.nodes x = none ∨ x = node_id ∨ Desc s.graph node_id x)) ∧
    (∀ x, ¬ (x = node_id ∨ Desc s.graph node_id x) → ¬ nd.parent_id = some x →
      alookup
        (GraphStore.delete_node s true s.graph.nodes.length node_id).1.graph.nodes x =
        alookup s.graph.nodes x) ∧
    (∀ pid, nd.parent_id = some pid →
      alookup
        (GraphStore.delete_node s true s.graph.nodes.length node_id).1.graph.nodes pid =
        (alookup s.graph.nodes pid).map
          (fun p => { p with children := p.children.filter (fun c => c ≠ node_id) })) ∧
    (∀ q : String × Link,
      q ∈ (GraphStore.delete_node s true s.graph.nodes.length node_id).1.graph.links ↔
      (q ∈ s.graph.links ∧
        ¬ (q.2.from_node = node_id ∨ Desc s.graph node_id q.2.from_node) ∧
        ¬ (q.2.to_node = node_id ∨ Desc s.graph node_id q.2.to_node))) := by
  obtain ⟨hnodup, hnodupl, hkeys, hcwf⟩ := hwf
  obtain ⟨rank, hrank, hbound⟩ := hacyc
  have hto : ∀ x,
      x ∈ GraphStore.collect_descendant_ids s.graph s.graph.nodes.length node_id
          ++ [node_id] ↔
      (x = node_id ∨ Desc s.graph node_id x) := by
    intro x
    rw [List.mem_append, List.mem_singleton]
    constructor
    · rintro (h | h)
      · exact Or.inr (collect_sound s.graph _ _ _ h)
      · exact Or.inl h
    · rintro (h | h)
      · exact Or.inr h
      · exact Or.inl
          (collect_complete s.graph rank hrank hbound hcwf _ _ h _ (Nat.sub_le _ _))
  have hndmem := alookup_mem _ _ _ hnd
  have hpna : ∀ pid, nd.parent_id = some pid →
      pid ∉ GraphStore.collect_descendant_ids s.graph s.graph.nodes.length node_id
          ++ [node_id] := by
    intro pid hp hmem
    rw [hto] at hmem
    have hri : rank pid < rank node_id := hrank _ hndmem pid hp
    rcases hmem with h | h
    · subst h; omega
    · have hdr := desc_rank s.graph rank hrank hcwf node_id pid h
      omega
  unfold GraphStore.delete_node
  rw [if_neg hroot]
  simp only [hnd, Option.some_bind, if_true]
  cases hpar : nd.parent_id with
  | none =>
    refine ⟨trivial, ?_, ?_, ?_, ?_⟩
    · intro x
      simp only [record_change_graph]
      rw [alookup_erase_fold]
      by_cases hxd : x ∈ GraphStore.collect_descendant_ids s.graph
          s.graph.nodes.length node_id ++ [node_id]
      · rw [if_pos hxd]
        exact iff_of_true rfl (Or.inr ((hto x).mp hxd))
      · rw [if_neg hxd]
        have hxd' : ¬ (x = node_id ∨ Desc s.graph node_id x) :=
          fun h => hxd ((hto x).mpr h)
        constructor
        · exact Or.inl
        · rintro (h | h)
          · exact h
          · exact absurd h hxd'
    · intro x hx1 _
      simp only [record_change_graph]
      rw [alookup_erase_fold]
      rw [if_neg (fun h => hx1 ((hto x).mp h))]
    · intro pid hp
      exact absurd hp (by simp)
    · intro q
      simp only [record_change_graph]
      rw [List.mem_filter]
      simp only [decide_eq_true_eq]
      constructor
      · rintro ⟨hq, h1, h2⟩
        exact ⟨hq, fun h => h1 ((hto _).mpr h), fun h => h2 ((hto _).mpr h)⟩
      · rintro ⟨hq, h1, h2⟩
        exact ⟨hq, fun h => h1 ((hto _).mp h), fun h => h2 ((hto _).mp h)⟩
  | some pid =>
    refine ⟨trivial, ?_, ?_, ?_, ?_⟩
    · intro x
      simp only [record_change_graph]
      rw [alookup_erase_fold, alookup_amodify]
      by_cases hxd : x ∈ GraphStore.collect_descendant_ids s.graph
          s.graph.nodes.length node_id ++ [node_id]
      · rw [if_pos hxd]
        exact iff_of_true rfl (Or.inr ((hto x).mp hxd))
      · rw [if_neg hxd]
        have hxd' : ¬ (x = node_id ∨ Desc s.graph node_id x) :=
          fun h => hxd ((hto x).mpr h)
        by_cases hxp : x = pid
        · rw [if_pos hxp]
          subst hxp
          cases hlkx : alookup s.graph.nodes x with
          | none => exact iff_of_true rfl (Or.inl rfl)
          | some xn =>
            refine iff_of_false (by simp) ?_
            rintro (h | h)
            · exact absurd h (by simp)
            · exact absurd h hxd'
        · rw [if_neg hxp]
          constructor
          · exact Or.inl
          · rintro (h | h)
            · exact h
            · exact absurd h hxd'
    · intro x hx1 hx2
      simp only [record_change_graph]
      rw [alookup_erase_fold, alookup_amodify]
      rw [if_neg (fun h => hx1 ((hto x).mp h))]
      rw [if_neg (fun h => hx2 (by rw [h]))]
    · intro pid' hp
      have hpp : pid' = pid := (Option.some.inj hp).symm
      subst hpp
      simp only [record_change_graph]
      rw [alookup_erase_fold, alookup_amodify]
      rw [if_neg (hpna pid' hpar), if_pos rfl]
    · intro q
      simp only [record_change_graph]
      rw [List.mem_filter]
      simp only [decide_eq_true_eq]
      constructor
      · rintro ⟨hq, h1, h2⟩
        exact ⟨hq, fun h => h1 ((hto _).mpr h), fun h => h2 ((hto _).mpr h)⟩
      · rintro ⟨hq, h1, h2⟩
        exact ⟨hq, fun h => h1 ((hto _).mp h), fun h => h2 ((hto _).mp h)⟩

/-- Witness for c5_delete_node_exact: deleting the middle node of a
three-node chain succeeds and removes its child as well. -/
theorem c5_delete_node_exact_witness :
    (GraphStore.delete_node c5_store true c5_store.graph.nodes.length "a").2 = .ok () ∧
    alookup
      (GraphStore.delete_node c5_store true c5_store.graph.nodes.length "a").1.graph.nodes
      "b" = none := by
  have hac : ParentAcyclicBounded c5_store.graph := by
    refine ⟨fun id => if id = "root" then 0 else if id = "a" then 1 else 2, ?_, ?_⟩
    · intro p hp pid hpid
      fin_cases hp
      · simp at hpid
      · simp at hpid
        subst hpid
        decide
      · simp at hpid
        subst hpid
        decide
    · decide
  have h := c5_delete_node_exact c5_store "a" c5_node_a
    (by unfold GraphWf NodupKeys KeysMatch ChildrenWf; decide) hac
    (by decide) (by decide)
  refine ⟨h.1, ?_⟩
  exact (h.2.1 "b").mpr (Or.inr (Or.inr
    (@Desc.child c5_store.graph "a" "b" c5_node_a (by decide) (by decide))))

/-! ## Claim C2 — the children/parent invariant across operations -/

def c2_node (id : String) (parent : Option String) (children : List String)
    (content : String) : Node :=
  { id := id, node_type := .detail, content := content, parent_id := parent
    children := children, metadata := [], previous_values := [], temporal := none
    created_at := 0, updated_at := 0 }

def c2_base : Graph :=
  { root_id := "root"
    nodes := [
      ("root", c2_node "root" none ["x"] "User"),
      ("x", c2_node "x" (some "root") [] "X")]
    links := [] }

def c2_ours : Graph :=
  { root_id := "root"
    nodes := [("root", c2_node "root" none [] "User")]
    links := [] }

def c2_theirs : Graph :=
  { root_id := "root"
    nodes := [
      ("root", c2_node "root" none ["t"] "User"),
      ("x", c2_node "x" (some "t") [] "X"),
      ("t", c2_node "t" (some "root") ["x"] "T")]
    links := [] }

def c2_merged : Graph :=
  { root_id := "root"
    nodes := [
      ("root", c2_node "root" none ["t"] "User"),
      ("t", c2_node "t" (some "root") ["x"] "T")]
    links := [] }

/-- C2 counterexample: three well-formed graphs (ours deleted x; theirs
moved x under a new node t) merge without conflicts into a graph whose
node t lists the child x that no longer exists — the children/parent
invariant does not survive three_way_merge. -/
theorem c2_counterexample :
    GraphWf c2_base ∧ GraphWf c2_ours ∧ GraphWf c2_theirs ∧
    three_way_merge c2_base c2_ours c2_theirs = .Success c2_merged ∧
    ¬ ChildrenWf c2_merged := by
  refine ⟨?_, ?_, ?_, by decide, ?_⟩
  · unfold GraphWf NodupKeys KeysMatch ChildrenWf
    decide
  · unfold GraphWf NodupKeys KeysMatch ChildrenWf
    decide
  · unfold GraphWf NodupKeys KeysMatch ChildrenWf
    decide
  · intro h
    have hx := h ("t", c2_node "t" (some "root") ["x"] "T") (by decide) "x" (by decide)
    exact absurd hx.2 (by decide)

theorem alookup_of_mem_nodup {α : Type} (k : String) (v : α) :
    ∀ (l : List (String × α)), NodupKeys l → (k, v) ∈ l → alookup l k = some v := by
  intro l
  induction l with
  | nil => intro _ hmem; cases hmem
  | cons p t ih =>
    obtain ⟨k', v'⟩ := p
    intro hnd hmem
    unfold NodupKeys akeys at hnd
    rw [List.map_cons, List.nodup_cons] at hnd
    rw [List.mem_cons] at hmem
    rcases hmem with heq | hmem
    · injection heq with h1 h2
      subst h1
      subst h2
      simp [alookup]
    · have hk : ¬ k' = k := by
        intro hc
        subst hc
        exact hnd.1 (List.mem_map.mpr ⟨(k', v), hmem, rfl⟩)
      show (if k' = k then some v' else alookup t k) = some v
      rw [if_neg hk]
      exact ih hnd.2 hmem

/-- The children/parent invariant phrased through lookups; on maps with
nodup keys it coincides with ChildrenWf. -/
def ChildrenWfL (nodes : List (String × Node)) : Prop :=
  ∀ k n, alookup nodes k = some n → ∀ c ∈ n.children,
    n.children.count c = 1 ∧ (alookup nodes c).map Node.parent_id = some (some k)

theorem childrenWf_iff_lookup (g : Graph) (hnd : NodupKeys g.nodes) :
    ChildrenWf g ↔ ChildrenWfL g.nodes := by
  constructor
  · intro h k n hlk c hc
    exact h (k, n) (alookup_mem _ _ _ hlk) c hc
  · intro h p hp c hc
    exact h p.1 p.2 (alookup_of_mem_nodup _ _ _ hnd hp) c hc

theorem akeys_amodify {α : Type} (k : String) (f : α → α) :
    ∀ l : List (String × α), akeys (amodify l k f) = akeys l := by
  intro l
  induction l with
  | nil => rfl
  | cons p t ih =>
    obtain ⟨k', v'⟩ := p
    unfold amodify
    by_cases h : k' = k
    · rw [if_pos h]
      rfl
    · rw [if_neg h]
      show k' :: akeys (amodify t k f) = k' :: akeys t
      rw [ih]

theorem alookup_none_not_mem {α : Type} (k : String) :
    ∀ l : List (String × α), alookup l k = none → k ∉ akeys l := by
  intro l
  induction l with
  | nil => intro _ h; cases h
  | cons p t ih =>
    obtain ⟨k', v'⟩ := p
    intro hlk hm
    unfold alookup at hlk
    unfold akeys at hm
    rw [List.map_cons, List.mem_cons] at hm
    by_cases h : k' = k
    · rw [if_pos h] at hlk; cases hlk
    · rw [if_neg h] at hlk
      rcases hm with heq | hm2
      · exact h heq.symm
      · exact ih hlk hm2

theorem nodupkeys_ainsert_fresh {α : Type} (l : List (String × α)) (k : String) (v : α)
    (hfresh : alookup l k = none) (hnd : NodupKeys l) : NodupKeys (ainsert l k v) := by
  rw [ainsert_fresh_append _ _ _ hfresh]
  unfold NodupKeys akeys at hnd ⊢
  rw [List.map_append, List.nodup_append]
  refine ⟨hnd, List.nodup_singleton _, ?_⟩
  intro x hx hx2
  simp only [List.map_cons, List.map_nil, List.mem_singleton] at hx2
  subst hx2
  exact alookup_none_not_mem _ _ hfresh hx

theorem nodupkeys_aerase {α : Type} (l : List (String × α)) (k : String)
    (hnd : NodupKeys l) : NodupKeys (aerase l k) := by
  unfold NodupKeys akeys at hnd ⊢
  exact List.Nodup.sublist ((List.filter_sublist l).map _) hnd

theorem nodupkeys_erase_fold {α : Type} (ids : List String) :
    ∀ l : List (String × α), NodupKeys l →
      NodupKeys (ids.foldl (fun acc id => aerase acc id) l) := by
  induction ids with
  | nil => intro l h; exact h
  | cons id ids ih => intro l h; exact ih _ (nodupkeys_aerase _ _ h)

theorem nodupkeys_amodify {α : Type} (l : List (String × α)) (k : String) (f : α → α)
    (hnd : NodupKeys l) : NodupKeys (amodify l k f) := by
  unfold NodupKeys
  rw [akeys_amodify]
  exact hnd

theorem desc_last_step (g : Graph) :
    ∀ a d, Desc g a d → ∃ m nm, (m = a ∨ Desc g a m) ∧
      alookup g.nodes m = some nm ∧ d ∈ nm.children := by
  intro a d h
  induction h with
  | child hlk hc =>
    rename_i a c n
    exact ⟨a, n, Or.inl rfl, hlk, hc⟩
  | step hlk hc hdesc ih =>
    rename_i a c d n
    obtain ⟨m, nm, hm, hlkm, hdm⟩ := ih
    rcases hm with rfl | hm
    · exact ⟨m, nm, Or.inr (Desc.child hlk hc), hlkm, hdm⟩
    · exact ⟨m, nm, Or.inr (Desc.step hlk hc hm), hlkm, hdm⟩

theorem childrenWf_of_nodes_eq (g g' : Graph) (h : g'.nodes = g.nodes)
    (hcw : ChildrenWf g) : ChildrenWf g' := by
  unfold ChildrenWf at hcw ⊢
  rw [h]
  exact hcw

theorem childrenWf_of_lookup (g : Graph) (hnd : NodupKeys g.nodes)
    (h : ChildrenWfL g.nodes) : ChildrenWf g :=
  (childrenWf_iff_lookup g hnd).mpr h

theorem childrenWf_create_core (nodes : List (String × Node)) (P new_id : String)
    (node : Node) (p0 : Node)
    (hnd : NodupKeys nodes) (hcwl : ChildrenWfL nodes)
    (hfresh : alookup nodes new_id = none)
    (hlkP : alookup nodes P = some p0)
    (hparent : node.parent_id = some P) (hchildren : node.children = []) :
    ChildrenWfL (ainsert (amodify nodes P
      (fun p => { p with children := p.children ++ [new_id] })) new_id node) ∧
    NodupKeys (ainsert (amodify nodes P
      (fun p => { p with children := p.children ++ [new_id] })) new_id node) := by
  have hnP : ¬ new_id = P := by
    intro h
    rw [h, hlkP] at hfresh
    cases hfresh
  have hfreshM : alookup (amodify nodes P
      (fun p => { p with children := p.children ++ [new_id] })) new_id = none := by
    rw [alookup_amodify, if_neg hnP]
    exact hfresh
  have hch : ∀ x, alookup (ainsert (amodify nodes P
      (fun p => { p with children := p.children ++ [new_id] })) new_id node) x =
      if x = new_id then some node
      else if x = P then some { p0 with children := p0.children ++ [new_id] }
      else alookup nodes x := by
    intro x
    by_cases h1 : x = new_id
    · subst h1
      rw [if_pos rfl]
      exact alookup_ainsert_self _ _ _
    · rw [if_neg h1, alookup_ainsert_ne _ _ _ _ h1, alookup_amodify]
      by_cases h2 : x = P
      · rw [if_pos h2, if_pos h2, hlkP]
        rfl
      · rw [if_neg h2, if_neg h2]
  refine ⟨?_, nodupkeys_ainsert_fresh _ _ _ hfreshM (nodupkeys_amodify _ _ _ hnd)⟩
  intro k n hlk c hc
  rw [hch] at hlk
  by_cases hk1 : k = new_id
  · rw [if_pos hk1] at hlk
    injection hlk with h
    subst h
    rw [hchildren] at hc
    cases hc
  · rw [if_neg hk1] at hlk
    by_cases hk2 : k = P
    · subst hk2
      rw [if_pos rfl] at hlk
      injection hlk with h
      subst h
      have hc' : c ∈ p0.children ++ [new_id] := hc
      rw [List.mem_append, List.mem_singleton] at hc'
      rcases hc' with hcp | hceq
      · have hold := hcwl k p0 hlkP c hcp
        have hcne : ¬ c = new_id := by
          intro h
          have h2 := hold.2
          rw [h, hfresh] at h2
          simp at h2
        constructor
        · show (p0.children ++ [new_id]).count c = 1
          rw [List.count_append]
          have hz : ([new_id] : List String).count c = 0 := by
            rw [List.count_eq_zero]
            simp [hcne]
          rw [hz, hold.1]
        · rw [hch, if_neg hcne]
          by_cases hcP : c = k
          · rw [if_pos hcP]
            have h2 := hold.2
            rw [hcP, hlkP] at h2
            simp only [Option.map_some'] at h2 ⊢
            exact h2
          · rw [if_neg hcP]
            exact hold.2
      · constructor
        · show (p0.children ++ [new_id]).count c = 1
          rw [hceq, List.count_append]
          have h0 : p0.children.count new_id = 0 := by
            rw [List.count_eq_zero]
            intro hm
            have h2 := (hcwl k p0 hlkP new_id hm).2
            rw [hfresh] at h2
            simp at h2
          rw [h0]
          simp
        · rw [hch, if_pos hceq]
          simp only [Option.map_some']
          rw [hparent]
    · rw [if_neg hk2] at hlk
      have hold := hcwl k n hlk c hc
      have hcne : ¬ c = new_id := by
        intro h
        have h2 := hold.2
        rw [h, hfresh] at h2
        simp at h2
      refine ⟨hold.1, ?_⟩
      rw [hch, if_neg hcne]
      by_cases hcP : c = P
      · rw [if_pos hcP]
        have h2 := hold.2
        rw [hcP, hlkP] at h2
        simp only [Option.map_some'] at h2 ⊢
        exact h2
      · rw [if_neg hcP]
        exact hold.2

theorem cw_create (s : StoreState) (saveOk : Bool)
    (new_id parent_id node_type content : String) (metadata : Option Metadata)
    (temporal : Option TemporalMetadata) (now : Nat)
    (hnd : NodupKeys s.graph.nodes) (hcw : ChildrenWf s.graph)
    (hfresh : alookup s.graph.nodes new_id = none) :
    ChildrenWf (GraphStore.create_node s saveOk new_id parent_id node_type content
      metadata temporal now).1.graph := by
  unfold GraphStore.create_node
  split
  · exact hcw
  · rename_i p0 hlkP
    split
    · exact hcw
    · rename_i nt hnt
      have hcore := childrenWf_create_core s.graph.nodes parent_id new_id
        { id := new_id, node_type := nt, content := content
          parent_id := some parent_id, children := []
          metadata := metadata.getD [], previous_values := [], temporal := temporal
          created_at := now, updated_at := now } p0
        hnd ((childrenWf_iff_lookup _ hnd).mp hcw) hfresh hlkP rfl rfl
      dsimp only
      split
      · dsimp only
        rw [record_change_graph]
        exact childrenWf_of_lookup _ hcore.2 hcore.1
      · exact childrenWf_of_lookup _ hcore.2 hcore.1

theorem childrenWf_modify_core (nodes : List (String × Node)) (node_id : String)
    (node0 upd : Node)
    (hnd : NodupKeys nodes) (hcwl : ChildrenWfL nodes)
    (hlk : alookup nodes node_id = some node0)
    (hch : upd.children = node0.children) (hpar : upd.parent_id = node0.parent_id) :
    ChildrenWfL (amodify nodes node_id (fun _ => upd)) ∧
    NodupKeys (amodify nodes node_id (fun _ => upd)) := by
  refine ⟨?_, nodupkeys_amodify _ _ _ hnd⟩
  intro k n hlkN c hc
  rw [alookup_amodify] at hlkN
  by_cases hk : k = node_id
  · rw [if_pos hk, hlk] at hlkN
    simp only [Option.map_some'] at hlkN
    injection hlkN with h
    subst h
    have hc0 : c ∈ node0.children := by rw [← hch]; exact hc
    have hold := hcwl node_id node0 hlk c hc0
    constructor
    · rw [hch]
      exact hold.1
    · rw [alookup_amodify]
      by_cases hc1 : c = node_id
      · rw [if_pos hc1, hlk]
        simp only [Option.map_some']
        rw [hpar, hk]
        have h2 := hold.2
        rw [hc1, hlk] at h2
        simp only [Option.map_some'] at h2
        exact h2
      · rw [if_neg hc1, hk]
        exact hold.2
  · rw [if_neg hk] at hlkN
    have hold := hcwl k n hlkN c hc
    refine ⟨hold.1, ?_⟩
    rw [alookup_amodify]
    by_cases hc1 : c = node_id
    · rw [if_pos hc1, hlk]
      simp only [Option.map_some']
      rw [hpar]
      have h2 := hold.2
      rw [hc1, hlk] at h2
      simp only [Option.map_some'] at h2
      exact h2
    · rw [if_neg hc1]
      exact hold.2

theorem cw_update (s : StoreState) (saveOk : Bool) (node_id : String)
    (content : Option String) (metadata : Option Metadata)
    (temporal : Option TemporalMetadata) (reason : Option String) (now : Nat)
    (hnd : NodupKeys s.graph.nodes) (hcw : ChildrenWf s.graph) :
    ChildrenWf (GraphStore.update_node s saveOk node_id content metadata temporal
      reason now).1.graph := by
  unfold GraphStore.update_node
  split
  · exact hcw
  · rename_i node0 hlk
    have hcore := fun (upd : Node) (hch : upd.children = node0.children)
        (hpar : upd.parent_id = node0.parent_id) =>
      childrenWf_modify_core s.graph.nodes node_id node0 upd hnd
        ((childrenWf_iff_lookup _ hnd).mp hcw) hlk hch hpar
    dsimp only
    repeat' split
    all_goals first
      | (simp only [record_change_graph]
         exact childrenWf_of_lookup _ (hcore _ (by rfl) (by rfl)).2
           (hcore _ (by rfl) (by rfl)).1)
      | exact childrenWf_of_lookup _ (hcore _ (by rfl) (by rfl)).2
          (hcore _ (by rfl) (by rfl)).1

theorem add_link_nodes_eq (s : StoreState) (saveOk : Bool)
    (new_id from_node to_node relation : String) (bidirectional : Bool)
    (confidence : Option String) (now : Nat) :
    (GraphStore.add_link s saveOk new_id from_node to_node relation bidirectional
      confidence now).1.graph.nodes = s.graph.nodes := by
  unfold GraphStore.add_link
  repeat' split
  all_goals try rfl
  all_goals try (simp only [record_change_graph]; done)
  all_goals first
    | rfl
    | (rw [apply_ite (fun p : StoreState × Except WillowError Link => p.1.graph.nodes)]
       simp [record_change_graph])

theorem update_link_nodes_eq (s : StoreState) (saveOk : Bool) (link_id : String)
    (relation : Option String) (bidirectional : Option Bool)
    (confidence : Option String) :
    (GraphStore.update_link s saveOk link_id relation bidirectional
      confidence).1.graph.nodes = s.graph.nodes := by
  unfold GraphStore.update_link
  repeat' split
  all_goals try rfl
  all_goals try (simp only [record_change_graph]; done)
  all_goals first
    | rfl
    | (rw [apply_ite (fun p : StoreState × Except WillowError Link => p.1.graph.nodes)]
       simp [record_change_graph])

theorem delete_link_nodes_eq (s : StoreState) (saveOk : Bool) (link_id : String) :
    (GraphStore.delete_link s saveOk link_id).1.graph.nodes = s.graph.nodes := by
  unfold GraphStore.delete_link
  repeat' split
  all_goals try rfl
  all_goals try (simp only [record_change_graph]; done)
  all_goals first
    | rfl
    | (rw [apply_ite (fun p : StoreState × Except WillowError Link => p.1.graph.nodes)]
       simp [record_change_graph])

theorem count_filter_pos {α : Type} [DecidableEq α] (l : List α) (p : α → Bool)
    (a : α) (h : p a = true) : (l.filter p).count a = l.count a := by
  induction l with
  | nil => rfl
  | cons x t ih =>
    rw [List.filter_cons]
    by_cases hx : p x = true
    · rw [if_pos hx, List.count_cons, List.count_cons, ih]
    · rw [if_neg hx, ih, List.count_cons]
      have hxa : ¬ a = x := by
        intro hc
        rw [hc] at h
        exact hx h
      have hax : ¬ x = a := by
        intro hc
        exact hxa hc.symm
      simp [hxa, hax]

theorem childrenWf_delete_core (g : Graph) (rank : String → Nat)
    (hrank : ∀ p ∈ g.nodes, ∀ pid, (p : String × Node).2.parent_id = some pid →
      rank pid < rank p.1)
    (hbound : ∀ p ∈ g.nodes, rank (p : String × Node).1 < g.nodes.length)
    (hnd : NodupKeys g.nodes) (hcw : ChildrenWf g)
    (node_id : String) (nd : Node) (hndlk : alookup g.nodes node_id = some nd) :
    ChildrenWfL ((GraphStore.collect_descendant_ids g g.nodes.length node_id
        ++ [node_id]).foldl (fun acc id => aerase acc id)
      (match nd.parent_id with
       | some pid => amodify g.nodes pid
           (fun p => { p with children := p.children.filter (fun c => c ≠ node_id) })
       | none => g.nodes)) ∧
    NodupKeys ((GraphStore.collect_descendant_ids g g.nodes.length node_id
        ++ [node_id]).foldl (fun acc id => aerase acc id)
      (match nd.parent_id with
       | some pid => amodify g.nodes pid
           (fun p => { p with children := p.children.filter (fun c => c ≠ node_id) })
       | none => g.nodes)) := by
  have hcwl : ChildrenWfL g.nodes := (childrenWf_iff_lookup _ hnd).mp hcw
  have hcwf : ChildrenWf g := hcw
  have hto : ∀ x,
      x ∈ GraphStore.collect_descendant_ids g g.nodes.length node_id ++ [node_id] ↔
      (x = node_id ∨ Desc g node_id x) := by
    intro x
    rw [List.mem_append, List.mem_singleton]
    constructor
    · rintro (h | h)
      · exact Or.inr (collect_sound g _ _ _ h)
      · exact Or.inl h
    · rintro (h | h)
      · exact Or.inr h
      · exact Or.inl
          (collect_complete g rank hrank hbound hcwf _ _ h _ (Nat.sub_le _ _))
  have hkey : ∀ c k, (alookup g.nodes c).map Node.parent_id = some (some k) →
      k ∉ GraphStore.collect_descendant_ids g g.nodes.length node_id ++ [node_id] →
      ¬ c = node_id →
      c ∉ GraphStore.collect_descendant_ids g g.nodes.length node_id ++ [node_id] := by
    intro c k hbp hk hcn hcd
    rw [hto] at hcd
    rcases hcd with hceq | hdesc
    · exact hcn hceq
    · obtain ⟨m, nm, hm, hlkm, hcm⟩ := desc_last_step g node_id c hdesc
      have h2 := (hcwl m nm hlkm c hcm).2
      rw [hbp] at h2
      injection h2 with h4
      injection h4 with h5
      subst h5
      rcases hm with hm1 | hm2
      · exact hk ((hto k).mpr (Or.inl hm1))
      · exact hk ((hto k).mpr (Or.inr hm2))
  cases hpar : nd.parent_id with
  | none =>
    refine ⟨?_, nodupkeys_erase_fold _ _ hnd⟩
    intro k n hlk c hc
    rw [alookup_erase_fold] at hlk
    by_cases hk : k ∈ GraphStore.collect_descendant_ids g g.nodes.length node_id
        ++ [node_id]
    · rw [if_pos hk] at hlk; cases hlk
    · rw [if_neg hk] at hlk
      have hold := hcwl k n hlk c hc
      refine ⟨hold.1, ?_⟩
      rw [alookup_erase_fold]
      have hcn : ¬ c = node_id := by
        intro hceq
        have h2 := hold.2
        rw [hceq, hndlk] at h2
        simp only [Option.map_some'] at h2
        injection h2 with h3
        rw [hpar] at h3
        cases h3
      rw [if_neg (hkey c k hold.2 hk hcn)]
      exact hold.2
  | some P =>
    refine ⟨?_, nodupkeys_erase_fold _ _ (nodupkeys_amodify _ _ _ hnd)⟩
    intro k n hlk c hc
    rw [alookup_erase_fold] at hlk
    by_cases hk : k ∈ GraphStore.collect_descendant_ids g g.nodes.length node_id
        ++ [node_id]
    · rw [if_pos hk] at hlk; cases hlk
    · rw [if_neg hk] at hlk
      rw [alookup_amodify] at hlk
      by_cases hkP : k = P
      · subst hkP
        rw [if_pos rfl] at hlk
        cases hlkP : alookup g.nodes k with
        | none => rw [hlkP] at hlk; cases hlk
        | some pv =>
          rw [hlkP] at hlk
          simp only [Option.map_some'] at hlk
          injection hlk with h
          subst h
          have hc' : c ∈ pv.children.filter (fun c => c ≠ node_id) := hc
          rw [List.mem_filter] at hc'
          have hcp := hc'.1
          have hcnid : ¬ c = node_id := by
            have h3 := hc'.2
            simp only [decide_eq_true_eq] at h3
            exact h3
          have hold := hcwl k pv hlkP c hcp
          constructor
          · show (pv.children.filter (fun c => c ≠ node_id)).count c = 1
            have hcf := count_filter_pos pv.children
              (fun x => decide (x ≠ node_id)) c (by simp [hcnid])
            rw [hcf]
            exact hold.1
          · rw [alookup_erase_fold]
            rw [if_neg (hkey c k hold.2 hk hcnid)]
            rw [alookup_amodify]
            by_cases hcP : c = k
            · rw [if_pos hcP, hlkP]
              simp only [Option.map_some']
              have h2 := hold.2
              rw [hcP, hlkP] at h2
              simp only [Option.map_some'] at h2
              exact h2
            · rw [if_neg hcP]
              exact hold.2
      · rw [if_neg hkP] at hlk
        have hold := hcwl k n hlk c hc
        refine ⟨hold.1, ?_⟩
        have hcn : ¬ c = node_id := by
          intro hceq
          have h2 := hold.2
          rw [hceq, hndlk] at h2
          simp only [Option.map_some'] at h2
          injection h2 with h3
          rw [hpar] at h3
          injection h3 with h4
          exact hkP h4.symm
        rw [alookup_erase_fold]
        rw [if_neg (hkey c k hold.2 hk hcn)]
        rw [alookup_amodify]
        by_cases hcP : c = P
        · rw [if_pos hcP]
          have h2 := hold.2
          rw [hcP] at h2
          cases hlkP : alookup g.nodes P with
          | none => rw [hlkP] at h2; cases h2
          | some pv =>
            rw [hlkP] at h2
            simp only [Option.map_some'] at h2 ⊢
            exact h2
        · rw [if_neg hcP]
          exact hold.2

theorem cw_delete (s : StoreState) (saveOk : Bool) (node_id : String)
    (hnd : NodupKeys s.graph.nodes) (hcw : ChildrenWf s.graph)
    (hacyc : ParentAcyclicBounded s.graph) :
    ChildrenWf (GraphStore.delete_node s saveOk s.graph.nodes.length
      node_id).1.graph := by
  obtain ⟨rank, hrank, hbound⟩ := hacyc
  unfold GraphStore.delete_node
  split
  · exact hcw
  · split
    · exact hcw
    · rename_i nd hndlk
      have hcore := childrenWf_delete_core s.graph rank hrank hbound hnd hcw
        node_id nd hndlk
      simp only [hndlk, Option.some_bind]
      split
      · simp only [record_change_graph]
        exact childrenWf_of_lookup _ hcore.2 hcore.1
      · exact childrenWf_of_lookup _ hcore.2 hcore.1

/-- C2 (amended): the six GraphStore mutations preserve the children/parent
invariant — every listed child occurs exactly once, exists, and points back
at its parent — on well-formed inputs (delete_node additionally needs the
acyclicity the spec guarantees, and runs with fuel |nodes|, enough for the
full cascade). The merge path does not preserve it: see the
three_way_merge counterexample. -/
theorem c2_children_invariant :
    (∀ (s : StoreState) (saveOk : Bool)
      (new_id parent_id node_type content : String)
      (metadata : Option Metadata) (temporal : Option TemporalMetadata) (now : Nat),
      NodupKeys s.graph.nodes → ChildrenWf s.graph →
      alookup s.graph.nodes new_id = none →
      ChildrenWf (GraphStore.create_node s saveOk new_id parent_id node_type
        content metadata temporal now).1.graph) ∧
    (∀ (s : StoreState) (saveOk : Bool) (node_id : String) (content : Option String)
      (metadata : Option Metadata) (temporal : Option TemporalMetadata)
      (reason : Option String) (now : Nat),
      NodupKeys s.graph.nodes → ChildrenWf s.graph →
      ChildrenWf (GraphStore.update_node s saveOk node_id content metadata
        temporal reason now).1.graph) ∧
    (∀ (s : StoreState) (saveOk : Bool) (node_id : String),
      NodupKeys s.graph.nodes → ChildrenWf s.graph → ParentAcyclicBounded s.graph →
      ChildrenWf (GraphStore.delete_node s saveOk s.graph.nodes.length
        node_id).1.graph) ∧
    (∀ (s : StoreState) (saveOk : Bool)
      (new_id from_node to_node relation : String) (bidirectional : Bool)
      (confidence : Option String) (now : Nat),
      ChildrenWf s.graph →
      ChildrenWf (GraphStore.add_link s saveOk new_id from_node to_node relation
        bidirectional confidence now).1.graph) ∧
    (∀ (s : StoreState) (saveOk : Bool) (link_id : String)
      (relation : Option String) (bidirectional : Option Bool)
      (confidence : Option String),
      ChildrenWf s.graph →
      ChildrenWf (GraphStore.update_link s saveOk link_id relation bidirectional
        confidence).1.graph) ∧
    (∀ (s : StoreState) (saveOk : Bool) (link_id : String),
      ChildrenWf s.graph →
      ChildrenWf (GraphStore.delete_link s saveOk link_id).1.graph) := by
  refine ⟨?_, ?_, ?_, ?_, ?_, ?_⟩
  · intro s saveOk new_id parent_id node_type content metadata temporal now
      hnd hcw hfresh
    exact cw_create s saveOk new_id parent_id node_type content metadata temporal
      now hnd hcw hfresh
  · intro s saveOk node_id content metadata temporal reason now hnd hcw
    exact cw_update s saveOk node_id content metadata temporal reason now hnd hcw
  · intro s saveOk node_id hnd hcw hacyc
    exact cw_delete s saveOk node_id hnd hcw hacyc
  · intro s saveOk new_id from_node to_node relation bidirectional confidence now hcw
    exact childrenWf_of_nodes_eq _ _ (add_link_nodes_eq s saveOk new_id from_node
      to_node relation bidirectional confidence now) hcw
  · intro s saveOk link_id relation bidirectional confidence hcw
    exact childrenWf_of_nodes_eq _ _ (update_link_nodes_eq s saveOk link_id
      relation bidirectional confidence) hcw
  · intro s saveOk link_id hcw
    exact childrenWf_of_nodes_eq _ _ (delete_link_nodes_eq s saveOk link_id) hcw

/-- Witness for c2_children_invariant: creating a node under the root of a
concrete three-node chain keeps the children/parent invariant. -/
theorem c2_children_invariant_witness :
    ChildrenWf (GraphStore.create_node c5_store true "z" "root" "detail" "Z"
      none none 0).1.graph :=
  c2_children_invariant.1 c5_store true "z" "root" "detail" "Z" none none 0
    (by unfold NodupKeys akeys; decide)
    (by unfold ChildrenWf; decide)
    (by decide)

/-! ## Claim C1 — commit followed by reconstruct_at -/

/-- Projection dropping exactly the node fields delta replay does not
restore: previous_values, temporal and updated_at. -/
def projNode (n : Node) : Node :=
  { n with previous_values := [], temporal := none, updated_at := 0 }

def projNodes (l : List (String × Node)) : List (String × Node) :=
  l.map (fun p => (p.1, projNode p.2))

theorem alookup_projNodes (l : List (String × Node)) (k : String) :
    alookup (projNodes l) k = (alookup l k).map projNode := by
  induction l with
  | nil => rfl
  | cons p t ih =>
    obtain ⟨k', v⟩ := p
    show (if k' = k then some (projNode v) else alookup (projNodes t) k) = _
    by_cases h : k' = k
    · rw [if_pos h]
      show _ = (if k' = k then some v else alookup t k).map projNode
      rw [if_pos h]
      rfl
    · rw [if_neg h, ih]
      show _ = (if k' = k then some v else alookup t k).map projNode
      rw [if_neg h]

theorem projNodes_cons (p : String × Node) (t : List (String × Node)) :
    projNodes (p :: t) = (p.1, projNode p.2) :: projNodes t := rfl

theorem projNodes_ainsert_rel (k : String) (v1 v2 : Node)
    (hv : projNode v1 = projNode v2) :
    ∀ (l1 l2 : List (String × Node)), projNodes l1 = projNodes l2 →
      projNodes (ainsert l1 k v1) = projNodes (ainsert l2 k v2) := by
  intro l1
  induction l1 with
  | nil =>
    intro l2 h
    cases l2 with
    | nil =>
      show [(k, projNode v1)] = [(k, projNode v2)]
      rw [hv]
    | cons q t2 => cases h
  | cons p t1 ih =>
    intro l2 h
    cases l2 with
    | nil => cases h
    | cons q t2 =>
      obtain ⟨k1, x1⟩ := p
      obtain ⟨k2, x2⟩ := q
      rw [projNodes_cons, projNodes_cons] at h
      dsimp only at h
      injection h with h1 h2
      injection h1 with hk hval
      unfold ainsert
      by_cases hkk : k1 = k
      · rw [if_pos hkk, if_pos (by rw [← hk]; exact hkk)]
        rw [projNodes_cons, projNodes_cons, h2, hv]
      · rw [if_neg hkk, if_neg (by rw [← hk]; exact hkk)]
        rw [projNodes_cons, projNodes_cons, ih t2 h2]
        show (k1, projNode x1) :: _ = (k2, projNode x2) :: _
        rw [hk, hval]

theorem projNodes_amodify_rel (k : String) (f h : Node → Node)
    (hfh : ∀ q v, projNode q = projNode v → projNode (f q) = projNode (h v)) :
    ∀ (l1 l2 : List (String × Node)), projNodes l1 = projNodes l2 →
      projNodes (amodify l1 k f) = projNodes (amodify l2 k h) := by
  intro l1
  induction l1 with
  | nil =>
    intro l2 heq
    cases l2 with
    | nil => rfl
    | cons q t2 => cases heq
  | cons p t1 ih =>
    intro l2 heq
    cases l2 with
    | nil => cases heq
    | cons q t2 =>
      obtain ⟨k1, x1⟩ := p
      obtain ⟨k2, x2⟩ := q
      rw [projNodes_cons, projNodes_cons] at heq
      dsimp only at heq
      injection heq with h1 h2
      injection h1 with hk hval
      unfold amodify
      by_cases hkk : k1 = k
      · rw [if_pos hkk, if_pos (by rw [← hk]; exact hkk)]
        rw [projNodes_cons, projNodes_cons, h2]
        show (k1, projNode (f x1)) :: _ = (k2, projNode (h x2)) :: _
        rw [hk, hfh x1 x2 hval]
      · rw [if_neg hkk, if_neg (by rw [← hk]; exact hkk)]
        rw [projNodes_cons, projNodes_cons, ih t2 h2]
        show (k1, projNode x1) :: _ = (k2, projNode x2) :: _
        rw [hk, hval]

theorem projNodes_aerase (l : List (String × Node)) (k : String) :
    projNodes (aerase l k) = aerase (projNodes l) k := by
  induction l with
  | nil => rfl
  | cons p t ih =>
    obtain ⟨k', v⟩ := p
    rw [aerase_cons, projNodes_cons, aerase_cons]
    by_cases h : k' = k
    · rw [if_pos h, if_pos h, ih]
    · rw [if_neg h, if_neg h, projNodes_cons, ih]

theorem erase_fold_eq_filter {α : Type} (ids : List String) :
    ∀ (l : List (String × α)),
      ids.foldl (fun acc id => aerase acc id) l =
        l.filter (fun p => decide (p.1 ∉ ids)) := by
  induction ids with
  | nil =>
    intro l
    show l = _
    rw [List.filter_eq_self.mpr]
    intro p _
    simp
  | cons i ids ih =>
    intro l
    rw [List.foldl_cons, ih]
    unfold aerase
    rw [List.filter_filter]
    apply List.filter_congr
    intro p _
    by_cases h1 : p.1 = i <;> by_cases h2 : p.1 ∈ ids <;> simp [h1, h2]

theorem alookup_isSome_of_mem {α : Type} (l : List (String × α)) (p : String × α)
    (h : p ∈ l) : (alookup l p.1).isSome = true := by
  induction l with
  | nil => cases h
  | cons q t ih =>
    obtain ⟨k', v⟩ := q
    rw [List.mem_cons] at h
    show (if k' = p.1 then some v else alookup t p.1).isSome = true
    by_cases hk : k' = p.1
    · rw [if_pos hk]; rfl
    · rw [if_neg hk]
      rcases h with heq | hmem
      · rw [heq] at hk; exact absurd rfl hk
      · exact ih hmem

theorem mem_nodup_value_unique {α : Type} (l : List (String × α)) (k : String)
    (v1 v2 : α) (hnd : NodupKeys l) (h1 : (k, v1) ∈ l) (h2 : (k, v2) ∈ l) :
    v1 = v2 := by
  have e1 := alookup_of_mem_nodup k v1 l hnd h1
  have e2 := alookup_of_mem_nodup k v2 l hnd h2
  rw [e1] at e2
  exact Option.some.inj e2

/-- The store mutations whose recorded changes delta replay understands
(update_link is recorded as Change::UpdateLink in store.rs but the Change
enum of types.rs has no such variant, so it is outside this alphabet). -/
inductive Mutation where
  | create (new_id parent_id node_type content : String)
      (metadata : Option Metadata) (temporal : Option TemporalMetadata) (now : Nat)
  | update (node_id : String) (content : Option String) (metadata : Option Metadata)
      (temporal : Option TemporalMetadata) (reason : Option String) (now : Nat)
  | delete (node_id : String)
  | addLink (new_id from_node to_node relation : String) (bidirectional : Bool)
      (confidence : Option String) (now : Nat)
  | removeLink (link_id : String)

def applyMutation (s : StoreState) : Mutation → StoreState
  | .create a b c d e f g => (GraphStore.create_node s true a b c d e f g).1
  | .update a b c d e f => (GraphStore.update_node s true a b c d e f).1
  | .delete nid => (GraphStore.delete_node s true s.graph.nodes.length nid).1
  | .addLink a b c d e f g => (GraphStore.add_link s true a b c d e f g).1
  | .removeLink l => (GraphStore.delete_link s true l).1

def runMutations (s : StoreState) (ms : List Mutation) : StoreState :=
  ms.foldl applyMutation s

/-- The per-step side conditions the spec guarantees: fresh uuids and the
section-3 well-formedness invariants the mutation relies on. -/
def StepOk (s : StoreState) : Mutation → Prop
  | .create new_id _ _ _ _ _ _ =>
      ChildrenWf s.graph ∧ alookup s.graph.nodes new_id = none
  | .delete _ => KeysMatch s.graph ∧ NodupKeys s.graph.links
  | _ => True

def OkSeq : StoreState → List Mutation → Prop
  | _, [] => True
  | s, m :: ms => StepOk s m ∧ OkSeq (applyMutation s m) ms

/-- The replay invariant: replaying the pending changes onto the base
graph reproduces the live graph exactly on links and root and up to
projNode on nodes. -/
def ReplayInv (g0 : Graph) (s : StoreState) : Prop :=
  projNodes (apply_delta g0 { changes := s.pending }).nodes = projNodes s.graph.nodes ∧
  (apply_delta g0 { changes := s.pending }).links = s.graph.links ∧
  (apply_delta g0 { changes := s.pending }).root_id = s.graph.root_id ∧
  s.hasRepo = true

theorem apply_delta_snoc (g0 : Graph) (cs : List Change) (c : Change) :
    apply_delta g0 { changes := cs ++ [c] } =
      applyChange (apply_delta g0 { changes := cs }) c := by
  unfold apply_delta
  rw [List.foldl_append]
  rfl

theorem record_change_hasRepo (s : StoreState) (c : Change) (h : s.hasRepo = true) :
    record_change s c = { s with pending := s.pending ++ [c] } := by
  unfold record_change
  rw [h, if_pos rfl]

theorem record_change_mk (g f : Graph) (p : List Change) (b : Bool) (c : Change)
    (h : b = true) :
    record_change { graph := g, file := f, pending := p, hasRepo := b } c =
      { graph := g, file := f, pending := p ++ [c], hasRepo := b } := by
  unfold record_change
  dsimp only
  rw [h, if_pos rfl]

theorem projNode_set_children (q : Node) (C : List String) :
    projNode { q with children := C } = { projNode q with children := C } := rfl

theorem projNode_set_metadata (q : Node) (m : Metadata) :
    projNode { q with metadata := m } = { projNode q with metadata := m } := rfl

theorem projNodes_amodify_rel2 (k : String) (f h : Node → Node) :
    ∀ (l1 l2 : List (String × Node)), projNodes l1 = projNodes l2 →
      (∀ q v, alookup l1 k = some q → alookup l2 k = some v →
        projNode q = projNode v → projNode (f q) = projNode (h v)) →
      projNodes (amodify l1 k f) = projNodes (amodify l2 k h) := by
  intro l1
  induction l1 with
  | nil =>
    intro l2 heq _
    cases l2 with
    | nil => rfl
    | cons q t2 => cases heq
  | cons p t1 ih =>
    intro l2 heq hcond
    cases l2 with
    | nil => cases heq
    | cons q t2 =>
      obtain ⟨k1, x1⟩ := p
      obtain ⟨k2, x2⟩ := q
      rw [projNodes_cons, projNodes_cons] at heq
      dsimp only at heq
      injection heq with h1 h2
      injection h1 with hk hval
      unfold amodify
      by_cases hkk : k1 = k
      · rw [if_pos hkk, if_pos (by rw [← hk]; exact hkk)]
        rw [projNodes_cons, projNodes_cons, h2]
        have hx := hcond x1 x2
          (by show (if k1 = k then some x1 else _) = _; rw [if_pos hkk])
          (by show (if k2 = k then some x2 else _) = _
              rw [if_pos (by rw [← hk]; exact hkk)])
          hval
        show (k1, projNode (f x1)) :: _ = (k2, projNode (h x2)) :: _
        rw [hk, hx]
      · rw [if_neg hkk, if_neg (by rw [← hk]; exact hkk)]
        have ht := ih t2 h2 (fun q v hq hv hqv => hcond q v
          (by show (if k1 = k then some x1 else alookup t1 k) = some q
              rw [if_neg hkk]; exact hq)
          (by show (if k2 = k then some x2 else alookup t2 k) = some v
              rw [if_neg (by rw [← hk]; exact hkk)]; exact hv)
          hqv)
        rw [projNodes_cons, projNodes_cons, ht]
        show (k1, projNode x1) :: _ = (k2, projNode x2) :: _
        rw [hk, hval]

theorem amodify_id {α : Type} (l : List (String × α)) (k : String) :
    amodify l k (fun v => v) = l := by
  induction l with
  | nil => rfl
  | cons p t ih =>
    obtain ⟨k', v⟩ := p
    unfold amodify
    by_cases h : k' = k
    · rw [if_pos h]
    · rw [if_neg h, ih]

theorem projNodes_amodify_eq_self (l : List (String × Node)) (k : String)
    (upd v0 : Node) (hlk : alookup l k = some v0) (h : projNode upd = projNode v0) :
    projNodes (amodify l k (fun _ => upd)) = projNodes l := by
  have := projNodes_amodify_rel2 k (fun _ => upd) (fun v => v) l l rfl
    (fun q v hq hv _ => by
      rw [hlk] at hv
      injection hv with hv2
      rw [hv2] at h
      exact h)
  rw [amodify_id] at this
  exact this

theorem step_addLink (g0 : Graph) (s : StoreState)
    (new_id from_node to_node relation : String) (bidirectional : Bool)
    (confidence : Option String) (now : Nat)
    (hinv : ReplayInv g0 s) :
    ReplayInv g0 (GraphStore.add_link s true new_id from_node to_node relation
      bidirectional confidence now).1 := by
  unfold ReplayInv at hinv ⊢
  obtain ⟨hn, hl, hr, hrepo⟩ := hinv
  unfold GraphStore.add_link
  simp only [eq_self_iff_true, if_true]
  repeat' split
  all_goals try exact ⟨hn, hl, hr, hrepo⟩
  all_goals rw [record_change_mk _ _ _ _ _ hrepo]
  all_goals refine ⟨?_, ?_, ?_, hrepo⟩
  all_goals rw [apply_delta_snoc]
  · exact hn
  · show ainsert (apply_delta g0 { changes := s.pending }).links new_id _ =
      ainsert s.graph.links new_id _
    rw [hl]
  · exact hr

theorem step_removeLink (g0 : Graph) (s : StoreState) (link_id : String)
    (hinv : ReplayInv g0 s) :
    ReplayInv g0 (GraphStore.delete_link s true link_id).1 := by
  unfold ReplayInv at hinv ⊢
  obtain ⟨hn, hl, hr, hrepo⟩ := hinv
  unfold GraphStore.delete_link
  simp only [eq_self_iff_true, if_true]
  repeat' split
  all_goals try exact ⟨hn, hl, hr, hrepo⟩
  all_goals rw [record_change_mk _ _ _ _ _ hrepo]
  all_goals refine ⟨?_, ?_, ?_, hrepo⟩
  all_goals rw [apply_delta_snoc]
  · exact hn
  · show aerase (apply_delta g0 { changes := s.pending }).links link_id =
      aerase s.graph.links link_id
    rw [hl]
  · exact hr

theorem step_create (g0 : Graph) (s : StoreState)
    (new_id parent_id node_type content : String) (metadata : Option Metadata)
    (temporal : Option TemporalMetadata) (now : Nat)
    (hinv : ReplayInv g0 s)
    (hcw : ChildrenWf s.graph) (hfresh : alookup s.graph.nodes new_id = none) :
    ReplayInv g0 (GraphStore.create_node s true new_id parent_id node_type content
      metadata temporal now).1 := by
  unfold ReplayInv at hinv ⊢
  obtain ⟨hn, hl, hr, hrepo⟩ := hinv
  unfold GraphStore.create_node
  split
  · exact ⟨hn, hl, hr, hrepo⟩
  · rename_i p0 hlkP
    split
    · exact ⟨hn, hl, hr, hrepo⟩
    · rename_i nt hnt
      simp only [eq_self_iff_true, if_true]
      rw [record_change_mk _ _ _ _ _ hrepo]
      refine ⟨?_, ?_, ?_, hrepo⟩
      all_goals rw [apply_delta_snoc]
      · -- nodes
        show projNodes (applyChange _ (.CreateNode new_id _)).nodes = _
        unfold applyChange
        dsimp only
        have hPrep : (alookup (apply_delta g0 { changes := s.pending }).nodes
            parent_id).map projNode = some (projNode p0) := by
          rw [← alookup_projNodes, hn, alookup_projNodes, hlkP]
          rfl
        cases hq : alookup (apply_delta g0 { changes := s.pending }).nodes
            parent_id with
        | none => rw [hq] at hPrep; cases hPrep
        | some q0 =>
          rw [hq] at hPrep
          simp only [Option.map_some'] at hPrep
          injection hPrep with hq0
          have hchq : q0.children = p0.children := by
            have h3 := congrArg Node.children hq0
            exact h3
          have hnotmem : new_id ∉ q0.children := by
            rw [hchq]
            intro hm
            have h2 := (hcw (parent_id, p0) (alookup_mem _ _ _ hlkP) new_id hm).2
            rw [hfresh] at h2
            simp at h2
          simp only [hq]
          rw [if_neg hnotmem]
          refine projNodes_ainsert_rel new_id _ _ rfl _ _
            (projNodes_amodify_rel2 parent_id _ _ _ _ hn ?_)
          intro q v _ _ hqv
          have hc : q.children = v.children := by
            have h3 := congrArg Node.children hqv
            exact h3
          calc projNode { q with children := q.children ++ [new_id] }
              = { projNode q with children := q.children ++ [new_id] } := rfl
            _ = { projNode v with children := v.children ++ [new_id] } := by
                rw [hqv, hc]
            _ = projNode { v with children := v.children ++ [new_id] } := rfl
      · exact hl
      · exact hr

def updFun (new_c : Option String) (new_m : Option Metadata) : Node → Node :=
  fun n =>
    let n1 := match new_c with | some c => { n with content := c } | none => n
    match new_m with | some m => { n1 with metadata := m } | none => n1

theorem update_record_nodes (R L : List (String × Node)) (node_id : String)
    (node0 upd : Node) (new_c : Option String) (new_m : Option Metadata)
    (hn : projNodes R = projNodes L)
    (hlk : alookup L node_id = some node0)
    (hproj : projNode upd = { projNode node0 with
        content := upd.content, metadata := upd.metadata })
    (hcc : new_c = some upd.content ∨ (new_c = none ∧ upd.content = node0.content))
    (hmm : new_m = some upd.metadata ∨ (new_m = none ∧ upd.metadata = node0.metadata)) :
    projNodes (amodify R node_id (updFun new_c new_m)) =
    projNodes (amodify L node_id (fun _ => upd)) := by
  apply projNodes_amodify_rel2 _ _ _ _ _ hn
  intro q v _ hv hqv
  rw [hlk] at hv
  injection hv with hv2
  subst hv2
  unfold updFun
  rcases hcc with hcc | ⟨hcc, hceq⟩ <;> rcases hmm with hmm | ⟨hmm, hmeq⟩ <;>
    subst hcc <;> subst hmm
  · calc projNode { { q with content := upd.content } with metadata := upd.metadata }
        = { projNode q with content := upd.content, metadata := upd.metadata } := rfl
      _ = { projNode node0 with content := upd.content, metadata := upd.metadata } := by
          rw [hqv]
      _ = projNode upd := hproj.symm
  · calc projNode { q with content := upd.content }
        = { projNode q with content := upd.content } := rfl
      _ = { projNode node0 with content := upd.content } := by rw [hqv]
      _ = { projNode node0 with content := upd.content, metadata := node0.metadata } := rfl
      _ = { projNode node0 with content := upd.content, metadata := upd.metadata } := by
          rw [hmeq]
      _ = projNode upd := hproj.symm
  · calc projNode { q with metadata := upd.metadata }
        = { projNode q with metadata := upd.metadata } := rfl
      _ = { projNode node0 with metadata := upd.metadata } := by rw [hqv]
      _ = { projNode node0 with content := node0.content, metadata := upd.metadata } := rfl
      _ = { projNode node0 with content := upd.content, metadata := upd.metadata } := by
          rw [hceq]
      _ = projNode upd := hproj.symm
  · calc projNode q = projNode node0 := hqv
      _ = { projNode node0 with content := node0.content, metadata := node0.metadata } := rfl
      _ = { projNode node0 with content := upd.content, metadata := upd.metadata } := by
          rw [hceq, hmeq]
      _ = projNode upd := hproj.symm

theorem step_update_record_all (g0 : Graph) (s : StoreState) (node_id : String)
    (node0 upd : Node) (oc new_c : Option String) (om : Option Metadata)
    (new_m : Option Metadata)
    (hinv : ReplayInv g0 s)
    (hlk : alookup s.graph.nodes node_id = some node0)
    (hproj : projNode upd = { projNode node0 with
        content := upd.content, metadata := upd.metadata })
    (hcc : new_c = some upd.content ∨ (new_c = none ∧ upd.content = node0.content))
    (hmm : new_m = some upd.metadata ∨ (new_m = none ∧ upd.metadata = node0.metadata)) :
    ReplayInv g0 (record_change { s with
        graph := { s.graph with
          nodes := amodify s.graph.nodes node_id (fun _ => upd) }
        file := { s.graph with
          nodes := amodify s.graph.nodes node_id (fun _ => upd) } }
      (.UpdateNode node_id oc new_c om new_m)) := by
  unfold ReplayInv at hinv ⊢
  obtain ⟨hn, hl, hr, hrepo⟩ := hinv
  rw [record_change_mk _ _ _ _ _ hrepo]
  have hPrep : (alookup (apply_delta g0 { changes := s.pending }).nodes
      node_id).map projNode = some (projNode node0) := by
    rw [← alookup_projNodes, hn, alookup_projNodes, hlk]
    rfl
  refine ⟨?_, ?_, ?_, hrepo⟩
  · rw [apply_delta_snoc]
    show projNodes (applyChange _ (.UpdateNode node_id oc new_c om new_m)).nodes =
      projNodes (amodify s.graph.nodes node_id (fun _ => upd))
    unfold applyChange
    cases hq : alookup (apply_delta g0 { changes := s.pending }).nodes node_id with
    | none => rw [hq] at hPrep; cases hPrep
    | some q0 =>
      simp only [hq]
      exact update_record_nodes _ _ node_id node0 upd new_c new_m hn hlk hproj hcc hmm
  · rw [apply_delta_snoc]
    show (applyChange _ (.UpdateNode node_id oc new_c om new_m)).links = s.graph.links
    unfold applyChange
    cases hq : alookup (apply_delta g0 { changes := s.pending }).nodes node_id <;>
      simp only [hq] <;> exact hl
  · rw [apply_delta_snoc]
    show (applyChange _ (.UpdateNode node_id oc new_c om new_m)).root_id =
      s.graph.root_id
    unfold applyChange
    cases hq : alookup (apply_delta g0 { changes := s.pending }).nodes node_id <;>
      simp only [hq] <;> exact hr

theorem step_update_norecord (g0 : Graph) (s : StoreState) (node_id : String)
    (node0 upd : Node)
    (hinv : ReplayInv g0 s)
    (hlk : alookup s.graph.nodes node_id = some node0)
    (hproj : projNode upd = projNode node0) :
    ReplayInv g0 { s with
      graph := { s.graph with
        nodes := amodify s.graph.nodes node_id (fun _ => upd) }
      file := { s.graph with
        nodes := amodify s.graph.nodes node_id (fun _ => upd) } } := by
  unfold ReplayInv at hinv ⊢
  obtain ⟨hn, hl, hr, hrepo⟩ := hinv
  refine ⟨?_, hl, hr, hrepo⟩
  show projNodes (apply_delta g0 { changes := s.pending }).nodes =
    projNodes (amodify s.graph.nodes node_id (fun _ => upd))
  rw [projNodes_amodify_eq_self s.graph.nodes node_id upd node0 hlk hproj]
  exact hn

theorem step_update (g0 : Graph) (s : StoreState) (node_id : String)
    (content : Option String) (metadata : Option Metadata)
    (temporal : Option TemporalMetadata) (reason : Option String) (now : Nat)
    (hinv : ReplayInv g0 s) :
    ReplayInv g0 (GraphStore.update_node s true node_id content metadata temporal
      reason now).1 := by
  unfold GraphStore.update_node
  split
  · exact hinv
  · rename_i node0 hlk
    dsimp only
    cases content with
    | none =>
      dsimp only
      cases metadata with
      | none =>
        dsimp only
        simp only [Bool.false_or, Bool.false_eq_true, if_false, eq_self_iff_true,
          if_true]
        exact step_update_norecord g0 s node_id node0 _ hinv hlk
          (by cases temporal <;> rfl)
      | some nm =>
        dsimp only
        by_cases hb : decide (nm ≠ node0.metadata) = true
        · simp only [Bool.false_or, Bool.true_or, hb, eq_self_iff_true, if_true,
            Bool.false_eq_true, if_false]
          exact step_update_record_all g0 s node_id node0 _ _ _ _ _ hinv hlk
            (by cases temporal <;> rfl)
            (Or.inr ⟨rfl, by cases temporal <;> rfl⟩)
            (Or.inl rfl)
        · have hb2 : decide (nm ≠ node0.metadata) = false := by
            cases hdec : decide (nm ≠ node0.metadata)
            · rfl
            · exact absurd hdec hb
          have hnm : nm = node0.metadata := by
            have h3 := of_decide_eq_false hb2
            exact not_not.mp h3
          simp only [Bool.false_or, Bool.true_or, hb2, Bool.false_eq_true,
            if_false, eq_self_iff_true, if_true]
          exact step_update_norecord g0 s node_id node0 _ hinv hlk
            (by cases temporal <;> (rw [hnm]; try rfl))
    | some nc =>
      dsimp only
      by_cases hch : nc ≠ node0.content
      · rw [if_pos hch]
        dsimp only
        cases metadata with
        | none =>
          dsimp only
          simp only [Bool.true_or, eq_self_iff_true, if_true, Bool.false_eq_true,
            if_false]
          exact step_update_record_all g0 s node_id node0 _ _ _ _ _ hinv hlk
            (by cases temporal <;> rfl)
            (Or.inl rfl)
            (Or.inr ⟨rfl, by cases temporal <;> rfl⟩)
        | some nm =>
          dsimp only
          by_cases hb : decide (nm ≠ node0.metadata) = true
          · simp only [Bool.false_or, Bool.true_or, hb, eq_self_iff_true, if_true,
              Bool.false_eq_true, if_false]
            exact step_update_record_all g0 s node_id node0 _ _ _ _ _ hinv hlk
              (by cases temporal <;> rfl)
              (Or.inl rfl)
              (Or.inl rfl)
          · have hb2 : decide (nm ≠ node0.metadata) = false := by
              cases hdec : decide (nm ≠ node0.metadata)
              · rfl
              · exact absurd hdec hb
            have hnm : nm = node0.metadata := by
              have h3 := of_decide_eq_false hb2
              exact not_not.mp h3
            simp only [Bool.false_or, Bool.true_or, hb2, Bool.false_eq_true,
              if_false, eq_self_iff_true, if_true]
            exact step_update_record_all g0 s node_id node0 _ _ _ _ _ hinv hlk
              (by cases temporal <;> rfl)
              (Or.inl rfl)
              (Or.inr ⟨rfl, by cases temporal <;> exact hnm⟩)
      · rw [if_neg hch]
        dsimp only
        cases metadata with
        | none =>
          dsimp only
          simp only [Bool.false_or, Bool.false_eq_true, if_false, eq_self_iff_true,
            if_true]
          exact step_update_norecord g0 s node_id node0 _ hinv hlk
            (by cases temporal <;> rfl)
        | some nm =>
          dsimp only
          by_cases hb : decide (nm ≠ node0.metadata) = true
          · simp only [Bool.false_or, Bool.true_or, hb, eq_self_iff_true, if_true,
              Bool.false_eq_true, if_false]
            exact step_update_record_all g0 s node_id node0 _ _ _ _ _ hinv hlk
              (by cases temporal <;> rfl)
              (Or.inr ⟨rfl, by cases temporal <;> rfl⟩)
              (Or.inl rfl)
          · have hb2 : decide (nm ≠ node0.metadata) = false := by
              cases hdec : decide (nm ≠ node0.metadata)
              · rfl
              · exact absurd hdec hb
            have hnm : nm = node0.metadata := by
              have h3 := of_decide_eq_false hb2
              exact not_not.mp h3
            simp only [Bool.false_or, Bool.true_or, hb2, Bool.false_eq_true,
              if_false, eq_self_iff_true, if_true]
            exact step_update_norecord g0 s node_id node0 _ hinv hlk
              (by cases temporal <;> (rw [hnm]; try rfl))

theorem projNodes_filter (p : String × Node → Bool)
    (hp : ∀ k n, p (k, projNode n) = p (k, n)) :
    ∀ l, projNodes (l.filter p) = (projNodes l).filter p := by
  intro l
  induction l with
  | nil => rfl
  | cons q t ih =>
    obtain ⟨k, v⟩ := q
    rw [List.filter_cons, projNodes_cons, List.filter_cons]
    dsimp only
    rw [hp k v]
    by_cases hc : p (k, v) = true
    · rw [if_pos hc, if_pos hc, projNodes_cons, ih]
    · rw [if_neg hc, if_neg hc, ih]

theorem isSome_of_mem_akeys {α : Type} (l : List (String × α)) (k : String)
    (h : k ∈ akeys l) : (alookup l k).isSome = true := by
  unfold akeys at h
  rw [List.mem_map] at h
  obtain ⟨p, hp, hk⟩ := h
  rw [← hk]
  exact alookup_isSome_of_mem _ _ hp

theorem mem_projNodes_key (l : List (String × Node)) (q : String × Node)
    (h : q ∈ projNodes l) : ∃ v, (q.1, v) ∈ l := by
  unfold projNodes at h
  rw [List.mem_map] at h
  obtain ⟨p, hp, hq⟩ := h
  refine ⟨p.2, ?_⟩
  rw [← hq]
  exact hp

theorem projNodes_erase_fold_congr (idsA idsB : List String)
    (A B : List (String × Node)) (h : projNodes A = projNodes B)
    (hiff : ∀ q : String × Node, q ∈ B → (q.1 ∈ idsA ↔ q.1 ∈ idsB)) :
    projNodes (idsA.foldl (fun acc i => aerase acc i) A) =
    projNodes (idsB.foldl (fun acc i => aerase acc i) B) := by
  rw [erase_fold_eq_filter, erase_fold_eq_filter]
  rw [projNodes_filter _ (by intro k n; rfl), projNodes_filter _ (by intro k n; rfl), h]
  apply List.filter_congr
  intro q hq
  obtain ⟨v, hv⟩ := mem_projNodes_key _ _ hq
  have hif : q.1 ∈ idsA ↔ q.1 ∈ idsB := hiff (q.1, v) hv
  by_cases hqa : q.1 ∈ idsA
  · have hb := hif.mp hqa
    exact decide_eq_decide.mpr
      (iff_of_false (fun hn => hn hqa) (fun hn => hn hb))
  · have hnb : q.1 ∉ idsB := fun hc => hqa (hif.mpr hc)
    exact decide_eq_decide.mpr (iff_of_true hqa hnb)

theorem links_replay_eq (Ll : List (String × Link)) (td : List String)
    (hnd : NodupKeys Ll) (hkm : ∀ p ∈ Ll, (p : String × Link).2.id = p.1) :
    ((Ll.filter (fun p =>
        p.2.from_node ∈ td ∨ p.2.to_node ∈ td)).map (fun p => p.2)).foldl
      (fun acc dl => aerase acc dl.id) Ll =
    Ll.filter (fun p => p.2.from_node ∉ td ∧ p.2.to_node ∉ td) := by
  have hfm := List.foldl_map (Link.id)
    (fun (acc : List (String × Link)) (i : String) => aerase acc i)
    ((Ll.filter (fun p => p.2.from_node ∈ td ∨ p.2.to_node ∈ td)).map
      (fun p => p.2)) Ll
  rw [← hfm, erase_fold_eq_filter]
  apply List.filter_congr
  intro q hq
  by_cases htouch : (q.2.from_node ∈ td ∨ q.2.to_node ∈ td)
  · have hidmem : q.1 ∈ ((Ll.filter (fun p =>
        p.2.from_node ∈ td ∨ p.2.to_node ∈ td)).map (fun p => p.2)).map Link.id := by
      rw [List.map_map, List.mem_map]
      refine ⟨q, List.mem_filter.mpr ⟨hq, by simpa using htouch⟩, ?_⟩
      exact hkm q hq
    refine decide_eq_decide.mpr
      (iff_of_false (fun hn => hn hidmem) ?_)
    rcases htouch with ht | ht
    · exact fun hand => hand.1 ht
    · exact fun hand => hand.2 ht
  · have hidnot : q.1 ∉ ((Ll.filter (fun p =>
        p.2.from_node ∈ td ∨ p.2.to_node ∈ td)).map (fun p => p.2)).map Link.id := by
      intro hmem
      rw [List.map_map, List.mem_map] at hmem
      obtain ⟨p0, hp0, hid⟩ := hmem
      rw [List.mem_filter] at hp0
      have hkk : p0.2.id = p0.1 := hkm p0 hp0.1
      have hkeq : p0.1 = q.1 := by rw [← hkk]; exact hid
      have hvaleq : p0.2 = q.2 := by
        have hp0m : (q.1, p0.2) ∈ Ll := by rw [← hkeq]; exact hp0.1
        exact mem_nodup_value_unique Ll q.1 p0.2 q.2 hnd hp0m hq
      have hdec := hp0.2
      rw [hvaleq] at hdec
      simp only [decide_eq_true_eq] at hdec
      exact htouch hdec
    rw [not_or] at htouch
    exact decide_eq_decide.mpr (iff_of_true hidnot ⟨htouch.1, htouch.2⟩)

theorem delete_replay_nodes (Ln : List (String × Node)) (node_id : String)
    (td : List String) (N1R N1L : List (String × Node))
    (h1 : projNodes N1R = projNodes N1L)
    (hkeys : ∀ q : String × Node, q ∈ N1L → (alookup Ln q.1).isSome = true)
    (hkm : ∀ p ∈ Ln, (p : String × Node).2.id = p.1)
    (hmem_nid : node_id ∈ td) :
    projNodes ((td.filterMap (fun i => alookup Ln i)).foldl
      (fun acc dnn => aerase acc dnn.id) (aerase N1R node_id)) =
    projNodes (td.foldl (fun acc i => aerase acc i) N1L) := by
  have hfm := List.foldl_map (Node.id)
    (fun (acc : List (String × Node)) (i : String) => aerase acc i)
    (td.filterMap (fun i => alookup Ln i)) (aerase N1R node_id)
  rw [← hfm]
  show projNodes ((node_id :: (td.filterMap (fun i => alookup Ln i)).map
      Node.id).foldl (fun acc i => aerase acc i) N1R) = _
  apply projNodes_erase_fold_congr _ _ _ _ h1
  intro q hqmem
  have hpres := hkeys q hqmem
  constructor
  · intro hA
    rw [List.mem_cons] at hA
    rcases hA with heq | hin
    · rw [heq]
      exact hmem_nid
    · rw [List.mem_map] at hin
      obtain ⟨w, hw, hid⟩ := hin
      rw [List.mem_filterMap] at hw
      obtain ⟨x, hx, hxw⟩ := hw
      have hwid : w.id = x := hkm (x, w) (alookup_mem _ _ _ hxw)
      rw [← hid, hwid]
      exact hx
  · intro hB
    cases hw : alookup Ln q.1 with
    | none => rw [hw] at hpres; cases hpres
    | some w =>
      have hwid : w.id = q.1 := hkm (q.1, w) (alookup_mem _ _ _ hw)
      refine List.mem_cons_of_mem _ ?_
      rw [List.mem_map]
      exact ⟨w, List.mem_filterMap.mpr ⟨q.1, hB, hw⟩, hwid⟩

theorem step_delete (g0 : Graph) (s : StoreState) (node_id : String)
    (hinv : ReplayInv g0 s) (hkm : KeysMatch s.graph)
    (hndl : NodupKeys s.graph.links) :
    ReplayInv g0 (GraphStore.delete_node s true s.graph.nodes.length node_id).1 := by
  unfold ReplayInv at hinv ⊢
  obtain ⟨hn, hl, hr, hrepo⟩ := hinv
  unfold GraphStore.delete_node
  split
  · exact ⟨hn, hl, hr, hrepo⟩
  · split
    · exact ⟨hn, hl, hr, hrepo⟩
    · rename_i nd hnd
      simp only [hnd, Option.some_bind, eq_self_iff_true, if_true]
      rw [record_change_mk _ _ _ _ _ hrepo]
      have hPrep : (alookup (apply_delta g0 { changes := s.pending }).nodes
          node_id).map projNode = some (projNode nd) := by
        rw [← alookup_projNodes, hn, alookup_projNodes, hnd]
        rfl
      refine ⟨?_, ?_, ?_, hrepo⟩
      · rw [apply_delta_snoc]
        show projNodes (applyChange _ (.DeleteNode node_id _ _)).nodes = _
        unfold applyChange
        cases hq : alookup (apply_delta g0 { changes := s.pending }).nodes
            node_id with
        | none => rw [hq] at hPrep; cases hPrep
        | some q0 =>
          simp only [hq, Option.some_bind]
          have hqp : projNode q0 = projNode nd := by
            rw [hq] at hPrep
            simp only [Option.map_some'] at hPrep
            injection hPrep
          have hqpar : q0.parent_id = nd.parent_id := by
            have h3 := congrArg Node.parent_id hqp
            exact h3
          rw [hqpar]
          refine delete_replay_nodes s.graph.nodes node_id _ _ _ ?_ ?_ hkm.1
            (by simp)
          · cases hpar : nd.parent_id with
            | none => exact hn
            | some P =>
              refine projNodes_amodify_rel2 P _ _ _ _ hn ?_
              intro a b _ _ hab
              have hcab : a.children = b.children := by
                have h3 := congrArg Node.children hab
                exact h3
              calc projNode { a with
                    children := a.children.filter (fun c => c ≠ node_id) }
                  = { projNode a with
                      children := a.children.filter (fun c => c ≠ node_id) } := rfl
                _ = { projNode b with
                      children := b.children.filter (fun c => c ≠ node_id) } := by
                    rw [hab, hcab]
                _ = projNode { b with
                      children := b.children.filter (fun c => c ≠ node_id) } := rfl
          · cases hpar : nd.parent_id with
            | none =>
              intro q hqmem
              exact alookup_isSome_of_mem _ _ hqmem
            | some P =>
              intro q hqmem
              have hk : q.1 ∈ akeys s.graph.nodes := by
                rw [← akeys_amodify P (fun p => { p with
                  children := p.children.filter (fun c => c ≠ node_id) })]
                exact List.mem_map.mpr ⟨q, hqmem, rfl⟩
              exact isSome_of_mem_akeys _ _ hk
      · rw [apply_delta_snoc]
        show (links_touching s.graph _).foldl
          (fun acc dl => aerase acc dl.id)
          (apply_delta g0 { changes := s.pending }).links = _
        rw [hl]
        exact links_replay_eq s.graph.links _ hndl hkm.2
      · rw [apply_delta_snoc]
        exact hr

def c1_initCD (t0 : Nat) : CommitData :=
  { parents := [], message := "Initial snapshot", timestamp := t0
    source := .Migration, storage_type := .snapshot, depth_since_snapshot := 0 }

def c1_newCD (hashC : CommitData → String) (input : CommitInput)
    (t0 now : Nat) : CommitData :=
  { parents := [hashC (c1_initCD t0)], message := input.message, timestamp := now
    source := input.source, storage_type := .delta, depth_since_snapshot := 0 + 1 }

def c1_repo1 (hashC : CommitData → String) (g0 : Graph) (input : CommitInput)
    (pending : List Change) (t0 now : Nat) : RepoState :=
  { commits := [(hashC (c1_initCD t0), c1_initCD t0),
      (hashC (c1_newCD hashC input t0 now), c1_newCD hashC input t0 now)]
    snapshots := [(hashC (c1_initCD t0), g0)]
    deltas := [(hashC (c1_newCD hashC input t0 now), { changes := pending })]
    branches := [("main", hashC (c1_newCD hashC input t0 now))]
    head := .Branch "main"
    config := RepoConfig.default }

theorem commit_after_init (hashC : CommitData → String) (g0 : Graph)
    (t0 now : Nat) (input : CommitInput) (pending : List Change) (graph : Graph)
    (hpend : pending.isEmpty = false)
    (hne : ¬ hashC (c1_newCD hashC input t0 now) = hashC (c1_initCD t0)) :
    Repository.create_commit hashC (Repository.init hashC g0 t0).1 input
      pending graph now =
      (c1_repo1 hashC g0 input pending t0 now,
        .ok (hashC (c1_newCD hashC input t0 now))) ∧
    Repository.reconstruct_at (c1_repo1 hashC g0 input pending t0 now) 2
      (hashC (c1_newCD hashC input t0 now)) =
      .ok (apply_delta g0 { changes := pending }) := by
  have hne2 : ¬ hashC (c1_initCD t0) = hashC (c1_newCD hashC input t0 now) :=
    fun hc => hne hc.symm
  simp only [c1_newCD, c1_initCD, Nat.zero_add] at hne hne2
  constructor
  · simp [Repository.create_commit, Repository.init, Repository.resolve_head,
      alookup, ainsert, RepoConfig.default, c1_repo1, c1_newCD, c1_initCD,
      hpend, hne2]
  · simp [Repository.reconstruct_at, Repository.reconstruct_walk,
      Repository.replay_deltas, c1_repo1, c1_newCD, c1_initCD, alookup,
      hne, hne2, apply_delta]

theorem runMutations_inv (g0 : Graph) :
    ∀ (ms : List Mutation) (s : StoreState), ReplayInv g0 s → OkSeq s ms →
      ReplayInv g0 (runMutations s ms) := by
  intro ms
  induction ms with
  | nil => intro s h _; exact h
  | cons m ms ih =>
    intro s h hok
    obtain ⟨hstep, hrest⟩ := hok
    refine ih (applyMutation s m) ?_ hrest
    cases m with
    | create a b c d e f g =>
      obtain ⟨hcw, hfresh⟩ := hstep
      exact step_create g0 s a b c d e f g h hcw hfresh
    | update a b c d e f => exact step_update g0 s a b c d e f h
    | delete nid =>
      obtain ⟨hkm, hndl⟩ := hstep
      exact step_delete g0 s nid h hkm hndl
    | addLink a b c d e f g => exact step_addLink g0 s a b c d e f g h
    | removeLink l => exact step_removeLink g0 s l h

def c1_base (g0 : Graph) : StoreState :=
  { graph := g0, file := g0, pending := [], hasRepo := true }

/-- C1 (amended): from a freshly initialised repository, running any
uuid-fresh, invariant-respecting sequence of replayable mutations and
committing the pending changes yields a commit whose reconstruction
equals the live graph on links, root and every projNode field of every
node (id, type, content, parent, children, metadata, created_at) — but
only up to projNode: previous_values, temporal and updated_at are not
reproduced (see the counterexample). -/
theorem c1_commit_replay :
    ∀ (hashC : CommitData → String) (g0 : Graph) (ms : List Mutation)
      (input : CommitInput) (t0 now : Nat),
      OkSeq (c1_base g0) ms →
      ¬ hashC (c1_newCD hashC input t0 now) = hashC (c1_initCD t0) →
      (runMutations (c1_base g0) ms).pending.isEmpty = false →
      ∃ (h : String) (grec : Graph),
        (GraphStore.commit hashC (Repository.init hashC g0 t0).1
          (runMutations (c1_base g0) ms) input now).2.2 = .ok h ∧
        Repository.reconstruct_at
          (GraphStore.commit hashC (Repository.init hashC g0 t0).1
            (runMutations (c1_base g0) ms) input now).1 2 h = .ok grec ∧
        projNodes grec.nodes =
          projNodes (runMutations (c1_base g0) ms).graph.nodes ∧
        grec.links = (runMutations (c1_base g0) ms).graph.links ∧
        grec.root_id = (runMutations (c1_base g0) ms).graph.root_id := by
  intro hashC g0 ms input t0 now hok hne hpend
  have hinv0 : ReplayInv g0 (c1_base g0) := ⟨rfl, rfl, rfl, rfl⟩
  have hinv := runMutations_inv g0 ms _ hinv0 hok
  unfold ReplayInv at hinv
  obtain ⟨hn, hl, hr, hrepo⟩ := hinv
  have hcomb := commit_after_init hashC g0 t0 now input
    (runMutations (c1_base g0) ms).pending
    (runMutations (c1_base g0) ms).graph hpend hne
  have hcommit : GraphStore.commit hashC (Repository.init hashC g0 t0).1
      (runMutations (c1_base g0) ms) input now =
      (c1_repo1 hashC g0 input (runMutations (c1_base g0) ms).pending t0 now,
        { graph := (runMutations (c1_base g0) ms).graph
          file := (runMutations (c1_base g0) ms).file
          pending := [], hasRepo := true },
        .ok (hashC (c1_newCD hashC input t0 now))) := by
    unfold GraphStore.commit
    rw [hrepo, if_pos rfl, hcomb.1]
  refine ⟨hashC (c1_newCD hashC input t0 now),
    apply_delta g0 { changes := (runMutations (c1_base g0) ms).pending },
    ?_, ?_, hn, hl, hr⟩
  · rw [hcommit]
  · rw [hcommit]
    exact hcomb.2

def c1_g0 : Graph :=
  { root_id := "root"
    nodes := [
      ("root",
        { id := "root", node_type := .root, content := "User", parent_id := none
          children := ["n"], metadata := [], previous_values := [], temporal := none
          created_at := 0, updated_at := 0 }),
      ("n",
        { id := "n", node_type := .detail, content := "a", parent_id := some "root"
          children := [], metadata := [], previous_values := [], temporal := none
          created_at := 0, updated_at := 0 })]
    links := [] }

def c1_s0 : StoreState :=
  { graph := c1_g0, file := c1_g0, pending := [], hasRepo := true }

def c1_s1 : StoreState :=
  (GraphStore.update_node c1_s0 true "n" (some "b") none none none 1).1

def c1_hash : CommitData → String := fun cd => cd.message

def c1_input : CommitInput := { message := "c1", source := .Manual none }

/-- C1 counterexample: update a node (recording an UpdateNode change with
a previous_values entry on the live node), commit, reconstruct at the new
head: the reconstructed node has empty previous_values while the live one
records the superseded content, so the graphs differ. -/
theorem c1_counterexample :
    (GraphStore.commit c1_hash (Repository.init c1_hash c1_g0 0).1 c1_s1
      c1_input 1).2.2 = .ok "c1" ∧
    Repository.reconstruct_at
      (GraphStore.commit c1_hash (Repository.init c1_hash c1_g0 0).1 c1_s1
        c1_input 1).1 2 "c1" =
      .ok (apply_delta c1_g0 { changes := c1_s1.pending }) ∧
    (alookup (apply_delta c1_g0 { changes := c1_s1.pending }).nodes "n").map
      Node.previous_values = some [] ∧
    (alookup c1_s1.graph.nodes "n").map Node.previous_values =
      some [{ old_content := "a", superseded_at := 1, reason := none }] ∧
    ¬ apply_delta c1_g0 { changes := c1_s1.pending } = c1_s1.graph := by
  refine ⟨rfl, rfl, by decide, by decide, by decide⟩

/-- Witness for c1_commit_replay: a single content update on a two-node
graph, committed and reconstructed. -/
theorem c1_commit_replay_witness :
    ∃ (h : String) (grec : Graph),
      (GraphStore.commit c1_hash (Repository.init c1_hash c1_g0 0).1
        (runMutations (c1_base c1_g0) [.update "n" (some "b") none none none 1])
        c1_input 1).2.2 = .ok h ∧
      Repository.reconstruct_at
        (GraphStore.commit c1_hash (Repository.init c1_hash c1_g0 0).1
          (runMutations (c1_base c1_g0) [.update "n" (some "b") none none none 1])
          c1_input 1).1 2 h = .ok grec ∧
      projNodes grec.nodes = projNodes (runMutations c1_s0
        [.update "n" (some "b") none none none 1]).graph.nodes ∧
      grec.links = (runMutations c1_s0
        [.update "n" (some "b") none none none 1]).graph.links ∧
      grec.root_id = (runMutations c1_s0
        [.update "n" (some "b") none none none 1]).graph.root_id :=
  c1_commit_replay c1_hash c1_g0 [.update "n" (some "b") none none none 1]
    c1_input 0 1 ⟨trivial, trivial⟩ (by decide) (by decide)

end Willow
